import Mathlib

/-!
# Verification of the gpt-cleaner rule engine (src/app/rule_engine.py)

Shallow embedding of the rule engine: Python strings are modelled as
`List Char`, the SQLite token ledger as an explicit list of rows, and
ISO-8601 UTC timestamps as natural numbers (the `isoformat` encoding of
UTC datetimes is strictly monotone, and the engine only ever compares
such strings with `<`, so the embedding is faithful).  External library
primitives (`hashlib.sha256`, `random.Random`) are parameters of the
model; everything from `rule_engine.py`, `security.py` and the
`token_mappings` constraints of `db.py` is translated directly.
-/

namespace GptCleaner

/-- Python `str` is modelled as a list of characters. -/
abbrev Str := List Char

/-- Characters allowed in the interior of a token, per the recognizer
regex `<TKN_[A-Z0-9_]+_[0-9]{3}>` of `RuleEngine.reconcile`
(codepoint ranges: `0`-`9` is 48-57, `A`-`Z` is 65-90). -/
def tokenChar (c : Char) : Bool :=
  c = '_' || (48 ≤ c.toNat && c.toNat ≤ 57) || (65 ≤ c.toNat && c.toNat ≤ 90)

/-- Decimal digit characters `[0-9]`. -/
def digitChar (c : Char) : Bool :=
  48 ≤ c.toNat && c.toNat ≤ 57

/-- `isPre p s` holds iff `p` is a leading segment of `s`
(Python `s.startswith(p)` at offset 0). -/
def isPre : Str → Str → Bool
  | [], _ => true
  | _ :: _, [] => false
  | a :: as, b :: bs => a = b && isPre as bs

/-- Number of offsets of `s` at which `t` begins (occurrence count,
counting overlapping occurrences; for token strings occurrences can
never overlap, so this agrees with Python's `str.count`). -/
def occCount (t : Str) : Str → Nat
  | [] => 0
  | c :: rest => (if isPre t (c :: rest) then 1 else 0) + occCount t rest

/-- Python `str.count` for a non-empty needle: greedy left-to-right
non-overlapping count. -/
def pyCount (old : Str) : Str → Nat
  | [] => 0
  | c :: rest =>
    if isPre old (c :: rest) ∧ old ≠ [] then
      1 + pyCount old (List.drop (old.length - 1) rest)
    else
      pyCount old rest
termination_by s => s.length
decreasing_by
  · simp only [List.length_cons, List.length_drop]; omega
  · simp

/-- Python `str.replace` for a non-empty needle: rewrite the greedy
left-to-right non-overlapping occurrences of `old` to `new`. -/
def pyReplace (old new : Str) : Str → Str
  | [] => []
  | c :: rest =>
    if isPre old (c :: rest) ∧ old ≠ [] then
      new ++ pyReplace old new (List.drop (old.length - 1) rest)
    else
      c :: pyReplace old new rest
termination_by s => s.length
decreasing_by
  · simp only [List.length_cons, List.length_drop]; omega
  · simp

theorem isPre_iff (p s : Str) : isPre p s = true ↔ ∃ r, s = p ++ r := by
  induction p generalizing s with
  | nil => simp [isPre]
  | cons a as ih =>
    cases s with
    | nil =>
      simp [isPre]
    | cons b bs =>
      simp only [isPre, Bool.and_eq_true, decide_eq_true_eq, ih, List.cons_append]
      constructor
      · rintro ⟨rfl, r, rfl⟩; exact ⟨r, rfl⟩
      · rintro ⟨r, h⟩
        injection h with h1 h2
        exact ⟨h1.symm, r, h2⟩

theorem isPre_append (p r : Str) : isPre p (p ++ r) = true :=
  (isPre_iff p (p ++ r)).mpr ⟨r, rfl⟩

theorem isPre_refl (p : Str) : isPre p p = true := by
  have := isPre_append p []
  simpa using this

/-! ## The token grammar and its recognizer

`RuleEngine.reconcile` extracts tokens with the Python regex
`<TKN_[A-Z0-9_]+_[0-9]{3}>` via `re.findall`.  For this fixed pattern
Python's leftmost, greedy, non-overlapping matching is implemented
directly: at each position, a match exists iff the text continues with
`<TKN_`, then a maximal run of `[A-Z0-9_]` whose last four characters
are `_` followed by three digits and whose prefix before that is
non-empty, then `>` (the backtracking of the greedy `+` is forced,
because `>` can only be matched at the end of the run). -/

/-- Canonical constructor of a token string
`<TKN_<cat>_<d1 d2 d3>>`. -/
def tokStr (cat : Str) (d1 d2 d3 : Char) : Str :=
  '<' :: 'T' :: 'K' :: 'N' :: '_' :: (cat ++ '_' :: d1 :: d2 :: d3 :: ['>'])

/-- The strings generated by the recognizer grammar
`<TKN_[A-Z0-9_]+_[0-9]{3}>`. -/
def IsTok (t : Str) : Prop :=
  ∃ cat d1 d2 d3, cat ≠ [] ∧ cat.all tokenChar = true ∧
    digitChar d1 = true ∧ digitChar d2 = true ∧ digitChar d3 = true ∧
    t = tokStr cat d1 d2 d3

/-- Shape check for the maximal `[A-Z0-9_]` run following `<TKN_`:
it must be `cat ++ "_" ++ three digits` with `cat` non-empty. -/
def runShape (run : Str) : Bool :=
  match run.reverse with
  | d3 :: d2 :: d1 :: u :: _ :: _ =>
    (u = '_') && digitChar d1 && digitChar d2 && digitChar d3
  | _ => false

/-- Attempt a token match anchored at the start of `s`; on success
return the matched token and the remaining text after it. -/
def tryTok (s : Str) : Option (Str × Str) :=
  if isPre ('<' :: 'T' :: 'K' :: 'N' :: '_' :: []) s then
    if ((s.drop 5).dropWhile tokenChar).head? = some '>' ∧
        runShape ((s.drop 5).takeWhile tokenChar) = true then
      some ('<' :: 'T' :: 'K' :: 'N' :: '_' :: ((s.drop 5).takeWhile tokenChar ++ '>' :: []),
        ((s.drop 5).dropWhile tokenChar).tail)
    else
      none
  else
    none

theorem takeWhile_all_append (p : Char → Bool) (a : Str) (c : Char) (r : Str)
    (ha : a.all p = true) (hc : p c = false) :
    (a ++ c :: r).takeWhile p = a ∧ (a ++ c :: r).dropWhile p = c :: r := by
  induction a with
  | nil => simp [List.takeWhile, List.dropWhile, hc]
  | cons x xs ih =>
    simp only [List.all_cons, Bool.and_eq_true] at ha
    have := ih ha.2
    simp [List.takeWhile, List.dropWhile, ha.1, this.1, this.2]

theorem tokenChar_not_lt (c : Char) (h : tokenChar c = true) : c ≠ '<' := by
  intro rfl_h; subst rfl_h; simp [tokenChar] at h

theorem tokenChar_not_gt (c : Char) (h : tokenChar c = true) : c ≠ '>' := by
  intro rfl_h; subst rfl_h; simp [tokenChar] at h

theorem digit_tokenChar (c : Char) (h : digitChar c = true) : tokenChar c = true := by
  simp only [digitChar, Bool.and_eq_true, decide_eq_true_eq] at h
  simp only [tokenChar, Bool.or_eq_true, Bool.and_eq_true, decide_eq_true_eq]
  exact Or.inl (Or.inr ⟨h.1, h.2⟩)

theorem runShape_iff (run : Str) :
    runShape run = true ↔
      ∃ cat d1 d2 d3, cat ≠ [] ∧ digitChar d1 = true ∧ digitChar d2 = true ∧
        digitChar d3 = true ∧ run = cat ++ '_' :: d1 :: d2 :: d3 :: [] := by
  constructor
  · intro h
    unfold runShape at h
    match hrev : run.reverse with
    | d3 :: d2 :: d1 :: u :: c :: cs =>
      rw [hrev] at h
      simp only [Bool.and_eq_true, decide_eq_true_eq] at h
      obtain ⟨⟨⟨hu, h1⟩, h2⟩, h3⟩ := h
      subst hu
      refine ⟨cs.reverse ++ [c], d1, d2, d3, by simp, h1, h2, h3, ?_⟩
      have hrun : run = (d3 :: d2 :: d1 :: '_' :: c :: cs : Str).reverse := by
        rw [← hrev, List.reverse_reverse]
      rw [hrun]
      simp
    | [] => rw [hrev] at h; exact absurd h (by simp)
    | [a] => rw [hrev] at h; exact absurd h (by simp)
    | [a, b] => rw [hrev] at h; exact absurd h (by simp)
    | [a, b, e] => rw [hrev] at h; exact absurd h (by simp)
    | [a, b, e, f] => rw [hrev] at h; exact absurd h (by simp)
  · rintro ⟨cat, d1, d2, d3, hne, h1, h2, h3, rfl⟩
    unfold runShape
    have hrev : (cat ++ '_' :: d1 :: d2 :: d3 :: []).reverse
        = d3 :: d2 :: d1 :: '_' :: cat.reverse := by simp
    rw [hrev]
    match hcat : cat.reverse with
    | [] => exact absurd (by simpa using congrArg List.reverse hcat) hne
    | c :: cs => simp [h1, h2, h3]

/-- Soundness of the anchored matcher: a successful match is a token
and splits the input. -/
theorem tryTok_sound {s t r : Str} (h : tryTok s = some (t, r)) :
    IsTok t ∧ s = t ++ r := by
  unfold tryTok at h
  split at h
  · rename_i hpre
    split at h
    · rename_i hcond
      obtain ⟨hhead, hshape⟩ := hcond
      injection h with h
      injection h with h1 h2
      obtain ⟨cat, d1, d2, d3, hne, hd1, hd2, hd3, hrun⟩ := (runShape_iff _).mp hshape
      have hall : ((s.drop 5).takeWhile tokenChar).all tokenChar = true :=
        List.all_eq_true.mpr (fun c hc => List.mem_takeWhile_imp hc)
      have hcatall : cat.all tokenChar = true := by
        rw [hrun] at hall
        simp only [List.all_append, Bool.and_eq_true] at hall
        exact hall.1
      obtain ⟨r5, hr5⟩ := (isPre_iff _ _).mp hpre
      have hdrop5 : s.drop 5 = r5 := by rw [hr5]; rfl
      have hrem : (s.drop 5).dropWhile tokenChar = '>' :: r := by
        rcases hd : (s.drop 5).dropWhile tokenChar with _ | ⟨c, cs⟩
        · rw [hd] at hhead; exact absurd hhead (by simp)
        · rw [hd] at hhead h2
          simp only [List.head?_cons, Option.some.injEq] at hhead
          simp only [List.tail_cons] at h2
          rw [hhead, h2]
      constructor
      · refine ⟨cat, d1, d2, d3, hne, hcatall, hd1, hd2, hd3, ?_⟩
        rw [← h1, hrun, tokStr]
        simp
      · have hsplit : ((s.drop 5).takeWhile tokenChar) ++ ((s.drop 5).dropWhile tokenChar)
            = s.drop 5 := List.takeWhile_append_dropWhile _ _
        rw [hrem, hdrop5] at hsplit
        rw [hr5, ← h1, ← hsplit]
        simp [hdrop5, hrem]
    · exact absurd h (by simp)
  · exact absurd h (by simp)

/-- Completeness of the anchored matcher: a token at the head of the
input is matched exactly, independently of the rest of the text. -/
theorem tryTok_of_tok {t : Str} (ht : IsTok t) (r : Str) :
    tryTok (t ++ r) = some (t, r) := by
  obtain ⟨cat, d1, d2, d3, hne, hall, hd1, hd2, hd3, rfl⟩ := ht
  have hrunall : (cat ++ '_' :: d1 :: d2 :: d3 :: []).all tokenChar = true := by
    simp only [List.all_append, List.all_cons, List.all_nil, Bool.and_eq_true]
    refine ⟨hall, by decide, digit_tokenChar _ hd1, digit_tokenChar _ hd2,
      digit_tokenChar _ hd3, trivial⟩
  have hgt : tokenChar '>' = false := by decide
  have hsplit := takeWhile_all_append tokenChar
      (cat ++ '_' :: d1 :: d2 :: d3 :: []) '>' r hrunall hgt
  have hdrop5 : (tokStr cat d1 d2 d3 ++ r).drop 5
      = (cat ++ '_' :: d1 :: d2 :: d3 :: []) ++ '>' :: r := by
    unfold tokStr; simp
  have hpre : isPre ('<' :: 'T' :: 'K' :: 'N' :: '_' :: []) (tokStr cat d1 d2 d3 ++ r)
      = true := by
    apply (isPre_iff _ _).mpr
    refine ⟨cat ++ '_' :: d1 :: d2 :: d3 :: '>' :: r, ?_⟩
    unfold tokStr; simp
  have hshape : runShape (cat ++ '_' :: d1 :: d2 :: d3 :: []) = true :=
    (runShape_iff _).mpr ⟨cat, d1, d2, d3, hne, hd1, hd2, hd3, rfl⟩
  unfold tryTok
  rw [if_pos hpre, hdrop5, hsplit.1, hsplit.2]
  rw [if_pos ⟨rfl, hshape⟩]
  simp [tokStr]

/-- A token is the character `<` followed by characters that are
each different from `<`. -/
theorem IsTok.shape_lt {t : Str} (ht : IsTok t) :
    ∃ u, t = '<' :: u ∧ ∀ c ∈ u, c ≠ '<' := by
  obtain ⟨cat, d1, d2, d3, hne, hall, hd1, hd2, hd3, rfl⟩ := ht
  refine ⟨_, rfl, ?_⟩
  intro c hc
  simp only [List.mem_cons, List.mem_append, List.not_mem_nil, or_false] at hc
  rcases hc with rfl | rfl | rfl | rfl | h | rfl | rfl | rfl | rfl | rfl
  · decide
  · decide
  · decide
  · decide
  · exact tokenChar_not_lt c (List.all_eq_true.mp hall c h)
  · decide
  · exact tokenChar_not_lt _ (digit_tokenChar _ hd1)
  · exact tokenChar_not_lt _ (digit_tokenChar _ hd2)
  · exact tokenChar_not_lt _ (digit_tokenChar _ hd3)
  · decide

/-- A token is characters each different from `>` followed by a final
`>`. -/
theorem IsTok.shape_gt {t : Str} (ht : IsTok t) :
    ∃ u, t = u ++ ['>'] ∧ ∀ c ∈ u, c ≠ '>' := by
  obtain ⟨cat, d1, d2, d3, hne, hall, hd1, hd2, hd3, rfl⟩ := ht
  refine ⟨'<' :: 'T' :: 'K' :: 'N' :: '_' :: (cat ++ '_' :: d1 :: d2 :: d3 :: []),
    by simp [tokStr], ?_⟩
  intro c hc
  simp only [List.mem_cons, List.mem_append, List.not_mem_nil, or_false] at hc
  rcases hc with rfl | rfl | rfl | rfl | rfl | h | rfl | rfl | rfl | rfl
  · decide
  · decide
  · decide
  · decide
  · decide
  · exact tokenChar_not_gt c (List.all_eq_true.mp hall c h)
  · decide
  · exact tokenChar_not_gt _ (digit_tokenChar _ hd1)
  · exact tokenChar_not_gt _ (digit_tokenChar _ hd2)
  · exact tokenChar_not_gt _ (digit_tokenChar _ hd3)

/-- Two token matches starting at the same position coincide. -/
theorem tok_eq_of_pre {t1 t2 r1 r2 : Str} (h1 : IsTok t1) (h2 : IsTok t2)
    (h : t1 ++ r1 = t2 ++ r2) : t1 = t2 ∧ r1 = r2 := by
  have e1 := tryTok_of_tok h1 r1
  rw [h, tryTok_of_tok h2 r2] at e1
  injection e1 with e1
  exact ⟨(Prod.mk.injEq _ _ _ _ ▸ e1).1.symm, (Prod.mk.injEq _ _ _ _ ▸ e1).2.symm⟩

theorem tryTok_rest_lt {s t r : Str} (h : tryTok s = some (t, r)) :
    r.length < s.length := by
  obtain ⟨ht, rfl⟩ := tryTok_sound h
  obtain ⟨u, rfl, -⟩ := ht.shape_lt
  simp only [List.length_append, List.length_cons]
  omega

/-- Python `re.findall(r"<TKN_[A-Z0-9_]+_[0-9]{3}>", s)`: scan left to
right; at each position emit the anchored match if any and continue
after it, else advance one character. -/
def tokenScan : Str → List Str
  | [] => []
  | c :: rest =>
    match h : tryTok (c :: rest) with
    | some (t, r) => t :: tokenScan r
    | none => tokenScan rest
termination_by s => s.length
decreasing_by
  · exact tryTok_rest_lt h
  · simp

theorem tokenScan_cons_some {c : Char} {rest t r : Str}
    (h : tryTok (c :: rest) = some (t, r)) :
    tokenScan (c :: rest) = t :: tokenScan r := by
  rw [tokenScan, h]

theorem tokenScan_cons_none {c : Char} {rest : Str}
    (h : tryTok (c :: rest) = none) :
    tokenScan (c :: rest) = tokenScan rest := by
  rw [tokenScan, h]

/-- Every string returned by the scanner is a token occurring in the
input. -/
theorem tokenScan_sound {s u : Str} (hu : u ∈ tokenScan s) :
    IsTok u ∧ ∃ a b, s = a ++ u ++ b := by
  induction s using tokenScan.induct with
  | case1 => simp [tokenScan] at hu
  | case2 c rest t r h ih =>
    rw [tokenScan_cons_some h] at hu
    obtain ⟨ht, hsplit⟩ := tryTok_sound h
    rcases List.mem_cons.mp hu with rfl | hmem
    · exact ⟨ht, [], r, by rw [hsplit]; simp⟩
    · obtain ⟨hiu, a, b, rfl⟩ := ih hmem
      exact ⟨hiu, t ++ a, b, by rw [hsplit]; simp⟩
  | case3 c rest h ih =>
    rw [tokenScan_cons_none h] at hu
    obtain ⟨hiu, a, b, rfl⟩ := ih hu
    exact ⟨hiu, c :: a, b, by simp⟩

/-- Every token occurring anywhere in the input is returned by the
scanner.  (Occurrences of well-formed tokens can never overlap, so the
non-overlapping scan misses none of them.) -/
theorem tokenScan_complete {t : Str} (ht : IsTok t) :
    ∀ s a b, s = a ++ t ++ b → t ∈ tokenScan s := by
  intro s
  induction s using tokenScan.induct with
  | case1 =>
    intro a b habs
    obtain ⟨u, rfl, -⟩ := ht.shape_lt
    simp at habs
  | case2 c rest u r h ih =>
    intro a b hsab
    obtain ⟨hu, hsplit⟩ := tryTok_sound h
    rw [tokenScan_cons_some h]
    rcases a with _ | ⟨a0, a'⟩
    · simp only [List.nil_append, List.append_assoc] at hsab
      have := tok_eq_of_pre ht hu (by rw [← hsab, hsplit])
      exact List.mem_cons.mpr (Or.inl this.1)
    · by_cases hlen : u.length ≤ (a0 :: a').length
      · have hdropr : r = (a0 :: a').drop u.length ++ t ++ b := by
          have h1 : r = (c :: rest).drop u.length := by
            rw [hsplit]; simp
          rw [h1, hsab]
          rw [List.append_assoc, List.drop_append_of_le_length hlen, List.append_assoc]
        exact List.mem_cons.mpr (Or.inr (ih _ _ hdropr))
      · exfalso
        push_neg at hlen
        obtain ⟨u1, hu1, hu1lt⟩ := hu.shape_lt
        obtain ⟨t1, ht1, -⟩ := ht.shape_lt
        have hdrop_eq : (c :: rest).drop (a0 :: a').length
            = u.drop (a0 :: a').length ++ r := by
          rw [hsplit, List.drop_append_of_le_length (Nat.le_of_lt hlen)]
        have hdrop_eq2 : (c :: rest).drop (a0 :: a').length = t ++ b := by
          rw [hsab, List.append_assoc, List.drop_left]
        have hne : u.drop (a0 :: a').length ≠ [] := by
          intro hnil
          have := congrArg List.length hnil
          simp only [List.length_drop, List.length_nil] at this
          omega
        rcases hx : u.drop (a0 :: a').length with _ | ⟨x, xs⟩
        · exact hne hx
        · have hxlt : x = '<' := by
            rw [hx] at hdrop_eq
            rw [hdrop_eq2, ht1] at hdrop_eq
            injection hdrop_eq with hhead _
            exact hhead.symm
          have hxmem : x ∈ u1 := by
            have hsubs : u.drop (a0 :: a').length ⊆ u1 := by
              rw [hu1, List.length_cons, List.drop_succ_cons]
              exact List.drop_subset _ _
            exact hsubs (hx ▸ List.mem_cons_self x xs)
          exact hu1lt x hxmem hxlt
  | case3 c rest h ih =>
    intro a b hsab
    rw [tokenScan_cons_none h]
    rcases a with _ | ⟨a0, a'⟩
    · exfalso
      simp only [List.nil_append, List.append_assoc] at hsab
      have := tryTok_of_tok ht b
      rw [← hsab, h] at this
      exact absurd this (by simp)
    · have : rest = a' ++ t ++ b := by
        injection hsab with _ h2
      exact ih _ _ this

/-! ## Decompositions of a text into token-free material and tokens -/

/-- `g` contains no occurrence of any well-formed token. -/
def NoTokIn (g : Str) : Prop :=
  ∀ t a b, IsTok t → g ≠ a ++ t ++ b

theorem tokenScan_nil_iff (g : Str) : tokenScan g = [] ↔ NoTokIn g := by
  constructor
  · intro hscan t a b ht heq
    have := tokenScan_complete ht g a b heq
    rw [hscan] at this
    simp at this
  · intro hno
    rcases hscan : tokenScan g with _ | ⟨u, us⟩
    · rfl
    · obtain ⟨hu, a, b, hsab⟩ := tokenScan_sound (hscan ▸ List.mem_cons_self u us)
      exact absurd hsab (hno u a b hu)

/-- A text that starts with a token or is empty. -/
def TokHead (x : Str) : Prop :=
  x = [] ∨ ∃ u r, IsTok u ∧ x = u ++ r

/-- No token occurrence can begin strictly inside a token-free block
that is followed by token-headed material. -/
theorem no_pre_in_gap {g x t : Str} (hg : NoTokIn g) (hx : TokHead x) (ht : IsTok t) :
    ∀ p, p < g.length → isPre t (g.drop p ++ x) = false := by
  intro p hp
  cases hb : isPre t (g.drop p ++ x)
  · rfl
  exfalso
  obtain ⟨w, hw⟩ := (isPre_iff _ _).mp hb
  by_cases hlen : t.length ≤ g.length - p
  · -- the token would lie entirely inside `g`
    have htake : t = (g.drop p).take t.length := by
      have h1 := congrArg (List.take t.length) hw
      rw [List.take_append_of_le_length (by simp; omega), List.take_left'] at h1
      · exact h1.symm
      · rfl
    have hgdec : g = g.take p ++ t ++ ((g.drop p).drop t.length) := by
      conv_lhs => rw [← List.take_append_drop p g,
        ← List.take_append_drop t.length (g.drop p)]
      rw [← htake, List.append_assoc]
    exact hg t (g.take p) ((g.drop p).drop t.length) ht hgdec
  · -- the token would run past the end of `g`
    push_neg at hlen
    have hgplen : (g.drop p).length = g.length - p := by simp
    have hxdec : x = t.drop (g.length - p) ++ w := by
      have h1 := congrArg (List.drop (g.length - p)) hw
      rw [← hgplen] at h1
      rw [List.drop_left] at h1
      rw [h1, List.drop_append_of_le_length (by omega), hgplen]
    have htdne : t.drop (g.length - p) ≠ [] := by
      intro hnil
      have := congrArg List.length hnil
      simp only [List.length_drop, List.length_nil] at this
      omega
    rcases hx with rfl | ⟨u, r, hu, rfl⟩
    · exact htdne (List.append_eq_nil.mp hxdec.symm).1
    · obtain ⟨u1, hu1, -⟩ := hu.shape_lt
      obtain ⟨t1, ht1, ht1lt⟩ := ht.shape_lt
      rcases htd : t.drop (g.length - p) with _ | ⟨y, ys⟩
      · exact htdne htd
      have hy : y = '<' := by
        rw [htd, hu1] at hxdec
        simp only [List.cons_append] at hxdec
        injection hxdec with h1 _
        exact h1.symm
      have hymem : y ∈ t1 := by
        have hsubs : t.drop (g.length - p) ⊆ t1 := by
          rcases hq : g.length - p with _ | q
          · omega
          · rw [ht1, List.drop_succ_cons]
            exact List.drop_subset _ _
        exact hsubs (htd ▸ List.mem_cons_self y ys)
      exact ht1lt y hymem hy

/-- No occurrence of token `t` can begin inside a different token `u`
(at offset 0 they would have to be the same token; at later offsets
the head `<` of `t` cannot match the interior of `u`). -/
theorem no_pre_in_tok {u x t : Str} (hu : IsTok u) (ht : IsTok t) (hne : t ≠ u) :
    ∀ p, p < u.length → isPre t (u.drop p ++ x) = false := by
  intro p hp
  cases hb : isPre t (u.drop p ++ x)
  · rfl
  exfalso
  obtain ⟨w, hw⟩ := (isPre_iff _ _).mp hb
  rcases Nat.eq_zero_or_pos p with rfl | hpos
  · rw [List.drop_zero] at hw
    exact hne (tok_eq_of_pre ht hu hw.symm).1
  · obtain ⟨t1, ht1, -⟩ := ht.shape_lt
    obtain ⟨u1, hu1, hu1lt⟩ := hu.shape_lt
    have hudne : u.drop p ≠ [] := by
      intro hnil
      have := congrArg List.length hnil
      simp only [List.length_drop, List.length_nil] at this
      omega
    rcases hud : u.drop p with _ | ⟨y, ys⟩
    · exact hudne hud
    have hy : y = '<' := by
      rw [hud, ht1] at hw
      simp only [List.cons_append, List.cons.injEq] at hw
      exact hw.1
    have hymem : y ∈ u1 := by
      have hsubs : u.drop p ⊆ u1 := by
        rcases hq : p with _ | q
        · omega
        · rw [hu1, List.drop_succ_cons]
          exact List.drop_subset _ _
      exact hsubs (hud ▸ List.mem_cons_self y ys)
    exact hu1lt y hymem hy

/-- Generic skip lemma: if no occurrence of `old` begins inside the
block `a`, `str.replace` copies `a` verbatim. -/
theorem pyReplace_append_skip (old new a x : Str)
    (h : ∀ p, p < a.length → isPre old (a.drop p ++ x) = false) :
    pyReplace old new (a ++ x) = a ++ pyReplace old new x := by
  induction a with
  | nil => simp
  | cons c a' ih =>
    have h0 : isPre old (c :: (a' ++ x)) = false := by
      have := h 0 (by simp)
      simpa using this
    have hrec : ∀ p, p < a'.length → isPre old (a'.drop p ++ x) = false := by
      intro p hple
      have := h (p + 1) (by simp; omega)
      simpa using this
    rw [List.cons_append, pyReplace, if_neg (by simp [h0]), ih hrec, List.cons_append]

/-- Generic skip lemma for `str.count`. -/
theorem pyCount_append_skip (old a x : Str)
    (h : ∀ p, p < a.length → isPre old (a.drop p ++ x) = false) :
    pyCount old (a ++ x) = pyCount old x := by
  induction a with
  | nil => simp
  | cons c a' ih =>
    have h0 : isPre old (c :: (a' ++ x)) = false := by
      have := h 0 (by simp)
      simpa using this
    have hrec : ∀ p, p < a'.length → isPre old (a'.drop p ++ x) = false := by
      intro p hple
      have := h (p + 1) (by simp; omega)
      simpa using this
    rw [List.cons_append, pyCount, if_neg (by simp [h0]), ih hrec]

/-- Generic skip lemma for the occurrence counter. -/
theorem occCount_append_skip (old a x : Str)
    (h : ∀ p, p < a.length → isPre old (a.drop p ++ x) = false) :
    occCount old (a ++ x) = occCount old x := by
  induction a with
  | nil => simp
  | cons c a' ih =>
    have h0 : isPre old (c :: (a' ++ x)) = false := by
      have := h 0 (by simp)
      simpa using this
    have hrec : ∀ p, p < a'.length → isPre old (a'.drop p ++ x) = false := by
      intro p hple
      have := h (p + 1) (by simp; omega)
      simpa using this
    rw [List.cons_append, occCount, h0, ih hrec]
    simp

/-- Consuming an exact occurrence of `old` at the head. -/
theorem pyReplace_cons_match (old new x : Str) (hne : old ≠ []) :
    pyReplace old new (old ++ x) = new ++ pyReplace old new x := by
  rcases old with _ | ⟨c, o'⟩
  · exact absurd rfl hne
  · rw [List.cons_append, pyReplace]
    rw [if_pos ⟨by rw [← List.cons_append]; exact isPre_append _ _, hne⟩]
    congr 2
    simp

theorem pyCount_cons_match (old x : Str) (hne : old ≠ []) :
    pyCount old (old ++ x) = 1 + pyCount old x := by
  rcases old with _ | ⟨c, o'⟩
  · exact absurd rfl hne
  · rw [List.cons_append, pyCount]
    rw [if_pos ⟨by rw [← List.cons_append]; exact isPre_append _ _, hne⟩]
    congr 2
    simp

/-- No occurrence of a token `t` begins at a positive offset inside a
token `u` (even for `t = u`): the head `<` of `t` cannot match the
interior of `u`. -/
theorem no_pre_in_tok_pos {u x t : Str} (hu : IsTok u) (ht : IsTok t) :
    ∀ p, 0 < p → p < u.length → isPre t (u.drop p ++ x) = false := by
  intro p hpos hp
  cases hb : isPre t (u.drop p ++ x)
  · rfl
  exfalso
  obtain ⟨w, hw⟩ := (isPre_iff _ _).mp hb
  obtain ⟨t1, ht1, -⟩ := ht.shape_lt
  obtain ⟨u1, hu1, hu1lt⟩ := hu.shape_lt
  have hudne : u.drop p ≠ [] := by
    intro hnil
    have := congrArg List.length hnil
    simp only [List.length_drop, List.length_nil] at this
    omega
  rcases hud : u.drop p with _ | ⟨y, ys⟩
  · exact hudne hud
  have hy : y = '<' := by
    rw [hud, ht1] at hw
    simp only [List.cons_append, List.cons.injEq] at hw
    exact hw.1
  have hymem : y ∈ u1 := by
    have hsubs : u.drop p ⊆ u1 := by
      rcases hq : p with _ | q
      · omega
      · rw [hu1, List.drop_succ_cons]
        exact List.drop_subset _ _
    exact hsubs (hud ▸ List.mem_cons_self y ys)
  exact hu1lt y hymem hy

theorem occCount_append_ge (t a x : Str) :
    occCount t x ≤ occCount t (a ++ x) := by
  induction a with
  | nil => simp
  | cons c a' ih =>
    rw [List.cons_append, occCount]
    omega

/-- Counting a token at the head: positive interior offsets contribute
nothing. -/
theorem occCount_tok_head {t : Str} (ht : IsTok t) (y : Str) :
    occCount t (t ++ y) = 1 + occCount t y := by
  obtain ⟨t1, ht1, -⟩ := ht.shape_lt
  have hexp : t ++ y = '<' :: (t1 ++ y) := by rw [ht1]; simp
  have h1 : occCount t (t ++ y) = 1 + occCount t (t1 ++ y) := by
    have hp : isPre t (t ++ y) = true := isPre_append _ _
    rw [hexp] at hp
    rw [hexp, occCount, hp]
    simp
  have h2 : occCount t (t1 ++ y) = occCount t y := by
    apply occCount_append_skip
    intro p hple
    have hlen2 : p + 1 < t.length := by rw [ht1]; simp; omega
    have hfar := no_pre_in_tok_pos ht ht (p + 1) (by omega) hlen2 (x := y)
    have hdrop : t.drop (p + 1) = t1.drop p := by rw [ht1, List.drop_succ_cons]
    rw [hdrop] at hfar
    exact hfar
  rw [h1, h2]

/-- Replacing occurrences of one token by arbitrary material never
removes occurrences of a different token. -/
theorem occCount_pyReplace_ge (t u v : Str) (ht : IsTok t) (hu : IsTok u)
    (hne : t ≠ u) : ∀ s : Str, occCount t s ≤ occCount t (pyReplace u v s) := by
  have hune : u ≠ [] := by
    obtain ⟨u1, rfl, -⟩ := hu.shape_lt
    simp
  suffices H : ∀ n (s : Str), s.length = n →
      occCount t s ≤ occCount t (pyReplace u v s) by
    intro s
    exact H s.length s rfl
  intro n
  induction n using Nat.strong_induction_on with
  | _ n ih =>
  intro s hs
  rcases s with _ | ⟨c, s1⟩
  · simp [pyReplace]
  by_cases hpu : isPre u (c :: s1) = true
  · -- an occurrence of `u` is consumed here
    obtain ⟨s', hs'⟩ := (isPre_iff _ _).mp hpu
    have hrep : pyReplace u v (c :: s1) = v ++ pyReplace u v s' := by
      rw [hs']
      exact pyReplace_cons_match u v s' hune
    have hocc : occCount t (c :: s1) = occCount t s' := by
      rw [hs']
      apply occCount_append_skip
      intro p hple
      exact no_pre_in_tok hu ht hne p hple
    have hlen : s'.length < (c :: s1).length := by
      have := congrArg List.length hs'
      obtain ⟨u1, hu1, -⟩ := hu.shape_lt
      rw [hu1] at this
      simp only [List.length_cons, List.length_append] at this ⊢
      omega
    calc occCount t (c :: s1) = occCount t s' := hocc
      _ ≤ occCount t (pyReplace u v s') := ih s'.length (hs ▸ hlen) s' rfl
      _ ≤ occCount t (v ++ pyReplace u v s') := occCount_append_ge _ _ _
      _ = occCount t (pyReplace u v (c :: s1)) := by rw [hrep]
  · by_cases hpt : isPre t (c :: s1) = true
    · -- an occurrence of `t` at the head is copied verbatim
      obtain ⟨s'', hs''⟩ := (isPre_iff _ _).mp hpt
      have hrep : pyReplace u v (c :: s1) = t ++ pyReplace u v s'' := by
        rw [hs'']
        apply pyReplace_append_skip
        intro p hple
        rcases Nat.eq_zero_or_pos p with rfl | hpos
        · rw [List.drop_zero, ← hs'']
          cases hb : isPre u (c :: s1)
          · rfl
          · exact absurd hb hpu
        · exact no_pre_in_tok_pos ht hu p hpos hple
      have hlen : s''.length < (c :: s1).length := by
        have := congrArg List.length hs''
        obtain ⟨t1, ht1, -⟩ := ht.shape_lt
        rw [ht1] at this
        simp only [List.length_cons, List.length_append] at this ⊢
        omega
      have hocc : occCount t (c :: s1) = 1 + occCount t s'' := by
        rw [hs'', occCount_tok_head ht]
      rw [hocc, hrep, occCount_tok_head ht]
      have := ih s''.length (hs ▸ hlen) s'' rfl
      omega
    · -- no occurrence at the head on either side
      have hrep : pyReplace u v (c :: s1) = c :: pyReplace u v s1 := by
        rw [pyReplace, if_neg]
        intro hcon
        exact absurd hcon.1 hpu
      have hocc : occCount t (c :: s1) = occCount t s1 := by
        rw [occCount]
        simp [hpt]
      rw [hocc, hrep, occCount]
      have := ih s1.length (by rw [← hs]; simp) s1 rfl
      omega

/-! ## Interleavings of token-free blocks and tokens

A text of the shape `block ++ token ++ block ++ token ++ ... ` (blocks
token-free, possibly empty).  The scanner finds exactly the token
segments, `str.replace` of one token rewrites exactly its segments, and
`str.count` counts exactly its segments. -/

/-- A segment of a decomposed text. -/
inductive Seg where
  | raw : Str → Seg
  | tk : Str → Seg
deriving DecidableEq

/-- Concatenate the segments back into a text. -/
def segRender : List Seg → Str
  | [] => []
  | .raw g :: rest => g ++ segRender rest
  | .tk t :: rest => t ++ segRender rest

/-- The token segments, in order. -/
def segToks : List Seg → List Str
  | [] => []
  | .raw _ :: rest => segToks rest
  | .tk t :: rest => t :: segToks rest

/-- Well-formed decomposition: every `raw` block is token-free and is
immediately followed by a token segment or the end of the text; every
`tk` segment is a well-formed token. -/
inductive SegsOK : List Seg → Prop
  | nil : SegsOK []
  | last {g : Str} : NoTokIn g → SegsOK [.raw g]
  | rawtk {g t : Str} {rest : List Seg} : NoTokIn g → IsTok t → SegsOK (.tk t :: rest) →
      SegsOK (.raw g :: .tk t :: rest)
  | tk {t : Str} {rest : List Seg} : IsTok t → SegsOK rest → SegsOK (.tk t :: rest)

/-- The scanner recovers exactly the token segments of a well-formed
decomposition. -/
theorem tokenScan_segRender {items : List Seg} (h : SegsOK items) :
    tokenScan (segRender items) = segToks items := by
  induction h with
  | nil => simp [segRender, segToks, tokenScan]
  | last hg =>
    show tokenScan (_ ++ segRender []) = _
    simp only [segRender, List.append_nil, segToks]
    exact (tokenScan_nil_iff _).mpr hg
  | rawtk hg ht hrest ih =>
    rename_i g t rest
    show tokenScan (g ++ segRender (.tk t :: rest)) = segToks (.tk t :: rest)
    rw [← ih]
    -- skip the token-free block
    have hskip : ∀ x, TokHead x → tokenScan (g ++ x) = tokenScan x := by
      intro x hx
      induction g with
      | nil => simp
      | cons c g' ihg =>
        have hg' : NoTokIn g' := by
          intro t' a b ht' heq
          exact hg t' (c :: a) b ht' (by rw [heq]; simp)
        have hnone : tryTok (c :: (g' ++ x)) = none := by
          cases htt : tryTok (c :: (g' ++ x)) with
          | none => rfl
          | some pr =>
            exfalso
            obtain ⟨t', r'⟩ := pr
            obtain ⟨ht', hsplit⟩ := tryTok_sound htt
            have hpre : isPre t' ((c :: g').drop 0 ++ x) = true := by
              rw [List.drop_zero]
              exact (isPre_iff _ _).mpr ⟨r', by rw [← hsplit]; simp⟩
            have := no_pre_in_gap hg hx ht' 0 (by simp)
            rw [this] at hpre
            exact absurd hpre (by simp)
        rw [List.cons_append, tokenScan_cons_none hnone]
        exact ihg hg'
    exact hskip _ (Or.inr ⟨t, segRender rest, ht, rfl⟩)
  | tk ht hrest ih =>
    rename_i t rest
    show tokenScan (t ++ segRender rest) = t :: segToks rest
    have htt := tryTok_of_tok ht (segRender rest)
    obtain ⟨t1, ht1, -⟩ := ht.shape_lt
    have hexp : t ++ segRender rest = '<' :: (t1 ++ segRender rest) := by
      rw [ht1]; simp
    rw [hexp] at htt
    rw [hexp, tokenScan_cons_some htt, ih]

/-- Substitute every `tk t` segment by the raw block `v`. -/
def segSubst (t v : Str) : List Seg → List Seg
  | [] => []
  | .raw g :: rest => .raw g :: segSubst t v rest
  | .tk u :: rest => (if u = t then Seg.raw v else Seg.tk u) :: segSubst t v rest

theorem skip_raw_block {g x t : Str} (hg : NoTokIn g) (hx : TokHead x) (ht : IsTok t)
    (v : Str) :
    pyReplace t v (g ++ x) = g ++ pyReplace t v x ∧
      pyCount t (g ++ x) = pyCount t x := by
  constructor
  · exact pyReplace_append_skip t v g x (fun p hp => no_pre_in_gap hg hx ht p hp)
  · exact pyCount_append_skip t g x (fun p hp => no_pre_in_gap hg hx ht p hp)

theorem skip_tok_block {u x t : Str} (hu : IsTok u) (ht : IsTok t) (hne : t ≠ u)
    (v : Str) :
    pyReplace t v (u ++ x) = u ++ pyReplace t v x ∧
      pyCount t (u ++ x) = pyCount t x := by
  constructor
  · exact pyReplace_append_skip t v u x (fun p hp => no_pre_in_tok hu ht hne p hp)
  · exact pyCount_append_skip t u x (fun p hp => no_pre_in_tok hu ht hne p hp)

/-- `str.replace` of one token over a well-formed decomposition
rewrites exactly that token's segments. -/
theorem pyReplace_segRender {items : List Seg} (h : SegsOK items) {t : Str}
    (ht : IsTok t) (v : Str) :
    pyReplace t v (segRender items) = segRender (segSubst t v items) := by
  have htne : t ≠ [] := by
    obtain ⟨t1, rfl, -⟩ := ht.shape_lt
    simp
  induction h with
  | nil => simp [segRender, segSubst, pyReplace]
  | last hg =>
    rename_i g
    show pyReplace t v (g ++ segRender []) = segRender (segSubst t v [Seg.raw g])
    simp only [segRender, segSubst]
    rw [(skip_raw_block hg (Or.inl rfl) ht v).1]
    simp [pyReplace]
  | rawtk hg ht' hrest ih =>
    rename_i g t' rest
    show pyReplace t v (g ++ segRender (.tk t' :: rest))
        = segRender (segSubst t v (.raw g :: .tk t' :: rest))
    have htokhead : TokHead (segRender (Seg.tk t' :: rest)) :=
      Or.inr ⟨t', segRender rest, ht', rfl⟩
    rw [(skip_raw_block hg htokhead ht v).1, ih]
    rfl
  | tk ht' hrest ih =>
    rename_i t' rest
    show pyReplace t v (t' ++ segRender rest) = segRender (segSubst t v (.tk t' :: rest))
    by_cases heq : t' = t
    · subst heq
      rw [pyReplace_cons_match _ _ _ htne, ih]
      simp [segSubst, segRender]
    · rw [(skip_tok_block ht' ht (fun hc => heq hc.symm) v).1, ih]
      simp [segSubst, segRender, heq]

/-- `str.count` of one token over a well-formed decomposition counts
exactly that token's segments. -/
theorem pyCount_segRender {items : List Seg} (h : SegsOK items) {t : Str}
    (ht : IsTok t) :
    pyCount t (segRender items) = (segToks items).count t := by
  have htne : t ≠ [] := by
    obtain ⟨t1, rfl, -⟩ := ht.shape_lt
    simp
  induction h with
  | nil => simp [segRender, segToks, pyCount]
  | last hg =>
    rename_i g
    show pyCount t (g ++ segRender []) = (segToks [Seg.raw g]).count t
    simp only [segRender, segToks]
    rw [(skip_raw_block hg (Or.inl rfl) ht []).2]
    simp [pyCount]
  | rawtk hg ht' hrest ih =>
    rename_i g t' rest
    show pyCount t (g ++ segRender (.tk t' :: rest)) = (segToks (.raw g :: .tk t' :: rest)).count t
    have htokhead : TokHead (segRender (Seg.tk t' :: rest)) :=
      Or.inr ⟨t', segRender rest, ht', rfl⟩
    rw [(skip_raw_block hg htokhead ht []).2, ih]
    rfl
  | tk ht' hrest ih =>
    rename_i t' rest
    show pyCount t (t' ++ segRender rest) = (segToks (.tk t' :: rest)).count t
    by_cases heq : t' = t
    · subst heq
      rw [pyCount_cons_match _ _ htne, ih]
      simp [segToks, List.count_cons]
      omega
    · rw [(skip_tok_block ht' ht (fun hc => heq hc.symm) []).2, ih]
      simp [segToks, List.count_cons, heq]

/-- Occurrence positivity is exactly the existence of a decomposition. -/
theorem occCount_pos_iff (t : Str) (htne : t ≠ []) :
    ∀ s, 0 < occCount t s ↔ ∃ a b, s = a ++ t ++ b := by
  intro s
  induction s with
  | nil =>
    simp only [occCount]
    constructor
    · omega
    · rintro ⟨a, b, habs⟩
      rcases t with _ | ⟨c, t'⟩
      · exact absurd rfl htne
      · exact absurd habs.symm (by simp)
  | cons c rest ih =>
    rw [occCount]
    constructor
    · intro hpos
      by_cases hp : isPre t (c :: rest) = true
      · obtain ⟨r, hr⟩ := (isPre_iff _ _).mp hp
        exact ⟨[], r, by simp [hr]⟩
      · rw [if_neg hp] at hpos
        obtain ⟨a, b, hab⟩ := ih.mp (by omega)
        exact ⟨c :: a, b, by simp [hab]⟩
    · rintro ⟨a, b, hab⟩
      rcases a with _ | ⟨a0, a'⟩
      · have hp : isPre t (c :: rest) = true := by
          rw [hab]
          simp only [List.nil_append, List.append_assoc]
          exact isPre_append _ _
        rw [if_pos hp]
        omega
      · have : rest = a' ++ t ++ b := by
          injection hab with _ h2
        have := ih.mpr ⟨a', b, this⟩
        omega

/-! ## Python string helpers

Case mapping is modelled on the ASCII range (the categories, actions
and tokens this engine manipulates are ASCII; Python's full-Unicode
`casefold`/`upper` agree with the ASCII mapping there). -/

/-- ASCII model of `str.lower` / `str.casefold` on one character. -/
def pyLowerChar (c : Char) : Char :=
  if 65 ≤ c.toNat ∧ c.toNat ≤ 90 then Char.ofNat (c.toNat + 32) else c

/-- ASCII model of `str.upper` on one character. -/
def pyUpperChar (c : Char) : Char :=
  if 97 ≤ c.toNat ∧ c.toNat ≤ 122 then Char.ofNat (c.toNat - 32) else c

def pyCasefold (s : Str) : Str := s.map pyLowerChar

def pyUpper (s : Str) : Str := s.map pyUpperChar

/-- ASCII whitespace recognized by `str.strip`. -/
def pySpace (c : Char) : Bool :=
  c = ' ' || c = '\t' || c = '\n' || c = '\r' || c = '\x0b' || c = '\x0c'

/-- Python `str.strip()`. -/
def pyStrip (s : Str) : Str :=
  ((s.dropWhile pySpace).reverse.dropWhile pySpace).reverse

/-- Python `str.strip("_")`. -/
def stripUnderscore (s : Str) : Str :=
  ((s.dropWhile (· = '_')).reverse.dropWhile (· = '_')).reverse

/-- ASCII alphanumeric (the class `[A-Za-z0-9]` of
`RuleEngine._normalize_category`). -/
def alnumChar (c : Char) : Bool :=
  (65 ≤ c.toNat && c.toNat ≤ 90) || (97 ≤ c.toNat && c.toNat ≤ 122) ||
    (48 ≤ c.toNat && c.toNat ≤ 57)

/-- `re.sub(r"[^A-Za-z0-9]+", "_", s)`: each maximal run of
non-alphanumeric characters becomes a single underscore. -/
def collapseRuns : Str → Str
  | [] => []
  | c :: rest =>
    if alnumChar c then c :: collapseRuns rest
    else '_' :: collapseRuns (rest.dropWhile (fun d => !alnumChar d))
termination_by s => s.length
decreasing_by
  · simp
  · have hsub : List.Sublist (rest.dropWhile (fun d => !alnumChar d)) rest :=
      List.dropWhile_sublist _
    have := hsub.length_le
    simp only [List.length_cons]
    omega

/-- `RuleEngine._normalize_category`. -/
def normCategory (category : Str) : Str :=
  if stripUnderscore (collapseRuns (pyUpper category)) = [] then
    'G' :: 'E' :: 'N' :: 'E' :: 'R' :: 'I' :: 'C' :: []
  else
    stripUnderscore (collapseRuns (pyUpper category))

/-- Decimal digits of a natural number (`str(n)` for `n : Nat`). -/
def natDigits (n : Nat) : Str :=
  if h : n < 10 then [("0123456789".toList).getD n '0']
  else natDigits (n / 10) ++ [("0123456789".toList).getD (n % 10) '0']
decreasing_by
  exact Nat.div_lt_self (by omega) (by omega)

/-- Python `f"{n:03d}"` for non-negative `n`: decimal digits, left
padded with `0` to at least three characters. -/
def numSuffix3 (n : Nat) : Str :=
  List.replicate (3 - (natDigits n).length) '0' ++ natDigits n

/-- The token string built by `RuleEngine._get_or_create_token`:
`f"<TKN_{category}_{index:03d}>"`. -/
def mkTokenStr (cat : Str) (n : Nat) : Str :=
  '<' :: 'T' :: 'K' :: 'N' :: '_' :: (cat ++ '_' :: (numSuffix3 n ++ '>' :: []))

theorem natDigits_all_digit (n : Nat) : (natDigits n).all digitChar = true := by
  induction n using Nat.strong_induction_on with
  | _ n ih =>
  rw [natDigits]
  split
  · rename_i h
    interval_cases n <;> decide
  · rename_i h
    simp only [List.all_append, Bool.and_eq_true]
    refine ⟨ih (n / 10) (Nat.div_lt_self (by omega) (by omega)), ?_⟩
    have hlt : n % 10 < 10 := Nat.mod_lt _ (by omega)
    interval_cases hm : (n % 10) <;> decide

theorem natDigits_ne_nil (n : Nat) : natDigits n ≠ [] := by
  rw [natDigits]
  split
  · simp
  · simp

theorem natDigits_len_le_three (n : Nat) (h : n < 1000) :
    (natDigits n).length ≤ 3 := by
  rw [natDigits]
  split
  · simp
  · rename_i h10
    rw [natDigits]
    split
    · simp
    · rename_i h100
      rw [natDigits]
      split
      · simp
      · rename_i h1000
        exfalso
        have h1 : 10 ≤ n / 10 / 10 * 100 := by omega
        have h2 : n / 10 / 10 = n / 100 := by
          rw [Nat.div_div_eq_div_mul]
        have h3 : n / 100 * 100 ≤ n := Nat.div_mul_le_self n 100
        omega

theorem numSuffix3_len (n : Nat) (h : n < 1000) : (numSuffix3 n).length = 3 := by
  have h1 := natDigits_len_le_three n h
  have h2 := natDigits_ne_nil n
  have h3 : 1 ≤ (natDigits n).length := by
    rcases hd : natDigits n with _ | ⟨c, cs⟩
    · exact absurd hd h2
    · simp
  simp only [numSuffix3, List.length_append, List.length_replicate]
  omega

theorem numSuffix3_all_digit (n : Nat) : (numSuffix3 n).all digitChar = true := by
  simp only [numSuffix3, List.all_append, Bool.and_eq_true]
  constructor
  · apply List.all_eq_true.mpr
    intro c hc
    rw [List.eq_of_mem_replicate hc]
    decide
  · exact natDigits_all_digit n

theorem char_toNat_ofNat {n : Nat} (h : n.isValidChar) :
    (Char.ofNat n).toNat = n := by
  unfold Char.ofNat
  rw [dif_pos h]
  rfl

theorem collapseRuns_tokenChar (s : Str) :
    (collapseRuns (pyUpper s)).all tokenChar = true := by
  have key : ∀ u : Str, (∀ c ∈ u, alnumChar c = true → tokenChar c = true) →
      (collapseRuns u).all tokenChar = true := by
    intro u
    induction u using collapseRuns.induct with
    | case1 =>
      intro _
      simp [collapseRuns]
    | case2 c rest hc ih =>
      intro hmem
      rw [collapseRuns, if_pos hc]
      simp only [List.all_cons, Bool.and_eq_true]
      exact ⟨hmem c (List.mem_cons_self _ _) hc,
        ih (fun d hd => hmem d (List.mem_cons_of_mem _ hd))⟩
    | case3 c rest hc ih =>
      intro hmem
      rw [collapseRuns, if_neg hc]
      simp only [List.all_cons, Bool.and_eq_true]
      refine ⟨by decide, ih ?_⟩
      intro d hd
      exact hmem d (List.mem_cons_of_mem _ (List.dropWhile_subset _ hd))
  apply key
  intro c hc halnum
  obtain ⟨c0, hc0, rfl⟩ := List.mem_map.mp hc
  simp only [alnumChar, Bool.or_eq_true, Bool.and_eq_true, decide_eq_true_eq] at halnum
  simp only [tokenChar, Bool.or_eq_true, Bool.and_eq_true, decide_eq_true_eq]
  rcases halnum with (h | h) | h
  · exact Or.inr h
  · -- the uppercase map sends no character into `[a-z]`
    exfalso
    unfold pyUpperChar at h
    split at h
    · rename_i hrange
      obtain ⟨h1, h2⟩ := hrange
      have hvalid : Nat.isValidChar (c0.toNat - 32) := by
        left
        omega
      have htn : (Char.ofNat (c0.toNat - 32)).toNat = c0.toNat - 32 :=
        char_toNat_ofNat hvalid
      omega
    · rename_i hnr
      exact hnr ⟨h.1, h.2⟩
  · exact Or.inl (Or.inr h)

theorem normCategory_tokenChar (category : Str) :
    (normCategory category).all tokenChar = true ∧ normCategory category ≠ [] := by
  unfold normCategory
  split
  · exact ⟨by decide, by simp⟩
  · rename_i hne
    refine ⟨?_, hne⟩
    have hsub : List.Sublist (stripUnderscore (collapseRuns (pyUpper category)))
        (collapseRuns (pyUpper category)) := by
      unfold stripUnderscore
      have h1 : List.Sublist
          ((collapseRuns (pyUpper category)).dropWhile (· = '_'))
          (collapseRuns (pyUpper category)) := List.dropWhile_sublist _
      have h2 : List.Sublist
          (((collapseRuns (pyUpper category)).dropWhile (· = '_')).reverse.dropWhile (· = '_'))
          ((collapseRuns (pyUpper category)).dropWhile (· = '_')).reverse :=
        List.dropWhile_sublist _
      have h3 := h2.reverse
      simp only [List.reverse_reverse] at h3
      exact h3.trans h1
    apply List.all_eq_true.mpr
    intro c hcmem
    exact List.all_eq_true.mp (collapseRuns_tokenChar category) c (hsub.subset hcmem)

/-- The token emitted with an index between 1 and 999 is in the
recognizer grammar. -/
theorem mkTokenStr_isTok {cat : Str} (hcat : cat.all tokenChar = true)
    (hne : cat ≠ []) {n : Nat} (hn : n < 1000) :
    IsTok (mkTokenStr cat n) := by
  have hlen := numSuffix3_len n hn
  have hdig := numSuffix3_all_digit n
  rcases hds : numSuffix3 n with _ | ⟨d1, ds⟩
  · rw [hds] at hlen; simp at hlen
  rcases ds with _ | ⟨d2, ds2⟩
  · rw [hds] at hlen; simp at hlen
  rcases ds2 with _ | ⟨d3, ds3⟩
  · rw [hds] at hlen; simp at hlen
  rcases ds3 with _ | ⟨d4, ds4⟩
  · rw [hds] at hdig
    simp only [List.all_cons, Bool.and_eq_true] at hdig
    refine ⟨cat, d1, d2, d3, hne, hcat, hdig.1, hdig.2.1, hdig.2.2.1, ?_⟩
    unfold mkTokenStr tokStr
    rw [hds]
    simp
  · rw [hds] at hlen; simp at hlen

/-- The digit character for `k` (`str(k)` for a single digit). -/
def digCh (k : Nat) : Char :=
  ("0123456789".toList).getD k '0'

theorem numSuffix3_explicit {n : Nat} (hn : n < 1000) :
    numSuffix3 n = [digCh (n / 100), digCh (n / 10 % 10), digCh (n % 10)] := by
  by_cases h10 : n < 10
  · have hd : natDigits n = [digCh n] := by rw [natDigits, dif_pos h10]; rfl
    unfold numSuffix3
    rw [hd]
    have h1 : n / 100 = 0 := by omega
    have h2 : n / 10 % 10 = 0 := by omega
    have h3 : n % 10 = n := by omega
    rw [h1, h2, h3]
    rfl
  · by_cases h100 : n < 100
    · have hd1 : natDigits (n / 10) = [digCh (n / 10)] := by
        rw [natDigits, dif_pos (by omega)]; rfl
      have hd : natDigits n = [digCh (n / 10), digCh (n % 10)] := by
        rw [natDigits, dif_neg (by omega), hd1]
        rfl
      unfold numSuffix3
      rw [hd]
      have h1 : n / 100 = 0 := by omega
      have h2 : n / 10 % 10 = n / 10 := by
        have : n / 10 < 10 := by omega
        omega
      rw [h1, h2]
      rfl
    · have hq2 : n / 100 < 10 := by omega
      have hd2 : natDigits (n / 100) = [digCh (n / 100)] := by
        rw [natDigits, dif_pos hq2]; rfl
      have hd1 : natDigits (n / 10) = [digCh (n / 100), digCh (n / 10 % 10)] := by
        rw [natDigits, dif_neg (by omega)]
        have : n / 10 / 10 = n / 100 := by
          rw [Nat.div_div_eq_div_mul]
        rw [this, hd2]
        rfl
      have hd : natDigits n = [digCh (n / 100), digCh (n / 10 % 10), digCh (n % 10)] := by
        rw [natDigits, dif_neg (by omega), hd1]
        rfl
      unfold numSuffix3
      rw [hd]
      rfl

theorem digCh_inj {a b : Nat} (ha : a < 10) (hb : b < 10) (h : digCh a = digCh b) :
    a = b := by
  interval_cases a <;> interval_cases b <;> first | rfl | exact absurd h (by decide)

theorem numSuffix3_inj {a b : Nat} (ha : a < 1000) (hb : b < 1000)
    (h : numSuffix3 a = numSuffix3 b) : a = b := by
  rw [numSuffix3_explicit ha, numSuffix3_explicit hb] at h
  simp only [List.cons.injEq, and_true] at h
  obtain ⟨h1, h2, h3⟩ := h
  have e1 := digCh_inj (by omega) (by omega) h1
  have e2 := digCh_inj (by omega) (by omega) h2
  have e3 := digCh_inj (by omega) (by omega) h3
  omega

/-- The CATEGORY segment parsed by
`re.match(r"<TKN_([A-Z0-9_]+)_([0-9]{3})>", token)` in
`RuleEngine.reconcile`: group 1 of the match, `""` if no match. -/
def categoryOfToken (t : Str) : Str :=
  match tryTok t with
  | some (u, _) => (u.drop 5).take ((u.drop 5).length - 5)
  | none => []

theorem categoryOfToken_tokStr {cat : Str} {d1 d2 d3 : Char}
    (hne : cat ≠ []) (hall : cat.all tokenChar = true)
    (hd1 : digitChar d1 = true) (hd2 : digitChar d2 = true)
    (hd3 : digitChar d3 = true) :
    categoryOfToken (tokStr cat d1 d2 d3) = cat := by
  have htok : IsTok (tokStr cat d1 d2 d3) := ⟨cat, d1, d2, d3, hne, hall, hd1, hd2, hd3, rfl⟩
  have htt := tryTok_of_tok htok []
  rw [List.append_nil] at htt
  unfold categoryOfToken
  rw [htt]
  dsimp only
  have hdrop : (tokStr cat d1 d2 d3).drop 5 = cat ++ '_' :: d1 :: d2 :: d3 :: ['>'] := by
    unfold tokStr
    simp
  rw [hdrop]
  simp only [List.length_append, List.length_cons, List.length_nil]
  have : cat.length + (4 + 1) - 5 = cat.length := by omega
  rw [this, List.take_left']
  rfl

/-- The three-digit block of a well-formed token. -/
def digitsOfToken (t : Str) : Str :=
  ((t.drop 5).drop ((t.drop 5).length - 5)).take 4 |>.drop 1

theorem digitsOfToken_tokStr (cat : Str) (d1 d2 d3 : Char) :
    digitsOfToken (tokStr cat d1 d2 d3) = [d1, d2, d3] := by
  unfold digitsOfToken
  have hdrop : (tokStr cat d1 d2 d3).drop 5 = cat ++ '_' :: d1 :: d2 :: d3 :: ['>'] := by
    unfold tokStr
    simp
  rw [hdrop]
  simp only [List.length_append, List.length_cons, List.length_nil]
  have h5 : cat.length + (4 + 1) - 5 = cat.length := by omega
  rw [h5, List.drop_left]
  rfl

/-- Distinct `(category, index)` pairs yield distinct token strings. -/
theorem mkTokenStr_inj {c1 c2 : Str} {n1 n2 : Nat}
    (h1 : c1.all tokenChar = true) (h1e : c1 ≠ []) (hn1 : n1 < 1000)
    (h2 : c2.all tokenChar = true) (h2e : c2 ≠ []) (hn2 : n2 < 1000)
    (heq : mkTokenStr c1 n1 = mkTokenStr c2 n2) : c1 = c2 ∧ n1 = n2 := by
  have hexp1 : ∃ e1 e2 e3, numSuffix3 n1 = [e1, e2, e3] := by
    rw [numSuffix3_explicit hn1]; exact ⟨_, _, _, rfl⟩
  have hexp2 : ∃ f1 f2 f3, numSuffix3 n2 = [f1, f2, f3] := by
    rw [numSuffix3_explicit hn2]; exact ⟨_, _, _, rfl⟩
  obtain ⟨e1, e2, e3, he⟩ := hexp1
  obtain ⟨f1, f2, f3, hf⟩ := hexp2
  have hdall1 := numSuffix3_all_digit n1
  have hdall2 := numSuffix3_all_digit n2
  rw [he] at hdall1
  rw [hf] at hdall2
  simp only [List.all_cons, List.all_nil, Bool.and_eq_true] at hdall1 hdall2
  have ht1 : mkTokenStr c1 n1 = tokStr c1 e1 e2 e3 := by
    unfold mkTokenStr tokStr
    rw [he]
    simp
  have ht2 : mkTokenStr c2 n2 = tokStr c2 f1 f2 f3 := by
    unfold mkTokenStr tokStr
    rw [hf]
    simp
  rw [ht1, ht2] at heq
  have hcat : c1 = c2 := by
    have hA := categoryOfToken_tokStr h1e h1 hdall1.1 hdall1.2.1 hdall1.2.2.1
    have hB := categoryOfToken_tokStr h2e h2 hdall2.1 hdall2.2.1 hdall2.2.2.1
    rw [← hA, ← hB, heq]
  have hdig : ([e1, e2, e3] : Str) = [f1, f2, f3] := by
    have hA := digitsOfToken_tokStr c1 e1 e2 e3
    have hB := digitsOfToken_tokStr c2 f1 f2 f3
    rw [← hA, ← hB, heq]
  refine ⟨hcat, numSuffix3_inj hn1 hn2 ?_⟩
  rw [he, hf, hdig]

/-! ## `security.py`: XOR keystream obfuscation over URL-safe base64

`hashlib.sha256` is an external library primitive; the 32-byte digest
of the secret is therefore a parameter of the model (`key` below).
UTF-8 and base64 are implemented concretely. -/

/-- UTF-8 encoding of one scalar value (`str.encode("utf-8")`,
per character). -/
def utf8Char (c : Char) : List Nat :=
  let n := c.toNat
  if n < 0x80 then [n]
  else if n < 0x800 then [0xC0 + n / 64, 0x80 + n % 64]
  else if n < 0x10000 then [0xE0 + n / 4096, 0x80 + n / 64 % 64, 0x80 + n % 64]
  else [0xF0 + n / 262144, 0x80 + n / 4096 % 64, 0x80 + n / 64 % 64, 0x80 + n % 64]

def utf8Encode (s : Str) : List Nat :=
  (s.map utf8Char).flatten

/-- UTF-8 decoding (`bytes.decode("utf-8")`); `none` models a raised
`UnicodeDecodeError`. -/
def utf8Decode : List Nat → Option Str
  | [] => some []
  | b :: rest =>
    if b < 0x80 then
      (utf8Decode rest).map (fun s => Char.ofNat b :: s)
    else if 0xC2 ≤ b ∧ b < 0xE0 then
      match rest with
      | b1 :: rest' =>
        if 0x80 ≤ b1 ∧ b1 < 0xC0 then
          (utf8Decode rest').map (fun s => Char.ofNat ((b - 0xC0) * 64 + (b1 - 0x80)) :: s)
        else none
      | [] => none
    else if 0xE0 ≤ b ∧ b < 0xF0 then
      match rest with
      | b1 :: b2 :: rest' =>
        if (0x80 ≤ b1 ∧ b1 < 0xC0) ∧ (0x80 ≤ b2 ∧ b2 < 0xC0) then
          if Nat.isValidChar ((b - 0xE0) * 4096 + (b1 - 0x80) * 64 + (b2 - 0x80)) ∧
              0x800 ≤ (b - 0xE0) * 4096 + (b1 - 0x80) * 64 + (b2 - 0x80) then
            (utf8Decode rest').map
              (fun s => Char.ofNat ((b - 0xE0) * 4096 + (b1 - 0x80) * 64 + (b2 - 0x80)) :: s)
          else none
        else none
      | _ => none
    else if 0xF0 ≤ b ∧ b < 0xF5 then
      match rest with
      | b1 :: b2 :: b3 :: rest' =>
        if (0x80 ≤ b1 ∧ b1 < 0xC0) ∧ (0x80 ≤ b2 ∧ b2 < 0xC0) ∧ (0x80 ≤ b3 ∧ b3 < 0xC0) then
          if 0x10000 ≤ (b - 0xF0) * 262144 + (b1 - 0x80) * 4096 + (b2 - 0x80) * 64 + (b3 - 0x80) ∧
              (b - 0xF0) * 262144 + (b1 - 0x80) * 4096 + (b2 - 0x80) * 64 + (b3 - 0x80) < 0x110000 then
            (utf8Decode rest').map
              (fun s => Char.ofNat
                ((b - 0xF0) * 262144 + (b1 - 0x80) * 4096 + (b2 - 0x80) * 64 + (b3 - 0x80)) :: s)
          else none
        else none
      | _ => none
    else none

/-- `security._xor_bytes(data, key)`: XOR against the cyclic key. -/
def xorBytes (key : List Nat) (data : List Nat) : List Nat :=
  (data.enum).map (fun p => p.2 ^^^ key.getD (p.1 % key.length) 0)

/-- URL-safe base64 alphabet (RFC 4648 §5). -/
def b64Char (n : Nat) : Char :=
  ("ABCDEFGHIJKLMNOPQRSTUVWXYZabcdefghijklmnopqrstuvwxyz0123456789-_".toList).getD n '_'

/-- `base64.urlsafe_b64encode`. -/
def b64Encode : List Nat → Str
  | [] => []
  | [b0] =>
    [b64Char (b0 / 4), b64Char (b0 % 4 * 16), '=', '=']
  | [b0, b1] =>
    [b64Char (b0 / 4), b64Char (b0 % 4 * 16 + b1 / 16), b64Char (b1 % 16 * 4), '=']
  | b0 :: b1 :: b2 :: rest =>
    b64Char (b0 / 4) :: b64Char (b0 % 4 * 16 + b1 / 16) ::
      b64Char (b1 % 16 * 4 + b2 / 64) :: b64Char (b2 % 64) :: b64Encode rest

/-- Value of one URL-safe base64 character; `none` models
`binascii.Error`. -/
def b64Val (c : Char) : Option Nat :=
  (("ABCDEFGHIJKLMNOPQRSTUVWXYZabcdefghijklmnopqrstuvwxyz0123456789-_".toList).indexOf? c).map
    (fun i => i)

/-- `base64.urlsafe_b64decode`. -/
def b64Decode : Str → Option (List Nat)
  | [] => some []
  | [c0, c1, '=', '='] => do
    let v0 ← b64Val c0
    let v1 ← b64Val c1
    pure [v0 * 4 + v1 / 16]
  | [c0, c1, c2, '='] => do
    let v0 ← b64Val c0
    let v1 ← b64Val c1
    let v2 ← b64Val c2
    pure [v0 * 4 + v1 / 16, v1 % 16 * 16 + v2 / 4]
  | c0 :: c1 :: c2 :: c3 :: rest => do
    let v0 ← b64Val c0
    let v1 ← b64Val c1
    let v2 ← b64Val c2
    let v3 ← b64Val c3
    let tail ← b64Decode rest
    pure ((v0 * 4 + v1 / 16) :: (v1 % 16 * 16 + v2 / 4) :: (v2 % 4 * 64 + v3) :: tail)
  | _ => none

/-- `security.encrypt_value(plain_text, secret)` where `key` is the
SHA-256 digest of the secret (external primitive). -/
def encryptValue (key : List Nat) (plain : Str) : Str :=
  b64Encode (xorBytes key (utf8Encode plain))

/-- `security.decrypt_value(cipher_text, secret)`; `none` models a
raised exception. -/
def decryptValue (key : List Nat) (cipher : Str) : Option Str :=
  (b64Decode cipher).bind (fun raw => utf8Decode (xorBytes key raw))

/-- `security.simple_encrypt(value, secret)`:
`"ENC[" + encrypt_value(value, secret) + "]"`. -/
def simpleEncrypt (key : List Nat) (value : Str) : Str :=
  'E' :: 'N' :: 'C' :: '[' :: (encryptValue key value ++ [']'])

/-! ## The token ledger (`token_mappings` of `db.py`)

Rows are kept in insertion order (SQLite rowid order, the order an
unordered `SELECT` returns them in).  The `id` column is a `uuid4`
primary key that is never queried by the engine and is omitted.
`created_at`/`expires_at` are ISO-8601 UTC strings in the source,
compared only with `<`; since `datetime.isoformat` is strictly
monotone on UTC datetimes, they are modelled as natural numbers. -/

structure LedgerRow where
  session_id : Str
  token : Str
  value_hash : Str
  value_enc : Str
  category : Str
  created_at : Nat
  expires_at : Nat
deriving DecidableEq

structure LedgerState where
  rows : List LedgerRow
deriving DecidableEq

/-- `SELECT token FROM token_mappings WHERE session_id = ? AND
value_hash = ? AND category = ?` (first row). -/
def lookupByValue (st : LedgerState) (session vh cat : Str) : Option LedgerRow :=
  st.rows.find? (fun r => r.session_id == session && r.value_hash == vh && r.category == cat)

/-- `SELECT COUNT(*) FROM token_mappings WHERE session_id = ? AND
category = ?`. -/
def countByCat (st : LedgerState) (session cat : Str) : Nat :=
  (st.rows.filter (fun r => r.session_id == session && r.category == cat)).length

/-- `SELECT original_value_enc, expires_at FROM token_mappings WHERE
session_id = ? AND token = ?` (first row). -/
def lookupByToken (st : LedgerState) (session tok : Str) : Option LedgerRow :=
  st.rows.find? (fun r => r.session_id == session && r.token == tok)

/-- `INSERT INTO token_mappings ...` under the table's uniqueness
constraints `UNIQUE(session_id, token)` and
`UNIQUE(session_id, value_hash, category)`; `none` models a raised
`sqlite3.IntegrityError`. -/
def insertRow (st : LedgerState) (r : LedgerRow) : Option LedgerState :=
  if st.rows.any (fun q => q.session_id == r.session_id && q.token == r.token) ||
      st.rows.any (fun q => q.session_id == r.session_id &&
        q.value_hash == r.value_hash && q.category == r.category) then
    none
  else
    some ⟨st.rows ++ [r]⟩

/-- External primitives and configuration consumed by the engine:
`hashText` models `hashlib.sha256(...).hexdigest()`, `key` models the
32-byte digest `hashlib.sha256(secret).digest()`, `anagramOf` models
`security.deterministic_anagram` (a PRNG shuffle), `ttl` is
`timedelta(days=token_ttl_days)` in the numeric time model, and
`never` is the `never_reconcile_categories` set (upper-cased). -/
structure EngineCtx where
  hashText : Str → Str
  key : List Nat
  anagramOf : Str → Str
  ttl : Nat
  never : List Str

/-- Python `str.lower` (ASCII model, like `pyCasefold`). -/
def pyLower (s : Str) : Str := s.map pyLowerChar

/-- Outcome of `RuleEngine._get_or_create_token`: the returned value
or raised error, the ledger state afterwards, and how many `INSERT`
statements were executed. -/
structure GocOut where
  res : Except Unit (Str × Bool)
  st : LedgerState
  inserts : Nat

/-- `RuleEngine._get_or_create_token`. -/
def getOrCreateToken (ctx : EngineCtx) (st : LedgerState) (now : Nat)
    (session value category : Str) : GocOut :=
  match lookupByValue st session
      (ctx.hashText (normCategory category ++ '|' :: pyStrip (pyCasefold value)))
      (normCategory category) with
  | some row => ⟨.ok (row.token, false), st, 0⟩
  | none =>
    match insertRow st
        ⟨session,
         mkTokenStr (normCategory category) (countByCat st session (normCategory category) + 1),
         ctx.hashText (normCategory category ++ '|' :: pyStrip (pyCasefold value)),
         encryptValue ctx.key value,
         normCategory category,
         now,
         now + ctx.ttl⟩ with
    | some st' =>
      ⟨.ok (mkTokenStr (normCategory category)
        (countByCat st session (normCategory category) + 1), true), st', 1⟩
    | none => ⟨.error (), st, 1⟩

/-- Compiled rule fields consumed by the sanitizer (the loader of
`_load_ruleset` is exercised only through these fields). -/
structure RuleDef where
  rid : Str
  category : Str
  action : Str
  priority : Int
  replacement : Str
deriving DecidableEq

/-- A candidate match (`_Candidate`): `[startPos, endPos)` span in the
scanned text.  (`end` is a reserved word in Lean.) -/
structure Candidate where
  startPos : Nat
  endPos : Nat
  value : Str
  rule : RuleDef
deriving DecidableEq

/-- `RuleEngine._apply_action`. -/
def applyAction (ctx : EngineCtx) (st : LedgerState) (now : Nat)
    (session : Str) (rule : RuleDef) (value : Str) :
    Except Unit (Str × Bool × LedgerState) :=
  if pyStrip (pyLower rule.action) = ("replace").toList then
    .ok (if rule.replacement = [] then '[' :: (rule.category ++ [']']) else rule.replacement,
      false, st)
  else if pyStrip (pyLower rule.action) = ("anagram").toList then
    .ok (ctx.anagramOf value, false, st)
  else if pyStrip (pyLower rule.action) = ("simple_encrypt").toList then
    .ok (simpleEncrypt ctx.key value, false, st)
  else if pyStrip (pyLower rule.action) = ("tokenize").toList then
    match (getOrCreateToken ctx st now session value rule.category).res,
        (getOrCreateToken ctx st now session value rule.category).st with
    | .ok (tok, created), st' => .ok (tok, created, st')
    | .error e, _ => .error e
  else
    .ok (value, false, st)

/-- Sort key of `RuleEngine._resolve_overlaps`:
`(start ASC, length DESC, priority DESC)`. -/
def candLE (a b : Candidate) : Bool :=
  decide (a.startPos < b.startPos ∨
    (a.startPos = b.startPos ∧
      (b.endPos - b.startPos < a.endPos - a.startPos ∨
        (a.endPos - a.startPos = b.endPos - b.startPos ∧ b.rule.priority ≤ a.rule.priority))))

/-- `[start, end)` span intersection test of `_resolve_overlaps`:
`candidate.start < end and start < candidate.end`. -/
def overlapsB (occ c : Candidate) : Bool :=
  c.startPos < occ.endPos && occ.startPos < c.endPos

/-- The greedy walk of `_resolve_overlaps` (`occupied` holds the spans
accepted so far). -/
def resolveAux (occupied : List Candidate) : List Candidate → List Candidate
  | [] => []
  | c :: rest =>
    if occupied.any (fun occ => overlapsB occ c) then
      resolveAux occupied rest
    else
      c :: resolveAux (occupied ++ [c]) rest

/-- `RuleEngine._resolve_overlaps` (Python's stable `sorted` is
`List.mergeSort`). -/
def resolveOverlaps (cands : List Candidate) : List Candidate :=
  resolveAux [] (cands.mergeSort candLE)

/-- `selected.sort(key=lambda item: item.start)` (stable). -/
def startLE (a b : Candidate) : Bool :=
  decide (a.startPos ≤ b.startPos)

/-- Lexicographic order on strings (Python `sorted` on `str`). -/
def strLEb : Str → Str → Bool
  | [], _ => true
  | _ :: _, [] => false
  | a :: as, b :: bs => if a = b then strLEb as bs else decide (a.toNat < b.toNat)

/-- First-occurrence deduplication (models iterating a Python `set` of
the scanned strings; CPython's set iteration order is unspecified, the
model fixes first-occurrence order). -/
def dedupF : List Str → List Str
  | [] => []
  | x :: xs => x :: dedupF (xs.filter (fun y => !(y == x)))
termination_by l => l.length
decreasing_by
  have hsub : List.Sublist (xs.filter (fun y => !(y == x))) xs := List.filter_sublist _
  have := hsub.length_le
  simp only [List.length_cons]
  omega

/-- `sorted(set(xs))` for strings. -/
def sortedDedup (xs : List Str) : List Str :=
  (dedupF xs).mergeSort strLEb

/-- `SanitizationResult` of `rule_engine.py`. -/
structure SanRes where
  original_text : Str
  sanitized_text : Str
  rules_triggered : List Str
  transformations : Nat
  tokens_created : Nat
  encoded_values : List Str
  original_hash : Str
deriving DecidableEq

/-- The emission loop of `RuleEngine.sanitize` over the accepted
matches (sorted by start): emit `text[cursor:match.start]`, then the
replacement, advance the cursor to `match.end`; thread the ledger
state, the triggered-rule ids, `tokens_created` and the deduplicated
`encoded_values` through.  Returns the rendered text from `cursor` on. -/
def sanLoop (ctx : EngineCtx) (now : Nat) (session text : Str) :
    List Candidate → LedgerState → Nat → List Str → Nat → List Str →
    Except Unit (Str × List Str × Nat × List Str × LedgerState)
  | [], st, cursor, trig, tc, enc => .ok ((text.drop cursor, trig, tc, enc, st))
  | m :: ms, st, cursor, trig, tc, enc =>
    match applyAction ctx st now session m.rule m.value with
    | .error e => .error e
    | .ok (replacement, created, st') =>
      match sanLoop ctx now session text ms st' m.endPos (trig ++ [m.rule.rid])
          (if created then tc + 1 else tc)
          (if pyStrip (pyLower m.rule.action) = ("tokenize").toList then
            (if (enc.map pyCasefold).contains (pyCasefold m.value) then enc
             else enc ++ [m.value])
          else enc) with
      | .error e => .error e
      | .ok (suffix, trigF, tcF, encF, stF) =>
        .ok (((text.drop cursor).take (m.startPos - cursor) ++ replacement ++ suffix,
          trigF, tcF, encF, stF))

/-- `RuleEngine.sanitize`.  Candidate discovery (`_find_regex_matches`
and `_find_term_matches`, which run Python's `re` engine over the
loaded rules) is abstracted: the candidate matches are an input. -/
def sanitize (ctx : EngineCtx) (st : LedgerState) (now : Nat) (session text : Str)
    (cands : List Candidate) : Except Unit (SanRes × LedgerState) :=
  if text = [] then
    .ok (⟨text, text, [], 0, 0, [], ctx.hashText text⟩, st)
  else if resolveOverlaps cands = [] then
    .ok (⟨text, text, [], 0, 0, [], ctx.hashText text⟩, st)
  else
    match sanLoop ctx now session text ((resolveOverlaps cands).mergeSort startLE)
        st 0 [] 0 [] with
    | .error e => .error e
    | .ok (rendered, trig, tc, enc, st') =>
      .ok (⟨text, rendered, sortedDedup trig, (resolveOverlaps cands).length, tc, enc,
        ctx.hashText text⟩, st')

/-- `sorted(set(tokens), key=len, reverse=True)` of
`RuleEngine.reconcile`. -/
def lenDescLE (a b : Str) : Bool :=
  decide (b.length ≤ a.length)

def orderedTokens (text : Str) : List Str :=
  (dedupF (tokenScan text)).mergeSort lenDescLE

/-- The token-processing loop of `RuleEngine.reconcile`; `none` models
a raised exception (undecodable `original_value_enc`). -/
def reconcileGo (ctx : EngineCtx) (st : LedgerState) (now : Nat) (session : Str) :
    List Str → Str → Nat → List Str → List Str →
    Option (Str × Nat × List Str × List Str)
  | [], cur, cnt, miss, dec => some (cur, cnt, miss, dec)
  | t :: rest, cur, cnt, miss, dec =>
    if pyUpper (categoryOfToken t) ∈ ctx.never then
      reconcileGo ctx st now session rest cur cnt miss dec
    else
      match lookupByToken st session t with
      | none => reconcileGo ctx st now session rest cur cnt (miss ++ [t]) dec
      | some row =>
        if row.expires_at < now then
          reconcileGo ctx st now session rest cur cnt (miss ++ [t]) dec
        else
          match decryptValue ctx.key row.value_enc with
          | none => none
          | some v =>
            if pyCount t cur = 0 then
              reconcileGo ctx st now session rest cur cnt miss dec
            else
              reconcileGo ctx st now session rest (pyReplace t v cur)
                (cnt + pyCount t cur) miss
                (if (dec.map pyCasefold).contains (pyCasefold v) then dec else dec ++ [v])

/-- `RuleEngine.reconcile`: returns
`(restored_text, replaced_count, missing_tokens, decoded_values)`. -/
def reconcileTokens (ctx : EngineCtx) (st : LedgerState) (now : Nat)
    (session text : Str) : Option (Str × Nat × List Str × List Str) :=
  if text = [] then
    some (text, 0, [], [])
  else
    reconcileGo ctx st now session (orderedTokens text) text 0 [] []

/-- Decidable recognizer for the token grammar. -/
def isTokB (t : Str) : Bool :=
  match tryTok t with
  | some (u, r) => u == t && r.isEmpty
  | none => false

theorem isTokB_iff (t : Str) : isTokB t = true ↔ IsTok t := by
  constructor
  · intro h
    unfold isTokB at h
    rcases htt : tryTok t with _ | ⟨u, r⟩
    · rw [htt] at h; simp at h
    · rw [htt] at h
      simp only [Bool.and_eq_true, beq_iff_eq, List.isEmpty_iff] at h
      obtain ⟨hu, hsplit⟩ := tryTok_sound htt
      rw [h.1] at hu
      exact hu
  · intro h
    have := tryTok_of_tok h []
    rw [List.append_nil] at this
    unfold isTokB
    rw [this]
    simp

/-! ## Claim C2: within-session token idempotence -/

/-- The hash input `f"{category}|{value.casefold().strip()}"`. -/
def valueKey (category value : Str) : Str :=
  normCategory category ++ '|' :: pyStrip (pyCasefold value)

/-- The row inserted by a fresh `_get_or_create_token` call. -/
def freshRow (ctx : EngineCtx) (st : LedgerState) (now : Nat)
    (session value category : Str) : LedgerRow :=
  ⟨session,
   mkTokenStr (normCategory category) (countByCat st session (normCategory category) + 1),
   ctx.hashText (valueKey category value),
   encryptValue ctx.key value,
   normCategory category,
   now,
   now + ctx.ttl⟩

theorem goc_found {ctx : EngineCtx} {st : LedgerState} {now : Nat}
    {session value category : Str} {row : LedgerRow}
    (h : lookupByValue st session (ctx.hashText (valueKey category value))
      (normCategory category) = some row) :
    getOrCreateToken ctx st now session value category = ⟨.ok (row.token, false), st, 0⟩ := by
  unfold getOrCreateToken
  unfold valueKey at h
  rw [h]

theorem goc_fresh_ok {ctx : EngineCtx} {st st2 : LedgerState} {now : Nat}
    {session value category : Str}
    (h : lookupByValue st session (ctx.hashText (valueKey category value))
      (normCategory category) = none)
    (hins : insertRow st (freshRow ctx st now session value category) = some st2) :
    getOrCreateToken ctx st now session value category
      = ⟨.ok ((freshRow ctx st now session value category).token, true), st2, 1⟩ := by
  unfold getOrCreateToken
  unfold valueKey at h
  unfold freshRow valueKey at hins
  rw [h, hins]
  rfl

theorem goc_fresh_err {ctx : EngineCtx} {st : LedgerState} {now : Nat}
    {session value category : Str}
    (h : lookupByValue st session (ctx.hashText (valueKey category value))
      (normCategory category) = none)
    (hins : insertRow st (freshRow ctx st now session value category) = none) :
    getOrCreateToken ctx st now session value category = ⟨.error (), st, 1⟩ := by
  unfold getOrCreateToken
  unfold valueKey at h
  unfold freshRow valueKey at hins
  rw [h, hins]

theorem insertRow_some {st : LedgerState} {r : LedgerRow} {st2 : LedgerState}
    (h : insertRow st r = some st2) : st2 = ⟨st.rows ++ [r]⟩ := by
  unfold insertRow at h
  split at h
  · exact absurd h (by simp)
  · injection h with h
    exact h.symm

/-- C2 (confirmed): for every `(session, value, category)` starting
from a ledger with no row for the triple's key, a first
`_get_or_create_token` call that returns normally reports
`created = true`, and a second call (at any later time) returns the
same token string with `created = false` and leaves the ledger
unchanged; hence all subsequent calls return that same token. -/
theorem c2_token_idempotent (ctx : EngineCtx) (st : LedgerState) (now now' : Nat)
    (session value category : Str)
    (hfresh : lookupByValue st session (ctx.hashText (valueKey category value))
      (normCategory category) = none)
    (t1 : Str) (c1 : Bool)
    (hok : (getOrCreateToken ctx st now session value category).res = .ok (t1, c1)) :
    c1 = true ∧
    (getOrCreateToken ctx (getOrCreateToken ctx st now session value category).st
        now' session value category).res = .ok (t1, false) ∧
    (getOrCreateToken ctx (getOrCreateToken ctx st now session value category).st
        now' session value category).st
      = (getOrCreateToken ctx st now session value category).st := by
  rcases hins : insertRow st (freshRow ctx st now session value category) with _ | st2
  · rw [goc_fresh_err hfresh hins] at hok
    exact absurd hok (by simp)
  · rw [goc_fresh_ok hfresh hins] at hok ⊢
    simp only [Except.ok.injEq, Prod.mk.injEq] at hok
    obtain ⟨ht1, hc1⟩ := hok
    have hst2 := insertRow_some hins
    have hlook2 : lookupByValue st2 session (ctx.hashText (valueKey category value))
        (normCategory category) = some (freshRow ctx st now session value category) := by
      rw [hst2]
      unfold lookupByValue at hfresh ⊢
      simp only [List.find?_append, hfresh, Option.none_or]
      simp [freshRow]
    rw [goc_found hlook2]
    exact ⟨hc1.symm, by rw [← ht1], rfl⟩

/-! Concrete instances used by the witnesses and counterexamples.
`ctxW.hashText` is an injective stand-in for the SHA-256 hex digest,
`ctxW.key` a stand-in for the secret's SHA-256 digest bytes. -/

def ctxW : EngineCtx :=
  ⟨fun s => 'H' :: s, List.replicate 32 0, fun s => s.reverse, 7, []⟩

def sessW : Str := ('s' :: '1' :: [])

def valW : Str := "Enel".toList

def catW : Str := "BUSINESS".toList

def tokW : Str := "<TKN_BUSINESS_001>".toList

/-- C2 witness: concrete first and second call. -/
theorem c2_witness :
    (true : Bool) = true ∧
    (getOrCreateToken ctxW (getOrCreateToken ctxW ⟨[]⟩ 0 sessW valW catW).st
        3 sessW valW catW).res = .ok (tokW, false) ∧
    (getOrCreateToken ctxW (getOrCreateToken ctxW ⟨[]⟩ 0 sessW valW catW).st
        3 sessW valW catW).st
      = (getOrCreateToken ctxW ⟨[]⟩ 0 sessW valW catW).st :=
  c2_token_idempotent ctxW ⟨[]⟩ 0 3 sessW valW catW rfl tokW true (by
    simp [getOrCreateToken, lookupByValue, insertRow, countByCat, normCategory,
      pyUpper, pyUpperChar, pyCasefold, pyLowerChar, pyStrip, pySpace, collapseRuns,
      alnumChar, stripUnderscore, mkTokenStr, numSuffix3, natDigits, digCh,
      ctxW, sessW, valW, catW, tokW])

/-! ## Claim C8: behaviour on a ledger uniqueness conflict -/

/-- C8 (corrected): `_get_or_create_token` executes at most one
`INSERT`; when the lookup misses and the insert hits a uniqueness
constraint, the error is propagated immediately to the caller with the
ledger unchanged — after exactly one insert attempt, i.e. the
operation is **not** retried. -/
theorem c8_no_retry (ctx : EngineCtx) (st : LedgerState) (now : Nat)
    (session value category : Str) :
    (getOrCreateToken ctx st now session value category).inserts ≤ 1 ∧
    (lookupByValue st session (ctx.hashText (valueKey category value))
        (normCategory category) = none →
      insertRow st (freshRow ctx st now session value category) = none →
      getOrCreateToken ctx st now session value category = ⟨.error (), st, 1⟩) := by
  constructor
  · rcases hl : lookupByValue st session (ctx.hashText (valueKey category value))
        (normCategory category) with _ | row
    · rcases hins : insertRow st (freshRow ctx st now session value category) with _ | st2
      · rw [goc_fresh_err hl hins]
      · rw [goc_fresh_ok hl hins]
    · rw [goc_found hl]
      simp
  · intro h1 h2
    exact goc_fresh_err h1 h2

def valC8 : Str := "v".toList

def catC8 : Str := "CAT".toList

/-- A ledger state holding a row whose token collides with the next
token the `count+1` scheme will assign for `(sessW, CAT)`. -/
def stC8 : LedgerState :=
  ⟨[⟨sessW, "<TKN_CAT_001>".toList, "zz".toList, "e".toList, "OTHER".toList, 0, 10⟩]⟩

/-- C8 counterexample: on the first uniqueness conflict the call
surfaces the error directly (state unchanged, exactly one insert
attempt was made) — the claimed single retry of the entire
get-or-create never happens. -/
theorem c8_counterexample :
    getOrCreateToken ctxW stC8 0 sessW valC8 catC8
      = ⟨.error (), stC8, 1⟩ ∧ (1 : Nat) < 2 := by
  constructor
  · apply goc_fresh_err
    · simp [lookupByValue, stC8, valueKey, ctxW, sessW, valC8, catC8, normCategory,
        pyUpper, pyUpperChar, pyCasefold, pyLowerChar, pyStrip, pySpace, collapseRuns,
        alnumChar, stripUnderscore]
    · simp [insertRow, stC8, freshRow, valueKey, ctxW, sessW, valC8, catC8, normCategory,
        pyUpper, pyUpperChar, pyCasefold, pyLowerChar, pyStrip, pySpace, collapseRuns,
        alnumChar, stripUnderscore, countByCat, mkTokenStr, numSuffix3, natDigits, digCh]
  · omega

/-- C8 witness: the amended behaviour at the same concrete conflict. -/
theorem c8_witness :
    (getOrCreateToken ctxW stC8 0 sessW valC8 catC8).inserts ≤ 1 ∧
    getOrCreateToken ctxW stC8 0 sessW valC8 catC8 = ⟨.error (), stC8, 1⟩ := by
  refine ⟨(c8_no_retry ctxW stC8 0 sessW valC8 catC8).1,
    (c8_no_retry ctxW stC8 0 sessW valC8 catC8).2 ?_ ?_⟩
  · simp [lookupByValue, stC8, valueKey, ctxW, sessW, valC8, catC8, normCategory,
      pyUpper, pyUpperChar, pyCasefold, pyLowerChar, pyStrip, pySpace, collapseRuns,
      alnumChar, stripUnderscore]
  · simp [insertRow, stC8, freshRow, valueKey, ctxW, sessW, valC8, catC8, normCategory,
      pyUpper, pyUpperChar, pyCasefold, pyLowerChar, pyStrip, pySpace, collapseRuns,
      alnumChar, stripUnderscore, countByCat, mkTokenStr, numSuffix3, natDigits, digCh]

/-! ## Claim C9: the obfuscating action -/

/-- C9 (corrected): the applier returns
`"ENC[" + obfuscate(value, secret) + "]"` (XOR against the cyclic
SHA-256 keystream of the secret, URL-safe base64) with
`created = false` for rules whose action is **`simple_encrypt`**;
the action name `obfuscate` is not recognized and the value passes
through unchanged. -/
theorem c9_applier_actions (ctx : EngineCtx) (st : LedgerState) (now : Nat)
    (session value : Str) (rule : RuleDef) :
    (pyStrip (pyLower rule.action) = ("simple_encrypt").toList →
      applyAction ctx st now session rule value
        = .ok ('E' :: 'N' :: 'C' :: '[' ::
            (b64Encode (xorBytes ctx.key (utf8Encode value)) ++ [']']), false, st)) ∧
    (pyStrip (pyLower rule.action) = ("obfuscate").toList →
      applyAction ctx st now session rule value = .ok (value, false, st)) := by
  constructor
  · intro hact
    unfold applyAction
    rw [hact]
    simp [simpleEncrypt, encryptValue]
  · intro hact
    unfold applyAction
    rw [hact]
    simp

def ruleObfW : RuleDef := ⟨"r1".toList, "SECRET".toList, "obfuscate".toList, 100, []⟩

def ruleSEW : RuleDef := ⟨"r1".toList, "SECRET".toList, "simple_encrypt".toList, 100, []⟩

/-- C9 counterexample: a rule with action `obfuscate` passes the
matched value through unchanged — the output is not of the claimed
`ENC[...]` shape. -/
theorem c9_counterexample :
    applyAction ctxW ⟨[]⟩ 0 sessW ruleObfW ('x' :: []) = .ok ('x' :: [], false, ⟨[]⟩) ∧
    (∀ payload : Str, ('x' :: []) ≠ 'E' :: 'N' :: 'C' :: '[' :: payload) := by
  constructor
  · simp [applyAction, ruleObfW, pyLower, pyLowerChar, pyStrip, pySpace]
  · intro payload h
    exact absurd h (by simp)

/-- C9 witness: the `simple_encrypt` action at a concrete input. -/
theorem c9_witness :
    applyAction ctxW ⟨[]⟩ 0 sessW ruleSEW ('x' :: [])
      = .ok ('E' :: 'N' :: 'C' :: '[' ::
          (b64Encode (xorBytes ctxW.key (utf8Encode ('x' :: []))) ++ [']']), false, ⟨[]⟩) :=
  (c9_applier_actions ctxW ⟨[]⟩ 0 sessW ('x' :: []) ruleSEW).1 (by
    simp [ruleSEW, pyLower, pyLowerChar, pyStrip, pySpace])

/-! ## Claim C3: the token grammar -/

theorem mkTokenStr_eq_tokStr {cat : Str} {n : Nat} (hn : n < 1000) :
    mkTokenStr cat n
      = tokStr cat (digCh (n / 100)) (digCh (n / 10 % 10)) (digCh (n % 10)) := by
  unfold mkTokenStr tokStr
  rw [numSuffix3_explicit hn]
  simp

theorem digitsOfToken_mkTokenStr {cat : Str} {n : Nat} (hn : n < 1000) :
    digitsOfToken (mkTokenStr cat n) = numSuffix3 n := by
  rw [mkTokenStr_eq_tokStr hn, digitsOfToken_tokStr, numSuffix3_explicit hn]

/-- C3 (corrected): a token created by the tokenize action from a
ledger holding at most 998 rows for its `(session, category)` is
`<TKN_<CATEGORY>_<NNN>>` with `NNN` the three-digit zero-padded
decimal of `count+1`, and it matches the recognizer grammar
`<TKN_[A-Z0-9_]+_[0-9]{3}>`.  (Beyond 999 rows the `{n:03d}` field
grows to four digits and leaves the grammar — see the
counterexample.) -/
theorem c3_token_grammar (ctx : EngineCtx) (st : LedgerState) (now : Nat)
    (session value category : Str)
    (hfresh : lookupByValue st session (ctx.hashText (valueKey category value))
      (normCategory category) = none)
    (hcnt : countByCat st session (normCategory category) ≤ 998)
    (t : Str) (created : Bool)
    (hok : (getOrCreateToken ctx st now session value category).res = .ok (t, created)) :
    t = mkTokenStr (normCategory category)
        (countByCat st session (normCategory category) + 1) ∧
    IsTok t ∧
    digitsOfToken t
      = numSuffix3 (countByCat st session (normCategory category) + 1) ∧
    (numSuffix3 (countByCat st session (normCategory category) + 1)).length = 3 := by
  rcases hins : insertRow st (freshRow ctx st now session value category) with _ | st2
  · rw [goc_fresh_err hfresh hins] at hok
    exact absurd hok (by simp)
  · rw [goc_fresh_ok hfresh hins] at hok
    simp only [Except.ok.injEq, Prod.mk.injEq] at hok
    obtain ⟨ht, -⟩ := hok
    have hlt : countByCat st session (normCategory category) + 1 < 1000 := by omega
    obtain ⟨hall, hne⟩ := normCategory_tokenChar category
    subst ht
    refine ⟨rfl, mkTokenStr_isTok hall hne hlt, digitsOfToken_mkTokenStr hlt,
      numSuffix3_len _ hlt⟩

def valC3 : Str := "v".toList

def catC3 : Str := "CAT".toList

/-- C3 witness: first token for a fresh `(session, category)`. -/
theorem c3_witness :
    ("<TKN_CAT_001>").toList
        = mkTokenStr (normCategory catC3) (countByCat ⟨[]⟩ sessW (normCategory catC3) + 1) ∧
    IsTok (("<TKN_CAT_001>").toList) ∧
    digitsOfToken (("<TKN_CAT_001>").toList)
      = numSuffix3 (countByCat ⟨[]⟩ sessW (normCategory catC3) + 1) ∧
    (numSuffix3 (countByCat ⟨[]⟩ sessW (normCategory catC3) + 1)).length = 3 :=
  c3_token_grammar ctxW ⟨[]⟩ 0 sessW valC3 catC3 rfl
    (by simp [countByCat])
    (("<TKN_CAT_001>").toList) true
    (by simp [getOrCreateToken, lookupByValue, insertRow, countByCat, normCategory,
      pyUpper, pyUpperChar, pyCasefold, pyLowerChar, pyStrip, pySpace, collapseRuns,
      alnumChar, stripUnderscore, mkTokenStr, numSuffix3, natDigits, digCh,
      ctxW, sessW, valC3, catC3])

/-- A ledger already holding 999 tokenized values for
`(sessW, "CAT")`. -/
def rowC3 (i : Nat) : LedgerRow :=
  ⟨sessW, mkTokenStr catC3 (i + 1), 'R' :: natDigits i, "e".toList, catC3, 0, 10⟩

def stC3 : LedgerState := ⟨(List.range 999).map rowC3⟩

set_option maxRecDepth 8192

theorem normCategory_catC3 : normCategory catC3 = catC3 := by
  simp [normCategory, catC3, pyUpper, pyUpperChar, collapseRuns, alnumChar,
    stripUnderscore]

theorem numSuffix3_1000 : numSuffix3 1000 = '1' :: '0' :: '0' :: '0' :: [] := by
  simp [numSuffix3, natDigits, digCh]

/-- C3 counterexample: after 999 insertions for the `(session,
category)`, the emitted (and newly created) token is
`<TKN_CAT_1000>`, whose numeric field has four digits — it does not
match `<TKN_[A-Z0-9_]+_[0-9]{3}>`. -/
theorem c3_counterexample :
    (getOrCreateToken ctxW stC3 0 sessW valC3 catC3).res
      = .ok (("<TKN_CAT_1000>").toList, true) ∧
    isTokB (("<TKN_CAT_1000>").toList) = false := by
  have hnorm := normCategory_catC3
  have hfresh : lookupByValue stC3 sessW (ctxW.hashText (valueKey catC3 valC3))
      (normCategory catC3) = none := by
    unfold lookupByValue stC3
    apply List.find?_eq_none.mpr
    intro r hr
    obtain ⟨i, hi, rfl⟩ := List.mem_map.mp hr
    simp [rowC3, ctxW, valueKey]
  have hcnt : countByCat stC3 sessW catC3 = 999 := by
    unfold countByCat stC3
    have hall : ∀ r ∈ (List.range 999).map rowC3,
        (r.session_id == sessW && r.category == catC3) = true := by
      intro r hr
      obtain ⟨i, hi, rfl⟩ := List.mem_map.mp hr
      simp [rowC3]
    rw [List.filter_eq_self.mpr hall]
    simp
  have htok1000 : mkTokenStr catC3 1000 = ("<TKN_CAT_1000>").toList := by
    simp [mkTokenStr, numSuffix3_1000, catC3]
  have htokne : ∀ i, i < 999 → mkTokenStr catC3 (i + 1) ≠ mkTokenStr catC3 1000 := by
    intro i hi heq
    have hlen := congrArg List.length heq
    simp only [mkTokenStr, List.length_cons, List.length_append] at hlen
    have h3 := numSuffix3_len (i + 1) (by omega)
    rw [h3, numSuffix3_1000] at hlen
    simp at hlen
  have hins : insertRow stC3 (freshRow ctxW stC3 0 sessW valC3 catC3)
      = some ⟨stC3.rows ++ [freshRow ctxW stC3 0 sessW valC3 catC3]⟩ := by
    have hc1 : (stC3.rows.any (fun q =>
        q.session_id == (freshRow ctxW stC3 0 sessW valC3 catC3).session_id &&
        q.token == (freshRow ctxW stC3 0 sessW valC3 catC3).token)) = false := by
      apply List.any_eq_false.mpr
      intro q hq
      have hq2 : q ∈ (List.range 999).map rowC3 := hq
      obtain ⟨i, hi, rfl⟩ := List.mem_map.mp hq2
      rw [List.mem_range] at hi
      simp only [rowC3, freshRow, Bool.and_eq_true, beq_iff_eq]
      intro hcon
      have hteq := hcon.2
      rw [hnorm, hcnt] at hteq
      exact htokne i hi (by norm_num at hteq ⊢; exact hteq)
    have hc2 : (stC3.rows.any (fun q =>
        q.session_id == (freshRow ctxW stC3 0 sessW valC3 catC3).session_id &&
        q.value_hash == (freshRow ctxW stC3 0 sessW valC3 catC3).value_hash &&
        q.category == (freshRow ctxW stC3 0 sessW valC3 catC3).category)) = false := by
      apply List.any_eq_false.mpr
      intro q hq
      have hq2 : q ∈ (List.range 999).map rowC3 := hq
      obtain ⟨i, hi, rfl⟩ := List.mem_map.mp hq2
      simp only [rowC3, freshRow, Bool.and_eq_true, beq_iff_eq, ctxW]
      intro hcon
      exact absurd hcon.1.2 (by simp)
    unfold insertRow
    rw [hc1, hc2]
    simp
  rw [goc_fresh_ok hfresh hins]
  constructor
  · simp only [Except.ok.injEq, Prod.mk.injEq]
    refine ⟨?_, trivial⟩
    show (freshRow ctxW stC3 0 sessW valC3 catC3).token = _
    unfold freshRow
    simp only
    rw [hnorm, hcnt, ← htok1000]
  · decide

/-! ## Claim C4: the overlap resolver -/

theorem candLE_trans (a b c : Candidate) (hab : candLE a b = true)
    (hbc : candLE b c = true) : candLE a c = true := by
  simp only [candLE, decide_eq_true_eq] at *
  omega

theorem candLE_total (a b : Candidate) : (candLE a b || candLE b a) = true := by
  simp only [candLE, Bool.or_eq_true, decide_eq_true_eq]
  omega

theorem resolveAux_sublist (l : List Candidate) :
    ∀ occ, List.Sublist (resolveAux occ l) l := by
  induction l with
  | nil => intro occ; simp [resolveAux]
  | cons c rest ih =>
    intro occ
    rw [resolveAux]
    split
    · exact (ih occ).cons c
    · exact (ih (occ ++ [c])).cons₂ c

theorem resolveAux_no_overlap_occ (l : List Candidate) :
    ∀ occ, ∀ x ∈ resolveAux occ l, ∀ a ∈ occ, overlapsB a x = false := by
  induction l with
  | nil => intro occ x hx; simp [resolveAux] at hx
  | cons c rest ih =>
    intro occ x hx a ha
    rw [resolveAux] at hx
    split at hx
    · exact ih occ x hx a ha
    · rename_i hany
      rcases List.mem_cons.mp hx with rfl | hx'
      · cases hb : overlapsB a x
        · rfl
        · exact absurd (List.any_eq_true.mpr ⟨a, ha, hb⟩) hany
      · exact ih (occ ++ [c]) x hx' a (List.mem_append_left _ ha)

theorem resolveAux_pairwise_disjoint (l : List Candidate) :
    ∀ occ, List.Pairwise (fun a b => overlapsB a b = false) (resolveAux occ l) := by
  induction l with
  | nil => intro occ; simp [resolveAux]
  | cons c rest ih =>
    intro occ
    rw [resolveAux]
    split
    · exact ih occ
    · refine List.Pairwise.cons ?_ (ih (occ ++ [c]))
      intro x hx
      exact resolveAux_no_overlap_occ rest (occ ++ [c]) x hx c
        (List.mem_append_right _ (List.mem_cons_self c []))

theorem resolveAux_reject (l : List Candidate) :
    ∀ occ, List.Pairwise (fun a b => candLE a b = true) l →
    ∀ c ∈ l, c ∉ resolveAux occ l →
    ∃ a, (a ∈ occ ∨ (a ∈ resolveAux occ l ∧ candLE a c = true)) ∧
      overlapsB a c = true := by
  induction l with
  | nil => intro occ _ c hc; simp at hc
  | cons c0 rest ih =>
    intro occ hsort c hc hcnot
    rw [resolveAux] at hcnot
    split at hcnot
    · rename_i hany
      rcases List.mem_cons.mp hc with rfl | hc'
      · obtain ⟨a, ha, hov⟩ := List.any_eq_true.mp hany
        exact ⟨a, Or.inl ha, hov⟩
      · obtain ⟨a, hcase, hov⟩ := ih occ hsort.of_cons c hc' hcnot
        refine ⟨a, ?_, hov⟩
        rcases hcase with ha | ⟨ha, hle⟩
        · exact Or.inl ha
        · rw [resolveAux, if_pos hany]
          exact Or.inr ⟨ha, hle⟩
    · rename_i hany
      have hcnot2 : c ≠ c0 ∧ c ∉ resolveAux (occ ++ [c0]) rest := by
        constructor
        · intro rfl_h
          exact hcnot (rfl_h ▸ List.mem_cons_self _ _)
        · intro hmem
          exact hcnot (List.mem_cons_of_mem _ hmem)
      rcases List.mem_cons.mp hc with rfl | hc'
      · exact absurd rfl hcnot2.1
      · obtain ⟨a, hcase, hov⟩ := ih (occ ++ [c0]) hsort.of_cons c hc' hcnot2.2
        rw [resolveAux, if_neg hany]
        rcases hcase with ha | ⟨ha, hle⟩
        · rcases List.mem_append.mp ha with ha' | ha'
          · exact ⟨a, Or.inl ha', hov⟩
          · have haeq : a = c0 := by simpa using ha'
            subst haeq
            refine ⟨a, Or.inr ⟨List.mem_cons_self _ _, ?_⟩, hov⟩
            exact (List.pairwise_cons.mp hsort).1 c hc'
        · exact ⟨a, Or.inr ⟨List.mem_cons_of_mem _ ha, hle⟩, hov⟩

/-- C4 (confirmed): the overlap resolver accepts pairwise-disjoint
spans, its output is strictly increasing in `start` (for candidates
with non-empty spans, as the data model defines them); among
conflicting candidates the one earlier in the
`(start ASC, length DESC, priority DESC)` order wins: every rejected
candidate overlaps an accepted candidate that precedes it in that
order (ties in the order are broken by encounter order via the stable
sort). -/
theorem c4_resolver (cands : List Candidate)
    (hpos : ∀ c ∈ cands, c.startPos < c.endPos) :
    List.Pairwise (fun a b => overlapsB a b = false) (resolveOverlaps cands) ∧
    List.Pairwise (fun a b => a.startPos < b.startPos) (resolveOverlaps cands) ∧
    (∀ c ∈ resolveOverlaps cands, c ∈ cands) ∧
    (∀ c ∈ cands, c ∉ resolveOverlaps cands →
      ∃ a ∈ resolveOverlaps cands, overlapsB a c = true ∧ candLE a c = true) := by
  have hsort : List.Pairwise (fun a b => candLE a b = true) (cands.mergeSort candLE) := by
    have := List.sorted_mergeSort candLE_trans candLE_total cands
    exact this
  have hsub : List.Sublist (resolveOverlaps cands) (cands.mergeSort candLE) :=
    resolveAux_sublist _ []
  have hmem : ∀ c ∈ resolveOverlaps cands, c ∈ cands := by
    intro c hc
    exact List.mem_mergeSort.mp (hsub.subset hc)
  have hdisj : List.Pairwise (fun a b => overlapsB a b = false) (resolveOverlaps cands) :=
    resolveAux_pairwise_disjoint _ []
  refine ⟨hdisj, ?_, hmem, ?_⟩
  · have hLE : List.Pairwise (fun a b => candLE a b = true) (resolveOverlaps cands) :=
      hsort.sublist hsub
    have hcomb := hdisj.and hLE
    refine hcomb.imp_of_mem ?_
    intro a b ha hb hab
    obtain ⟨hov, hle⟩ := hab
    have hpa := hpos a (hmem a ha)
    have hpb := hpos b (hmem b hb)
    simp only [candLE, decide_eq_true_eq] at hle
    simp only [overlapsB, Bool.and_eq_true, decide_eq_true_eq] at hov
    rcases hle with h | ⟨heq, -⟩
    · exact h
    · exfalso
      have hcontra : (decide (b.startPos < a.endPos) && decide (a.startPos < b.endPos))
          = true := by
        simp only [Bool.and_eq_true, decide_eq_true_eq]
        omega
      rw [hcontra] at hov
      exact absurd hov (by simp)
  · intro c hc hcnot
    have hcs : c ∈ cands.mergeSort candLE := List.mem_mergeSort.mpr hc
    obtain ⟨a, hcase, hov⟩ := resolveAux_reject _ [] hsort c hcs hcnot
    rcases hcase with ha | ⟨ha, hle⟩
    · simp at ha
    · exact ⟨a, ha, hov, hle⟩

def ruleW4a : RuleDef := ⟨"a".toList, "X".toList, "replace".toList, 100, "[A]".toList⟩

def ruleW4b : RuleDef := ⟨"b".toList, "X".toList, "replace".toList, 50, "[B]".toList⟩

/-- Concrete candidate set: two candidates start at 0 (lengths 5 and
3) and a third overlaps the first. -/
def candsW4 : List Candidate :=
  [⟨0, 3, "abc".toList, ruleW4b⟩, ⟨0, 5, "abcde".toList, ruleW4a⟩,
   ⟨4, 7, "efg".toList, ruleW4b⟩]

/-- C4 witness at a concrete candidate set. -/
theorem c4_witness :
    List.Pairwise (fun a b => overlapsB a b = false) (resolveOverlaps candsW4) ∧
    List.Pairwise (fun a b => a.startPos < b.startPos) (resolveOverlaps candsW4) ∧
    (∀ c ∈ resolveOverlaps candsW4, c ∈ candsW4) ∧
    (∀ c ∈ candsW4, c ∉ resolveOverlaps candsW4 →
      ∃ a ∈ resolveOverlaps candsW4, overlapsB a c = true ∧ candLE a c = true) :=
  c4_resolver candsW4 (by decide)

/-! ## Claim C10: the `encoded_values` list -/

/-- Keep the values whose case-folded form is not in `seen`, first
occurrence wins, threading the growing seen set. -/
def dedupCFAux (seen : List Str) : List Str → List Str
  | [] => []
  | v :: vs =>
    if pyCasefold v ∈ seen then dedupCFAux seen vs
    else v :: dedupCFAux (pyCasefold v :: seen) vs

theorem dedupCFAux_congr {s1 s2 : List Str} (h : ∀ x, x ∈ s1 ↔ x ∈ s2) :
    ∀ l, dedupCFAux s1 l = dedupCFAux s2 l := by
  intro l
  induction l generalizing s1 s2 with
  | nil => rfl
  | cons v vs ih =>
    rw [dedupCFAux, dedupCFAux]
    by_cases hv : pyCasefold v ∈ s1
    · rw [if_pos hv, if_pos ((h _).mp hv)]
      exact ih h
    · rw [if_neg hv, if_neg (fun hc => hv ((h _).mpr hc))]
      have hstep : dedupCFAux (pyCasefold v :: s1) vs = dedupCFAux (pyCasefold v :: s2) vs :=
        ih (fun x => by rw [List.mem_cons, List.mem_cons, h x])
      rw [hstep]

/-- Action test of the sanitizer's `encoded_values` accumulation. -/
def isTokenizeAction (c : Candidate) : Bool :=
  pyStrip (pyLower c.rule.action) == ("tokenize").toList

/-- The `encoded_values` the spec predicts for an accepted match list:
the values of tokenize-action matches in acceptance order,
deduplicated by case-folded equality, first-seen form retained. -/
def encodedValuesSpec (sel : List Candidate) : List Str :=
  dedupCFAux [] ((sel.filter isTokenizeAction).map Candidate.value)

theorem sanLoop_encoded (ctx : EngineCtx) (now : Nat) (session text : Str) :
    ∀ ms : List Candidate, ∀ st cursor trig tc enc out,
      sanLoop ctx now session text ms st cursor trig tc enc = .ok out →
      out.2.2.2.1 = enc ++
        dedupCFAux (enc.map pyCasefold) ((ms.filter isTokenizeAction).map Candidate.value) := by
  intro ms
  induction ms with
  | nil =>
    intro st cursor trig tc enc out hok
    rw [sanLoop] at hok
    injection hok with hok
    rw [← hok]
    simp [dedupCFAux]
  | cons m ms ih =>
    intro st cursor trig tc enc out hok
    rw [sanLoop] at hok
    rcases happ : applyAction ctx st now session m.rule m.value with e | ⟨rep, created, st2⟩
    · rw [happ] at hok
      exact absurd hok (by simp)
    · rw [happ] at hok
      simp only at hok
      rcases hrec : sanLoop ctx now session text ms st2 m.endPos (trig ++ [m.rule.rid])
          (if created then tc + 1 else tc)
          (if pyStrip (pyLower m.rule.action) = ("tokenize").toList then
            (if (enc.map pyCasefold).contains (pyCasefold m.value) then enc
             else enc ++ [m.value])
          else enc) with e | out2
      · rw [hrec] at hok
        exact absurd hok (by simp)
      · rw [hrec] at hok
        injection hok with hok
        have hench : out.2.2.2.1 = out2.2.2.2.1 := by
          rw [← hok]
        rw [hench]
        by_cases hact : pyStrip (pyLower m.rule.action) = ("tokenize").toList
        · have hfil : (m :: ms).filter isTokenizeAction = m :: ms.filter isTokenizeAction := by
            rw [List.filter_cons, if_pos (by simp [isTokenizeAction, hact])]
          rw [hfil]
          by_cases hseen : (enc.map pyCasefold).contains (pyCasefold m.value)
          · have henc' := ih st2 m.endPos (trig ++ [m.rule.rid])
              (if created then tc + 1 else tc) enc out2 (by
                rw [← hrec]
                congr 1
                rw [if_pos hact, if_pos hseen])
            rw [henc']
            congr 1
            rw [List.map_cons, dedupCFAux,
              if_pos (by simpa [List.contains] using hseen)]
          · have henc' := ih st2 m.endPos (trig ++ [m.rule.rid])
              (if created then tc + 1 else tc) (enc ++ [m.value]) out2 (by
                rw [← hrec]
                congr 1
                rw [if_pos hact, if_neg hseen])
            rw [henc']
            rw [List.map_cons, dedupCFAux,
              if_neg (by simpa [List.contains] using hseen)]
            rw [List.append_assoc]
            congr 1
            rw [List.singleton_append]
            congr 1
            apply dedupCFAux_congr
            intro x
            simp only [List.map_append, List.mem_append, List.map_cons, List.map_nil,
              List.mem_cons, List.mem_singleton, List.not_mem_nil, or_false]
            exact or_comm
        · have hfil : (m :: ms).filter isTokenizeAction = ms.filter isTokenizeAction := by
            rw [List.filter_cons, if_neg (by simpa [isTokenizeAction] using hact)]
          rw [hfil]
          exact ih st2 m.endPos (trig ++ [m.rule.rid])
            (if created then tc + 1 else tc) enc out2 (by
              rw [← hrec]
              congr 1
              rw [if_neg hact])

/-- C10 (confirmed): every `SanitizationResult` carries in
`encoded_values` exactly the accepted matches' values whose rule
action normalizes to `tokenize`, in acceptance order, deduplicated by
case-folded equality with the first-seen form retained; matches of
`replace`, `anagram` and every other action contribute nothing. -/
theorem c10_encoded_values (ctx : EngineCtx) (st : LedgerState) (now : Nat)
    (session text : Str) (cands : List Candidate) (res : SanRes) (st' : LedgerState)
    (hcand : ∀ c ∈ cands, c.startPos < c.endPos ∧ c.endPos ≤ text.length)
    (hok : sanitize ctx st now session text cands = .ok (res, st')) :
    res.encoded_values = encodedValuesSpec ((resolveOverlaps cands).mergeSort startLE) := by
  unfold sanitize at hok
  by_cases htext : text = []
  · rw [if_pos htext] at hok
    have hcnil : cands = [] := by
      rcases cands with _ | ⟨c, cs⟩
      · rfl
      · exfalso
        obtain ⟨h1, h2⟩ := hcand c (List.mem_cons_self _ _)
        rw [htext] at h2
        simp at h2
        omega
    injection hok with hok
    have : res = ⟨text, text, [], 0, 0, [], ctx.hashText text⟩ := by
      have := congrArg Prod.fst hok
      simpa using this.symm
    rw [this]
    subst hcnil
    simp [encodedValuesSpec, resolveOverlaps, resolveAux, dedupCFAux]
  · rw [if_neg htext] at hok
    by_cases hsel : resolveOverlaps cands = []
    · rw [if_pos hsel] at hok
      injection hok with hok
      have hres : res = ⟨text, text, [], 0, 0, [], ctx.hashText text⟩ := by
        have := congrArg Prod.fst hok
        simpa using this.symm
      rw [hres, hsel]
      simp [encodedValuesSpec, dedupCFAux]
    · rw [if_neg hsel] at hok
      rcases hloop : sanLoop ctx now session text
          ((resolveOverlaps cands).mergeSort startLE) st 0 [] 0 [] with e | out
      · rw [hloop] at hok
        exact absurd hok (by simp)
      · rw [hloop] at hok
        injection hok with hok
        have hres : res.encoded_values = out.2.2.2.1 := by
          have h1 := congrArg (fun p => p.1.encoded_values) hok
          simpa using h1.symm
        rw [hres, sanLoop_encoded ctx now session text _ st 0 [] 0 [] out hloop]
        simp [encodedValuesSpec]

def candW10 : Candidate :=
  ⟨3, 6, "bob".toList, ⟨"r3".toList, "BUSINESS".toList, "tokenize".toList, 100, []⟩⟩

def resW10 : SanRes :=
  ⟨"hi bob".toList, "hi <TKN_BUSINESS_001>".toList, ["r3".toList], 1, 1,
   ["bob".toList], 'H' :: "hi bob".toList⟩

def stW10 : LedgerState :=
  ⟨[⟨sessW, "<TKN_BUSINESS_001>".toList, 'H' :: "BUSINESS|bob".toList,
    encryptValue ctxW.key ("bob".toList), "BUSINESS".toList, 0, 7⟩]⟩

/-- C10 witness at a concrete sanitize call. -/
theorem c10_witness :
    sanitize ctxW ⟨[]⟩ 0 sessW ("hi bob".toList) [candW10] = .ok (resW10, stW10) ∧
    resW10.encoded_values
      = encodedValuesSpec ((resolveOverlaps [candW10]).mergeSort startLE) := by
  have hok : sanitize ctxW ⟨[]⟩ 0 sessW ("hi bob".toList) [candW10]
      = .ok (resW10, stW10) := by
    simp [sanitize, resolveOverlaps, resolveAux, overlapsB, sanLoop, applyAction,
      getOrCreateToken, lookupByValue, insertRow, countByCat, normCategory,
      pyUpper, pyUpperChar, pyCasefold, pyLower, pyLowerChar, pyStrip, pySpace,
      collapseRuns, alnumChar, stripUnderscore, mkTokenStr, numSuffix3, natDigits,
      digCh, ctxW, sessW, candW10, resW10, stW10, sortedDedup, dedupF, strLEb,
      encryptValue]
  exact ⟨hok, c10_encoded_values ctxW ⟨[]⟩ 0 sessW ("hi bob".toList) [candW10]
    resW10 stW10 (by decide) hok⟩

/-! ## Reconcile loop lemmas (shared by C5, C6, C7, C1) -/

theorem dedupF_mem {x : Str} : ∀ {l : List Str}, x ∈ dedupF l ↔ x ∈ l := by
  intro l
  induction l using dedupF.induct with
  | case1 => simp [dedupF]
  | case2 x0 xs ih =>
    rw [dedupF]
    constructor
    · intro hx
      rcases List.mem_cons.mp hx with rfl | hx'
      · exact List.mem_cons_self _ _
      · exact List.mem_cons_of_mem _ (List.mem_filter.mp (ih.mp hx')).1
    · intro hx
      rcases List.mem_cons.mp hx with rfl | hx'
      · exact List.mem_cons_self _ _
      · by_cases hxe : x = x0
        · exact hxe ▸ List.mem_cons_self _ _
        · exact List.mem_cons_of_mem _ (ih.mpr (List.mem_filter.mpr ⟨hx', by simp [hxe]⟩))

theorem dedupF_nodup : ∀ l : List Str, (dedupF l).Nodup := by
  intro l
  induction l using dedupF.induct with
  | case1 => simp [dedupF]
  | case2 x0 xs ih =>
    rw [dedupF]
    refine List.Pairwise.cons ?_ ih
    intro y hy
    have := (List.mem_filter.mp (dedupF_mem.mp hy)).2
    simp only [Bool.not_eq_eq_eq_not, Bool.not_true, beq_eq_false_iff_ne] at this
    exact fun he => this he.symm

theorem orderedTokens_mem {text t : Str} :
    t ∈ orderedTokens text ↔ t ∈ tokenScan text := by
  unfold orderedTokens
  rw [List.mem_mergeSort, dedupF_mem]

theorem orderedTokens_nodup (text : Str) : (orderedTokens text).Nodup := by
  unfold orderedTokens
  exact ((List.mergeSort_perm (dedupF (tokenScan text)) lenDescLE).nodup_iff).mpr
    (dedupF_nodup _)

theorem orderedTokens_isTok {text t : Str} (h : t ∈ orderedTokens text) : IsTok t :=
  (tokenScan_sound (orderedTokens_mem.mp h)).1

theorem orderedTokens_occurs {text t : Str} (h : t ∈ orderedTokens text) :
    0 < occCount t text := by
  obtain ⟨ht, a, b, hab⟩ := tokenScan_sound (orderedTokens_mem.mp h)
  have htne : t ≠ [] := by
    obtain ⟨u, rfl, -⟩ := ht.shape_lt
    simp
  exact (occCount_pos_iff t htne text).mpr ⟨a, b, hab⟩

theorem orderedTokens_complete {text t : Str} (ht : IsTok t)
    (hocc : 0 < occCount t text) : t ∈ orderedTokens text := by
  have htne : t ≠ [] := by
    obtain ⟨u, rfl, -⟩ := ht.shape_lt
    simp
  obtain ⟨a, b, hab⟩ := (occCount_pos_iff t htne text).mp hocc
  exact orderedTokens_mem.mpr (tokenScan_complete ht text a b hab)

/-- The `missing` accumulator only grows. -/
theorem go_miss_mono (ctx : EngineCtx) (st : LedgerState) (now : Nat) (session : Str) :
    ∀ (toks : List Str) cur cnt miss dec out,
      reconcileGo ctx st now session toks cur cnt miss dec = some out →
      ∀ x ∈ miss, x ∈ out.2.2.1 := by
  intro toks
  induction toks with
  | nil =>
    intro cur cnt miss dec out hok x hx
    rw [reconcileGo] at hok
    injection hok with hok
    rw [← hok]
    exact hx
  | cons t rest ih =>
    intro cur cnt miss dec out hok x hx
    rw [reconcileGo] at hok
    split at hok
    · exact ih _ _ _ _ _ hok x hx
    · rcases hlk : lookupByToken st session t with _ | row
      · rw [hlk] at hok
        exact ih _ _ _ _ _ hok x (List.mem_append_left _ hx)
      · rw [hlk] at hok
        simp only at hok
        split at hok
        · exact ih _ _ _ _ _ hok x (List.mem_append_left _ hx)
        · rcases hdec : decryptValue ctx.key row.value_enc with _ | v
          · rw [hdec] at hok
            exact absurd hok (by simp)
          · rw [hdec] at hok
            simp only at hok
            split at hok
            · exact ih _ _ _ _ _ hok x hx
            · exact ih _ _ _ _ _ hok x hx

/-- New entries in `missing` come from the processed token list. -/
theorem go_miss_src (ctx : EngineCtx) (st : LedgerState) (now : Nat) (session : Str) :
    ∀ (toks : List Str) cur cnt miss dec out,
      reconcileGo ctx st now session toks cur cnt miss dec = some out →
      ∀ x ∈ out.2.2.1, x ∈ miss ∨ x ∈ toks := by
  intro toks
  induction toks with
  | nil =>
    intro cur cnt miss dec out hok x hx
    rw [reconcileGo] at hok
    injection hok with hok
    rw [← hok] at hx
    exact Or.inl hx
  | cons t rest ih =>
    intro cur cnt miss dec out hok x hx
    rw [reconcileGo] at hok
    split at hok
    · rcases ih _ _ _ _ _ hok x hx with h | h
      · exact Or.inl h
      · exact Or.inr (List.mem_cons_of_mem _ h)
    · rcases hlk : lookupByToken st session t with _ | row
      · rw [hlk] at hok
        rcases ih _ _ _ _ _ hok x hx with h | h
        · rcases List.mem_append.mp h with h' | h'
          · exact Or.inl h'
          · exact Or.inr (by simpa using Or.inl (by simpa using h'))
        · exact Or.inr (List.mem_cons_of_mem _ h)
      · rw [hlk] at hok
        simp only at hok
        split at hok
        · rcases ih _ _ _ _ _ hok x hx with h | h
          · rcases List.mem_append.mp h with h' | h'
            · exact Or.inl h'
            · exact Or.inr (by simpa using Or.inl (by simpa using h'))
          · exact Or.inr (List.mem_cons_of_mem _ h)
        · rcases hdec : decryptValue ctx.key row.value_enc with _ | v
          · rw [hdec] at hok
            exact absurd hok (by simp)
          · rw [hdec] at hok
            simp only at hok
            split at hok
            · rcases ih _ _ _ _ _ hok x hx with h | h
              · exact Or.inl h
              · exact Or.inr (List.mem_cons_of_mem _ h)
            · rcases ih _ _ _ _ _ hok x hx with h | h
              · exact Or.inl h
              · exact Or.inr (List.mem_cons_of_mem _ h)

/-- New entries in `decoded_values` decode ledger rows of processed
tokens. -/
theorem go_dec_src (ctx : EngineCtx) (st : LedgerState) (now : Nat) (session : Str) :
    ∀ (toks : List Str) cur cnt miss dec out,
      reconcileGo ctx st now session toks cur cnt miss dec = some out →
      ∀ v ∈ out.2.2.2, v ∈ dec ∨ ∃ t ∈ toks, ¬(pyUpper (categoryOfToken t) ∈ ctx.never) ∧
        ∃ row, lookupByToken st session t = some row ∧ ¬(row.expires_at < now) ∧
          decryptValue ctx.key row.value_enc = some v := by
  intro toks
  induction toks with
  | nil =>
    intro cur cnt miss dec out hok v hv
    rw [reconcileGo] at hok
    injection hok with hok
    rw [← hok] at hv
    exact Or.inl hv
  | cons t rest ih =>
    intro cur cnt miss dec out hok v hv
    rw [reconcileGo] at hok
    split at hok
    · rcases ih _ _ _ _ _ hok v hv with h | ⟨t', ht', hrest⟩
      · exact Or.inl h
      · exact Or.inr ⟨t', List.mem_cons_of_mem _ ht', hrest⟩
    · rename_i hnev
      rcases hlk : lookupByToken st session t with _ | row
      · rw [hlk] at hok
        rcases ih _ _ _ _ _ hok v hv with h | ⟨t', ht', hrest⟩
        · exact Or.inl h
        · exact Or.inr ⟨t', List.mem_cons_of_mem _ ht', hrest⟩
      · rw [hlk] at hok
        simp only at hok
        split at hok
        · rcases ih _ _ _ _ _ hok v hv with h | ⟨t', ht', hrest⟩
          · exact Or.inl h
          · exact Or.inr ⟨t', List.mem_cons_of_mem _ ht', hrest⟩
        · rename_i hexp
          rcases hdec : decryptValue ctx.key row.value_enc with _ | w
          · rw [hdec] at hok
            exact absurd hok (by simp)
          · rw [hdec] at hok
            simp only at hok
            split at hok
            · rcases ih _ _ _ _ _ hok v hv with h | ⟨t', ht', hrest⟩
              · exact Or.inl h
              · exact Or.inr ⟨t', List.mem_cons_of_mem _ ht', hrest⟩
            · rcases ih _ _ _ _ _ hok v hv with h | ⟨t', ht', hrest⟩
              · split at h
                · exact Or.inl h
                · rcases List.mem_append.mp h with h' | h'
                  · exact Or.inl h'
                  · have hvw : v = w := by simpa using h'
                    subst hvw
                    exact Or.inr ⟨t, List.mem_cons_self _ _, hnev, row, hlk, hexp, hdec⟩
              · exact Or.inr ⟨t', List.mem_cons_of_mem _ ht', hrest⟩

/-- A token that is skipped (policy) or missing (no live row) at its
own step is never substituted: its occurrence count never drops. -/
theorem go_occ_preserved (ctx : EngineCtx) (st : LedgerState) (now : Nat) (session : Str)
    {s : Str} (hs : IsTok s) :
    ∀ (toks : List Str) cur cnt miss dec out,
      (∀ t ∈ toks, IsTok t) →
      (∀ t ∈ toks, t = s → (pyUpper (categoryOfToken t) ∈ ctx.never ∨
        (∀ row, lookupByToken st session t = some row → row.expires_at < now))) →
      reconcileGo ctx st now session toks cur cnt miss dec = some out →
      occCount s cur ≤ occCount s out.1 := by
  intro toks
  induction toks with
  | nil =>
    intro cur cnt miss dec out _ _ hok
    rw [reconcileGo] at hok
    injection hok with hok
    rw [← hok]
  | cons t rest ih =>
    intro cur cnt miss dec out htoks hspec hok
    rw [reconcileGo] at hok
    split at hok
    · exact ih _ _ _ _ _ (fun u hu => htoks u (List.mem_cons_of_mem _ hu))
        (fun u hu => hspec u (List.mem_cons_of_mem _ hu)) hok
    · rename_i hnev
      rcases hlk : lookupByToken st session t with _ | row
      · rw [hlk] at hok
        exact ih _ _ _ _ _ (fun u hu => htoks u (List.mem_cons_of_mem _ hu))
          (fun u hu => hspec u (List.mem_cons_of_mem _ hu)) hok
      · rw [hlk] at hok
        simp only at hok
        split at hok
        · exact ih _ _ _ _ _ (fun u hu => htoks u (List.mem_cons_of_mem _ hu))
            (fun u hu => hspec u (List.mem_cons_of_mem _ hu)) hok
        · rename_i hexp
          rcases hdec : decryptValue ctx.key row.value_enc with _ | w
          · rw [hdec] at hok
            exact absurd hok (by simp)
          · rw [hdec] at hok
            simp only at hok
            split at hok
            · exact ih _ _ _ _ _ (fun u hu => htoks u (List.mem_cons_of_mem _ hu))
                (fun u hu => hspec u (List.mem_cons_of_mem _ hu)) hok
            · have hne : s ≠ t := by
                intro rfl_h
                rcases hspec t (List.mem_cons_self _ _) rfl_h.symm with h | h
                · exact hnev h
                · exact hexp (h row hlk)
              have hstep := occCount_pyReplace_ge s t w hs
                (htoks t (List.mem_cons_self _ _)) hne cur
              have hrec := ih _ _ _ _ _ (fun u hu => htoks u (List.mem_cons_of_mem _ hu))
                (fun u hu => hspec u (List.mem_cons_of_mem _ hu)) hok
              omega

/-- Dropping a policy-skipped token from the processed list does not
change the result. -/
theorem go_filter_never (ctx : EngineCtx) (st : LedgerState) (now : Nat) (session : Str)
    {s : Str} (hnev : pyUpper (categoryOfToken s) ∈ ctx.never) :
    ∀ (toks : List Str) cur cnt miss dec,
      reconcileGo ctx st now session (toks.filter (fun t => !(t == s))) cur cnt miss dec
        = reconcileGo ctx st now session toks cur cnt miss dec := by
  intro toks
  induction toks with
  | nil => intro cur cnt miss dec; rfl
  | cons t rest ih =>
    intro cur cnt miss dec
    by_cases hts : t = s
    · subst hts
      have hfil : (t :: rest).filter (fun u => !(u == t)) = rest.filter (fun u => !(u == t)) := by
        rw [List.filter_cons]
        simp
      rw [hfil]
      conv_rhs => rw [reconcileGo]
      rw [if_pos hnev]
      exact ih _ _ _ _
    · have hfil : (t :: rest).filter (fun u => !(u == s))
          = t :: rest.filter (fun u => !(u == s)) := by
        rw [List.filter_cons]
        simp [hts]
      rw [hfil]
      rw [reconcileGo]
      conv_rhs => rw [reconcileGo]
      split
      · exact ih _ _ _ _
      · rcases hlk : lookupByToken st session t with _ | row
        · exact ih _ _ _ _
        · simp only
          split
          · exact ih _ _ _ _
          · rcases hdec : decryptValue ctx.key row.value_enc with _ | w
            · rfl
            · simp only
              split
              · exact ih _ _ _ _
              · exact ih _ _ _ _

/-! ## Claim C5: never-reconcile invariance -/

/-- **C5.** For any session and text, a token occurring in the input
whose upper-cased CATEGORY segment is in `never_reconcile` is skipped
by the reconcile loop: the run is identical to one in which the token
is not processed at all (so it contributes nothing to
`replaced_count`, `missing_tokens` or `decoded_values`), its
occurrences in the text are never substituted, and it is absent from
`missing_tokens`. -/
theorem c5_never_reconcile (ctx : EngineCtx) (st : LedgerState) (now : Nat)
    (session text s : Str) (hs : IsTok s) (hocc : 0 < occCount s text)
    (hnev : pyUpper (categoryOfToken s) ∈ ctx.never) :
    reconcileTokens ctx st now session text
      = reconcileGo ctx st now session
          ((orderedTokens text).filter (fun t => !(t == s))) text 0 [] []
    ∧ ∀ out, reconcileTokens ctx st now session text = some out →
        occCount s text ≤ occCount s out.1 ∧ s ∉ out.2.2.1 := by
  have htext : text ≠ [] := by
    intro h
    rw [h] at hocc
    simp [occCount] at hocc
  have heq : reconcileTokens ctx st now session text
      = reconcileGo ctx st now session (orderedTokens text) text 0 [] [] := by
    unfold reconcileTokens
    rw [if_neg htext]
  constructor
  · rw [heq]
    exact (go_filter_never ctx st now session hnev (orderedTokens text) text 0 [] []).symm
  · intro out hout
    rw [heq] at hout
    constructor
    · exact go_occ_preserved ctx st now session hs (orderedTokens text) text 0 [] [] out
        (fun t ht => orderedTokens_isTok ht)
        (fun t ht hts => Or.inl (by rw [hts]; exact hnev))
        hout
    · intro hmem
      have hgo2 : reconcileGo ctx st now session
          ((orderedTokens text).filter (fun t => !(t == s))) text 0 [] [] = some out := by
        rw [go_filter_never ctx st now session hnev]
        exact hout
      rcases go_miss_src ctx st now session _ _ _ _ _ _ hgo2 s hmem with h | h
      · simp at h
      · have := List.of_mem_filter h
        simp at this

def sW5 : Str := "<TKN_PII_001>".toList

def textW5 : Str := "a ".toList ++ sW5

def ctxW5 : EngineCtx :=
  ⟨fun s => 'H' :: s, List.replicate 32 0, fun s => s.reverse, 7, ["PII".toList]⟩

def stW5 : LedgerState := ⟨[]⟩

def sessW5 : Str := "s1".toList

/-- Witness for `c5_never_reconcile` at a concrete input. -/
theorem c5_witness :
    IsTok sW5 ∧ 0 < occCount sW5 textW5 ∧
    pyUpper (categoryOfToken sW5) ∈ ctxW5.never ∧
    (reconcileTokens ctxW5 stW5 3 sessW5 textW5
        = reconcileGo ctxW5 stW5 3 sessW5
            ((orderedTokens textW5).filter (fun t => !(t == sW5))) textW5 0 [] []
      ∧ ∀ out, reconcileTokens ctxW5 stW5 3 sessW5 textW5 = some out →
          occCount sW5 textW5 ≤ occCount sW5 out.1 ∧ sW5 ∉ out.2.2.1) := by
  have h1 : IsTok sW5 := (isTokB_iff sW5).mp (by decide)
  have h2 : 0 < occCount sW5 textW5 := by decide
  have h3 : pyUpper (categoryOfToken sW5) ∈ ctxW5.never := by decide
  exact ⟨h1, h2, h3, c5_never_reconcile ctxW5 stW5 3 sessW5 textW5 sW5 h1 h2 h3⟩

/-! ## Claim C7: expiry and lookup -/

/-- A token lands in `missing` only from the lookup-absent or
lookup-expired branch of its own step. -/
theorem go_miss_char (ctx : EngineCtx) (st : LedgerState) (now : Nat) (session : Str) :
    ∀ (toks : List Str) cur cnt miss dec out,
      reconcileGo ctx st now session toks cur cnt miss dec = some out →
      ∀ x ∈ out.2.2.1, x ∈ miss ∨ (x ∈ toks ∧
        (lookupByToken st session x = none ∨
          ∃ row, lookupByToken st session x = some row ∧ row.expires_at < now)) := by
  intro toks
  induction toks with
  | nil =>
    intro cur cnt miss dec out hok x hx
    rw [reconcileGo] at hok
    injection hok with hok
    rw [← hok] at hx
    exact Or.inl hx
  | cons t rest ih =>
    intro cur cnt miss dec out hok x hx
    rw [reconcileGo] at hok
    split at hok
    · rcases ih _ _ _ _ _ hok x hx with h | ⟨hm, hc⟩
      · exact Or.inl h
      · exact Or.inr ⟨List.mem_cons_of_mem _ hm, hc⟩
    · rcases hlk : lookupByToken st session t with _ | row
      · rw [hlk] at hok
        rcases ih _ _ _ _ _ hok x hx with h | ⟨hm, hc⟩
        · rcases List.mem_append.mp h with h' | h'
          · exact Or.inl h'
          · have hxt : x = t := by simpa using h'
            subst hxt
            exact Or.inr ⟨List.mem_cons_self _ _, Or.inl hlk⟩
        · exact Or.inr ⟨List.mem_cons_of_mem _ hm, hc⟩
      · rw [hlk] at hok
        simp only at hok
        split at hok
        · rename_i hexp
          rcases ih _ _ _ _ _ hok x hx with h | ⟨hm, hc⟩
          · rcases List.mem_append.mp h with h' | h'
            · exact Or.inl h'
            · have hxt : x = t := by simpa using h'
              subst hxt
              exact Or.inr ⟨List.mem_cons_self _ _, Or.inr ⟨row, hlk, hexp⟩⟩
          · exact Or.inr ⟨List.mem_cons_of_mem _ hm, hc⟩
        · rcases hdec : decryptValue ctx.key row.value_enc with _ | w
          · rw [hdec] at hok
            exact absurd hok (by simp)
          · rw [hdec] at hok
            simp only at hok
            split at hok
            · rcases ih _ _ _ _ _ hok x hx with h | ⟨hm, hc⟩
              · exact Or.inl h
              · exact Or.inr ⟨List.mem_cons_of_mem _ hm, hc⟩
            · rcases ih _ _ _ _ _ hok x hx with h | ⟨hm, hc⟩
              · exact Or.inl h
              · exact Or.inr ⟨List.mem_cons_of_mem _ hm, hc⟩

/-- A processed token outside the never set whose ledger row is absent
or strictly expired is reported in `missing`. -/
theorem go_miss_hit (ctx : EngineCtx) (st : LedgerState) (now : Nat) (session : Str) :
    ∀ (toks : List Str) cur cnt miss dec out,
      reconcileGo ctx st now session toks cur cnt miss dec = some out →
      ∀ t ∈ toks, ¬(pyUpper (categoryOfToken t) ∈ ctx.never) →
        (lookupByToken st session t = none ∨
          ∃ row, lookupByToken st session t = some row ∧ row.expires_at < now) →
        t ∈ out.2.2.1 := by
  intro toks
  induction toks with
  | nil =>
    intro cur cnt miss dec out _ t ht
    simp at ht
  | cons u rest ih =>
    intro cur cnt miss dec out hok t htmem hnev hcond
    rw [reconcileGo] at hok
    split at hok
    · rename_i hnevu
      rcases List.mem_cons.mp htmem with heq | hrest
      · rw [heq] at hnev
        exact absurd hnevu hnev
      · exact ih _ _ _ _ _ hok t hrest hnev hcond
    · rcases hlk : lookupByToken st session u with _ | row
      · rw [hlk] at hok
        rcases List.mem_cons.mp htmem with heq | hrest
        · subst heq
          exact go_miss_mono ctx st now session _ _ _ _ _ _ hok t (by simp)
        · exact ih _ _ _ _ _ hok t hrest hnev hcond
      · rw [hlk] at hok
        simp only at hok
        split at hok
        · rcases List.mem_cons.mp htmem with heq | hrest
          · subst heq
            exact go_miss_mono ctx st now session _ _ _ _ _ _ hok t (by simp)
          · exact ih _ _ _ _ _ hok t hrest hnev hcond
        · rename_i hexp
          rcases List.mem_cons.mp htmem with heq | hrest
          · subst heq
            rcases hcond with hnone | ⟨row', hlk', hexp'⟩
            · rw [hnone] at hlk
              exact absurd hlk (by simp)
            · rw [hlk'] at hlk
              injection hlk with hlk
              rw [hlk] at hexp'
              exact absurd hexp' hexp
          · rcases hdec : decryptValue ctx.key row.value_enc with _ | w
            · rw [hdec] at hok
              exact absurd hok (by simp)
            · rw [hdec] at hok
              simp only at hok
              split at hok
              · exact ih _ _ _ _ _ hok t hrest hnev hcond
              · exact ih _ _ _ _ _ hok t hrest hnev hcond

/-- **C7 (amended).** For a token outside `never_reconcile` occurring
in the text, reconcile reports it missing iff no `(session, token)`
row exists or the row's `expires_at` is strictly before `now` (a row
with `expires_at = now` still restores); in the missing case the
token's occurrences are left verbatim in the output. -/
theorem c7_expiry_lookup (ctx : EngineCtx) (st : LedgerState) (now : Nat)
    (session text t : Str) (out : Str × Nat × List Str × List Str)
    (ht : IsTok t) (hocc : 0 < occCount t text)
    (hnev : ¬(pyUpper (categoryOfToken t) ∈ ctx.never))
    (hout : reconcileTokens ctx st now session text = some out) :
    (t ∈ out.2.2.1 ↔ (lookupByToken st session t = none ∨
        ∃ row, lookupByToken st session t = some row ∧ row.expires_at < now))
    ∧ ((lookupByToken st session t = none ∨
        ∃ row, lookupByToken st session t = some row ∧ row.expires_at < now) →
        occCount t text ≤ occCount t out.1) := by
  have htext : text ≠ [] := by
    intro h
    rw [h] at hocc
    simp [occCount] at hocc
  rw [reconcileTokens, if_neg htext] at hout
  refine ⟨⟨?_, ?_⟩, ?_⟩
  · intro hmem
    rcases go_miss_char ctx st now session _ _ _ _ _ _ hout t hmem with h | ⟨-, h⟩
    · simp at h
    · exact h
  · intro hcond
    exact go_miss_hit ctx st now session _ _ _ _ _ _ hout t
      (orderedTokens_complete ht hocc) hnev hcond
  · intro hcond
    refine go_occ_preserved ctx st now session ht (orderedTokens text) text 0 [] [] out
      (fun u hu => orderedTokens_isTok hu) ?_ hout
    intro u hu hut
    rw [hut]
    refine Or.inr ?_
    intro row hrow
    rcases hcond with hnone | ⟨row', hlk', hexp'⟩
    · rw [hnone] at hrow
      exact absurd hrow (by simp)
    · rw [hlk'] at hrow
      injection hrow with hrow
      rw [← hrow]
      exact hexp'

def tokC7 : Str := "<TKN_X_001>".toList

def valC7 : Str := "z".toList

def sessC7 : Str := "s7".toList

def ctxC7 : EngineCtx :=
  ⟨fun s => 'H' :: s, List.replicate 32 0, fun s => s.reverse, 7, []⟩

def rowC7 : LedgerRow :=
  ⟨sessC7, tokC7, "h".toList, "eg==".toList, "X".toList, 0, 5⟩

def stC7 : LedgerState := ⟨[rowC7]⟩

def textC7 : Str := 'a' :: tokC7

/-- C7 counterexample: at the expiry boundary (`expires_at = now = 5`,
so `expires_at` is *not* strictly later than the current time) the
code still restores the token: output `"az"`, `replaced_count = 1`,
`missing_tokens = []`, the token gone from the output — refuting the
claim that restoration requires `expires_at > now`. -/
theorem c7_counterexample :
    lookupByToken stC7 sessC7 tokC7 = some rowC7 ∧ rowC7.expires_at = 5 ∧
    ¬(5 < rowC7.expires_at) ∧ 0 < occCount tokC7 textC7 ∧
    ¬(pyUpper (categoryOfToken tokC7) ∈ ctxC7.never) ∧
    reconcileTokens ctxC7 stC7 5 sessC7 textC7 = some ('a' :: valC7, 1, [], [valC7]) ∧
    occCount tokC7 ('a' :: valC7) = 0 := by
  refine ⟨by simp [lookupByToken, stC7, rowC7, sessC7, tokC7], rfl, by decide,
    by decide, by simp [ctxC7], ?_, by decide⟩
  have hdec : decryptValue
      [0, 0, 0, 0, 0, 0, 0, 0, 0, 0, 0, 0, 0, 0, 0, 0,
        0, 0, 0, 0, 0, 0, 0, 0, 0, 0, 0, 0, 0, 0, 0, 0]
      ['e', 'g', '=', '='] = some ['z'] := by decide
  simp [reconcileTokens, reconcileGo, orderedTokens, dedupF, tokenScan, tryTok,
    isPre, runShape, tokenChar, digitChar, lookupByToken,
    pyReplace, pyCount, occCount, pyUpper, pyUpperChar, categoryOfToken, pyCasefold,
    pyLowerChar, stC7, rowC7, sessC7, tokC7, valC7, ctxC7, textC7, strLEb, lenDescLE]
  simp [hdec]

/-- Witness for `c7_expiry_lookup`: against an empty ledger the token
is reported missing and left verbatim. -/
theorem c7_witness :
    IsTok tokC7 ∧ 0 < occCount tokC7 textC7 ∧
    ¬(pyUpper (categoryOfToken tokC7) ∈ ctxC7.never) ∧
    reconcileTokens ctxC7 ⟨[]⟩ 5 sessC7 textC7 = some (textC7, 0, [tokC7], []) ∧
    ((tokC7 ∈ ((textC7, 0, [tokC7], ([] : List Str))
          : Str × Nat × List Str × List Str).2.2.1 ↔
        (lookupByToken ⟨[]⟩ sessC7 tokC7 = none ∨
          ∃ row, lookupByToken ⟨[]⟩ sessC7 tokC7 = some row ∧ row.expires_at < 5))
      ∧ ((lookupByToken ⟨[]⟩ sessC7 tokC7 = none ∨
          ∃ row, lookupByToken ⟨[]⟩ sessC7 tokC7 = some row ∧ row.expires_at < 5) →
          occCount tokC7 textC7 ≤ occCount tokC7
            ((textC7, 0, [tokC7], ([] : List Str))
              : Str × Nat × List Str × List Str).1)) := by
  have h1 : IsTok tokC7 := (isTokB_iff tokC7).mp (by decide)
  have h2 : 0 < occCount tokC7 textC7 := by decide
  have h3 : ¬(pyUpper (categoryOfToken tokC7) ∈ ctxC7.never) := by simp [ctxC7]
  have hout : reconcileTokens ctxC7 ⟨[]⟩ 5 sessC7 textC7
      = some (textC7, 0, [tokC7], []) := by
    simp [reconcileTokens, reconcileGo, orderedTokens, dedupF, tokenScan, tryTok,
      isPre, runShape, tokenChar, digitChar, lookupByToken, sessC7, tokC7, textC7,
      strLEb, lenDescLE, ctxC7, categoryOfToken, pyUpper, pyUpperChar]
  exact ⟨h1, h2, h3, hout,
    c7_expiry_lookup ctxC7 ⟨[]⟩ 5 sessC7 textC7 tokC7 _ h1 h2 h3 hout⟩

/-! ## Claim C6: decoded plaintext and cascading -/

/-- **C6 (amended).** Reconcile's substitution operates on the current
text, which includes previously decoded plaintext, so decoded values
are *not* terminal and replacements can cascade into them; what does
hold is provenance: every reported missing token is a genuine token
occurring in the original input, and every decoded value is the
decryption of a live `(session, token)` ledger row of some non-never
token occurring in the original input. -/
theorem c6_decoded_plaintext (ctx : EngineCtx) (st : LedgerState) (now : Nat)
    (session text : Str) (out : Str × Nat × List Str × List Str)
    (hout : reconcileTokens ctx st now session text = some out) :
    (∀ t ∈ out.2.2.1, IsTok t ∧ 0 < occCount t text) ∧
    (∀ v ∈ out.2.2.2, ∃ t, IsTok t ∧ 0 < occCount t text ∧
      ¬(pyUpper (categoryOfToken t) ∈ ctx.never) ∧
      ∃ row, lookupByToken st session t = some row ∧ ¬(row.expires_at < now) ∧
        decryptValue ctx.key row.value_enc = some v) := by
  by_cases htext : text = []
  · rw [reconcileTokens, if_pos htext] at hout
    injection hout with hout
    rw [← hout]
    constructor
    · intro t ht
      simp at ht
    · intro v hv
      simp at hv
  · rw [reconcileTokens, if_neg htext] at hout
    constructor
    · intro t ht
      rcases go_miss_src ctx st now session _ _ _ _ _ _ hout t ht with h | h
      · simp at h
      · exact ⟨orderedTokens_isTok h, orderedTokens_occurs h⟩
    · intro v hv
      rcases go_dec_src ctx st now session _ _ _ _ _ _ hout v hv with h | ⟨t, ht, hrest⟩
      · simp at h
      · exact ⟨t, orderedTokens_isTok ht, orderedTokens_occurs ht, hrest⟩

def sessC6 : Str := "s6".toList

def ctxC6 : EngineCtx :=
  ⟨fun s => 'H' :: s, List.replicate 32 0, fun s => s.reverse, 7, []⟩

def t1C6 : Str := "<TKN_XX_001>".toList

def t2C6 : Str := "<TKN_X_001>".toList

def v1C6 : Str := "p<TKN_X_001>q".toList

def v2C6 : Str := "z".toList

def row1C6 : LedgerRow :=
  ⟨sessC6, t1C6, "h1".toList, "cDxUS05fWF8wMDE-cQ==".toList, "XX".toList, 0, 9⟩

def row2C6 : LedgerRow :=
  ⟨sessC6, t2C6, "h2".toList, "eg==".toList, "X".toList, 0, 9⟩

def stC6 : LedgerState := ⟨[row1C6, row2C6]⟩

def textC6 : Str := t1C6 ++ ' ' :: t2C6

theorem reconC6_eval :
    reconcileTokens ctxC6 stC6 5 sessC6 textC6
      = some ("pzq z".toList, 3, [], [v1C6, v2C6]) := by
  have hdec1 : decryptValue
      [0, 0, 0, 0, 0, 0, 0, 0, 0, 0, 0, 0, 0, 0, 0, 0,
        0, 0, 0, 0, 0, 0, 0, 0, 0, 0, 0, 0, 0, 0, 0, 0]
      ['c', 'D', 'x', 'U', 'S', '0', '5', 'f', 'W', 'F', '8', 'w', 'M', 'D', 'E',
        '-', 'c', 'Q', '=', '='] = some v1C6 := by decide
  have hdec2 : decryptValue
      [0, 0, 0, 0, 0, 0, 0, 0, 0, 0, 0, 0, 0, 0, 0, 0,
        0, 0, 0, 0, 0, 0, 0, 0, 0, 0, 0, 0, 0, 0, 0, 0]
      ['e', 'g', '=', '='] = some v2C6 := by decide
  have hord : orderedTokens textC6 = [t1C6, t2C6] := by
    simp [orderedTokens, dedupF, tokenScan, tryTok, isPre, runShape, tokenChar,
      digitChar, textC6, t1C6, t2C6, strLEb, lenDescLE, List.mergeSort]
  rw [reconcileTokens, if_neg (by simp [textC6, t1C6]), hord]
  simp [reconcileGo, lookupByToken, pyUpper, pyUpperChar, categoryOfToken, tryTok,
    isPre, runShape, tokenChar, digitChar, stC6, row1C6, row2C6, sessC6, t1C6,
    t2C6, ctxC6, textC6, hdec1, hdec2]
  simp [pyReplace, pyCount, occCount, isPre, pyCasefold, pyLowerChar, v1C6, v2C6,
    t1C6, t2C6]

/-- C6 counterexample: the value decoded for `<TKN_XX_001>` contains
the token `<TKN_X_001>`, and that embedded occurrence *is* further
replaced and *does* count: the input has 2 token occurrences but
`replaced_count = 3`, and the output `"pzq z"` no longer contains the
embedded token that the decoded plaintext carried. -/
theorem c6_counterexample :
    reconcileTokens ctxC6 stC6 5 sessC6 textC6
      = some ("pzq z".toList, 3, [], [v1C6, v2C6]) ∧
    (tokenScan textC6).length = 2 ∧ (2 : Nat) < 3 ∧
    0 < occCount t2C6 v1C6 ∧ occCount t2C6 ("pzq z".toList) = 0 := by
  refine ⟨reconC6_eval, ?_, by omega, by decide, by decide⟩
  simp [tokenScan, tryTok, isPre, runShape, tokenChar, digitChar, textC6,
    t1C6, t2C6]

/-- Witness for `c6_decoded_plaintext` at the cascade input. -/
theorem c6_witness :
    reconcileTokens ctxC6 stC6 5 sessC6 textC6
      = some ("pzq z".toList, 3, [], [v1C6, v2C6]) ∧
    ((∀ t ∈ (("pzq z".toList, 3, [], [v1C6, v2C6])
          : Str × Nat × List Str × List Str).2.2.1,
        IsTok t ∧ 0 < occCount t textC6) ∧
      (∀ v ∈ (("pzq z".toList, 3, [], [v1C6, v2C6])
          : Str × Nat × List Str × List Str).2.2.2,
        ∃ t, IsTok t ∧ 0 < occCount t textC6 ∧
          ¬(pyUpper (categoryOfToken t) ∈ ctxC6.never) ∧
          ∃ row, lookupByToken stC6 sessC6 t = some row ∧ ¬(row.expires_at < 5) ∧
            decryptValue ctxC6.key row.value_enc = some v)) := by
  exact ⟨reconC6_eval, c6_decoded_plaintext ctxC6 stC6 5 sessC6 textC6 _ reconC6_eval⟩

/-! ## Claim C1: sanitize/reconcile round trip -/

def ruleC1 : RuleDef := ⟨"r1".toList, "X".toList, "replace".toList, 0, []⟩

def candC1 : Candidate := ⟨3, 6, "bob".toList, ruleC1⟩

def textC1 : Str := "hi bob".toList

/-- C1 counterexample: a rule whose action is `replace` satisfies the
claim's premise (its category `X` is outside the empty
`never_reconcile` set), yet the replacement `[X]` is not a ledger
token, so reconcile returns the sanitized text unchanged and the
round trip fails. -/
theorem c1_counterexample :
    (∃ res, sanitize ctxW ⟨[]⟩ 0 sessW textC1 [candC1] = .ok (res, ⟨[]⟩) ∧
      res.sanitized_text = "hi [X]".toList) ∧
    pyUpper (normCategory candC1.rule.category) ∉ ctxW.never ∧
    reconcileTokens ctxW ⟨[]⟩ 0 sessW ("hi [X]".toList)
      = some ("hi [X]".toList, 0, [], []) ∧
    ("hi [X]".toList : Str) ≠ textC1 := by
  refine ⟨⟨⟨textC1, "hi [X]".toList, ["r1".toList], 1, 0, [], 'H' :: textC1⟩, ?_, rfl⟩,
    by simp [ctxW], ?_, by decide⟩
  · simp [sanitize, resolveOverlaps, resolveAux, overlapsB, sanLoop, applyAction,
      pyLower, pyLowerChar, pyStrip, pySpace, sortedDedup, dedupF, strLEb,
      ctxW, sessW, candC1, ruleC1, textC1]
  · simp [reconcileTokens, orderedTokens, dedupF, tokenScan, tryTok, isPre,
      runShape, tokenChar, digitChar, reconcileGo]

/-! ### Slices of the original text -/

/-- `text[a:b]` (Python slice semantics for `0 ≤ a ≤ b`). -/
def slice (text : Str) (a b : Nat) : Str :=
  (text.drop a).take (b - a)

theorem slice_append {a b c : Nat} (hab : a ≤ b) (hbc : b ≤ c) (text : Str) :
    slice text a b ++ slice text b c = slice text a c := by
  unfold slice
  have hd : (text.drop a).drop (b - a) = text.drop b := by
    rw [List.drop_drop]
    congr 1
    omega
  have := List.take_add (text.drop a) (b - a) (c - b)
  rw [hd] at this
  rw [← this]
  congr 1
  omega

theorem slice_same (text : Str) (a : Nat) : slice text a a = [] := by
  simp [slice]

theorem slice_to_end {a : Nat} (text : Str) (h : text.length ≤ text.length) :
    slice text a text.length = text.drop a := by
  unfold slice
  apply List.take_of_length_le
  simp

theorem slice_zero_len (text : Str) : slice text 0 text.length = text := by
  rw [slice_to_end text (le_refl _)]
  simp

/-- A token-free text has token-free slices (any infix is token-free). -/
theorem NoTokIn_infix {s m p q : Str} (hs : NoTokIn s) (heq : s = p ++ m ++ q) :
    NoTokIn m := by
  intro t a b ht hm
  exact hs t (p ++ a) (b ++ q) ht (by rw [heq, hm]; simp)

theorem NoTokIn_slice {text : Str} (h : NoTokIn text) (a b : Nat) :
    NoTokIn (slice text a b) := by
  refine NoTokIn_infix h (p := text.take a) (q := (text.drop a).drop (b - a)) ?_
  unfold slice
  rw [List.append_assoc, List.take_append_drop, List.take_append_drop]

/-- Monotone, in-bounds, pairwise-disjoint span chain starting at
cursor `c` (the shape the overlap resolver guarantees). -/
def chain (text : Str) : Nat → List (Nat × Nat × Str) → Prop
  | c, [] => c ≤ text.length
  | c, q :: rest => c ≤ q.1 ∧ q.1 ≤ q.2.1 ∧ chain text q.2.1 rest

theorem chain_le (text : Str) :
    ∀ L c, chain text c L → c ≤ text.length := by
  intro L
  induction L with
  | nil => intro c h; exact h
  | cons q rest ih =>
    intro c h
    have h1 := h.1
    have h2 := h.2.1
    have := ih q.2.1 h.2.2
    omega

/-- The partially-restored rendering: spans whose token is in `S` show
the original slice, the others still show their token. -/
def mixRender (text : Str) (S : List Str) : List (Nat × Nat × Str) → Nat → Str
  | [], c => text.drop c
  | q :: rest, c =>
    slice text c q.1 ++ (if q.2.2 ∈ S then slice text q.1 q.2.1 else q.2.2) ++
      mixRender text S rest q.2.1

theorem mixRender_congr (text : Str) {S1 S2 : List Str}
    (h : ∀ x, x ∈ S1 ↔ x ∈ S2) :
    ∀ L c, mixRender text S1 L c = mixRender text S2 L c := by
  intro L
  induction L with
  | nil => intro c; rfl
  | cons q rest ih =>
    intro c
    unfold mixRender
    rw [ih]
    congr 2
    by_cases hq : q.2.2 ∈ S1
    · rw [if_pos hq, if_pos ((h _).mp hq)]
    · rw [if_neg hq, if_neg (fun hc => hq ((h _).mpr hc))]

/-- When every span's token is restored the render is the original
text from the cursor on. -/
theorem mixRender_full (text : Str) (S : List Str) :
    ∀ L c, chain text c L → (∀ q ∈ L, q.2.2 ∈ S) →
      mixRender text S L c = text.drop c := by
  intro L
  induction L with
  | nil => intro c _ _; rfl
  | cons q rest ih =>
    intro c hch hall
    unfold mixRender
    rw [if_pos (hall q (List.mem_cons_self _ _)),
      ih q.2.1 hch.2.2 (fun p hp => hall p (List.mem_cons_of_mem _ hp))]
    have he : q.2.1 ≤ text.length := chain_le text rest q.2.1 hch.2.2
    have h1 : text.drop q.2.1 = slice text q.2.1 text.length := by
      rw [slice_to_end text (le_refl _)]
    have h2 : text.drop c = slice text c text.length := by
      rw [slice_to_end text (le_refl _)]
    rw [h1, h2, slice_append hch.1 hch.2.1, slice_append (le_trans hch.1 hch.2.1) he]

/-- Adding to `S` a token that no span carries does not change the
render. -/
theorem mixRender_skip (text : Str) (S : List Str) (t : Str) :
    ∀ L c, (∀ q ∈ L, q.2.2 ≠ t) →
      mixRender text (t :: S) L c = mixRender text S L c := by
  intro L
  induction L with
  | nil => intro c _; rfl
  | cons q rest ih =>
    intro c hno
    unfold mixRender
    rw [ih _ (fun p hp => hno p (List.mem_cons_of_mem _ hp))]
    congr 2
    have hq : q.2.2 ≠ t := hno q (List.mem_cons_self _ _)
    by_cases hmem : q.2.2 ∈ S
    · rw [if_pos hmem, if_pos (List.mem_cons_of_mem _ hmem)]
    · rw [if_neg hmem, if_neg ?_]
      intro hc
      rcases List.mem_cons.mp hc with h | h
      · exact hq h
      · exact hmem h

/-! ### Segment decomposition of a partially-restored render -/

/-- Decompose `acc ++ mixRender text S L c` into a well-formed
raw/token segment alternation, merging restored spans into their
neighbouring gaps. -/
def toSegs (text : Str) (S : List Str) : List (Nat × Nat × Str) → Str → Nat → List Seg
  | [], acc, c => [Seg.raw (acc ++ text.drop c)]
  | q :: rest, acc, c =>
    if q.2.2 ∈ S then
      toSegs text S rest (acc ++ slice text c q.1 ++ slice text q.1 q.2.1) q.2.1
    else
      Seg.raw (acc ++ slice text c q.1) :: Seg.tk q.2.2 :: toSegs text S rest [] q.2.1

theorem toSegs_render (text : Str) (S : List Str) :
    ∀ L acc c, segRender (toSegs text S L acc c) = acc ++ mixRender text S L c := by
  intro L
  induction L with
  | nil =>
    intro acc c
    simp [toSegs, segRender, mixRender]
  | cons q rest ih =>
    intro acc c
    unfold toSegs
    by_cases hq : q.2.2 ∈ S
    · rw [if_pos hq, ih]
      simp only [mixRender]
      rw [if_pos hq]
      simp [List.append_assoc]
    · rw [if_neg hq]
      show (acc ++ slice text c q.1) ++ (q.2.2 ++ segRender (toSegs text S rest [] q.2.1))
        = acc ++ mixRender text S (q :: rest) c
      rw [ih]
      simp only [mixRender]
      rw [if_neg hq]
      simp [List.append_assoc]

theorem toSegs_ok (text : Str) (S : List Str) (hno : NoTokIn text) :
    ∀ L acc c, chain text c L → (∀ q ∈ L, IsTok q.2.2) →
      (∃ a, a ≤ c ∧ acc = slice text a c) →
      SegsOK (toSegs text S L acc c) := by
  intro L
  induction L with
  | nil =>
    intro acc c hch _ ⟨a, ha, hacc⟩
    unfold toSegs
    have hdrop : text.drop c = slice text c text.length := (slice_to_end text (le_refl _)).symm
    have : acc ++ text.drop c = slice text a text.length := by
      rw [hacc, hdrop, slice_append ha hch]
    rw [this]
    exact SegsOK.last (NoTokIn_slice hno a text.length)
  | cons q rest ih =>
    intro acc c hch htoks ⟨a, ha, hacc⟩
    unfold toSegs
    by_cases hq : q.2.2 ∈ S
    · rw [if_pos hq]
      refine ih _ _ hch.2.2 (fun p hp => htoks p (List.mem_cons_of_mem _ hp)) ?_
      refine ⟨a, le_trans ha (le_trans hch.1 hch.2.1), ?_⟩
      rw [hacc, slice_append ha hch.1, slice_append (le_trans ha hch.1) hch.2.1]
    · rw [if_neg hq]
      have hraw : acc ++ slice text c q.1 = slice text a q.1 := by
        rw [hacc, slice_append ha hch.1]
      rw [hraw]
      refine SegsOK.rawtk (NoTokIn_slice hno a q.1)
        (htoks q (List.mem_cons_self _ _)) ?_
      refine SegsOK.tk (htoks q (List.mem_cons_self _ _)) ?_
      exact ih _ _ hch.2.2 (fun p hp => htoks p (List.mem_cons_of_mem _ hp))
        ⟨q.2.1, le_refl _, (slice_same text q.2.1).symm⟩

theorem toSegs_segToks (text : Str) (S : List Str) :
    ∀ L acc c, segToks (toSegs text S L acc c)
      = (L.filter (fun q => !(decide (q.2.2 ∈ S)))).map (fun q => q.2.2) := by
  intro L
  induction L with
  | nil =>
    intro acc c
    simp [toSegs, segToks]
  | cons q rest ih =>
    intro acc c
    unfold toSegs
    by_cases hq : q.2.2 ∈ S
    · rw [if_pos hq, ih, List.filter_cons]
      simp [hq]
    · rw [if_neg hq]
      show q.2.2 :: segToks (toSegs text S rest [] q.2.1) = _
      rw [ih, List.filter_cons]
      simp [hq]

theorem toSegs_subst (text : Str) (S : List Str) (t v : Str) :
    ∀ L acc c, (∀ q ∈ L, q.2.2 = t → slice text q.1 q.2.1 = v) →
      segRender (segSubst t v (toSegs text S L acc c))
        = segRender (toSegs text (t :: S) L acc c) := by
  intro L
  induction L with
  | nil =>
    intro acc c _
    simp [toSegs, segSubst, segRender]
  | cons q rest ih =>
    intro acc c hval
    unfold toSegs
    by_cases hq : q.2.2 ∈ S
    · rw [if_pos hq, if_pos (List.mem_cons_of_mem _ hq)]
      exact ih _ _ (fun p hp => hval p (List.mem_cons_of_mem _ hp))
    · rw [if_neg hq]
      by_cases hqt : q.2.2 = t
      · rw [if_pos (by rw [hqt]; exact List.mem_cons_self _ _)]
        show segRender (Seg.raw (acc ++ slice text c q.1)
            :: (if q.2.2 = t then Seg.raw v else Seg.tk q.2.2)
            :: segSubst t v (toSegs text S rest [] q.2.1)) = _
        rw [if_pos hqt, toSegs_render]
        show (acc ++ slice text c q.1)
            ++ (v ++ segRender (segSubst t v (toSegs text S rest [] q.2.1))) = _
        rw [ih _ _ (fun p hp => hval p (List.mem_cons_of_mem _ hp)), toSegs_render]
        have hv : slice text q.1 q.2.1 = v := hval q (List.mem_cons_self _ _) hqt
        rw [← hv]
        simp [List.append_assoc]
      · rw [if_neg (by intro hc; rcases List.mem_cons.mp hc with h | h
                       · exact hqt h
                       · exact hq h)]
        show segRender (Seg.raw (acc ++ slice text c q.1)
            :: (if q.2.2 = t then Seg.raw v else Seg.tk q.2.2)
            :: segSubst t v (toSegs text S rest [] q.2.1)) = _
        rw [if_neg hqt]
        show (acc ++ slice text c q.1)
            ++ (q.2.2 ++ segRender (segSubst t v (toSegs text S rest [] q.2.1))) = _
        rw [ih _ _ (fun p hp => hval p (List.mem_cons_of_mem _ hp))]
        rfl

/-- `str.replace` of one pending token over a partially restored
render flips exactly that token's spans to their original slices. -/
theorem mixRender_replace (text : Str) (S : List Str) {t : Str} (ht : IsTok t)
    (v : Str) (hno : NoTokIn text) (L : List (Nat × Nat × Str)) (c : Nat)
    (hch : chain text c L) (htoks : ∀ q ∈ L, IsTok q.2.2)
    (hval : ∀ q ∈ L, q.2.2 = t → slice text q.1 q.2.1 = v) :
    pyReplace t v (mixRender text S L c) = mixRender text (t :: S) L c := by
  have h1 := toSegs_render text S L [] c
  rw [List.nil_append] at h1
  have h2 := toSegs_render text (t :: S) L [] c
  rw [List.nil_append] at h2
  rw [← h1, pyReplace_segRender (toSegs_ok text S hno L [] c hch htoks
      ⟨c, le_refl _, (slice_same text c).symm⟩) ht v,
    toSegs_subst text S t v L [] c hval, h2]

/-- The pending-token count of a partially restored render. -/
theorem mixRender_pyCount (text : Str) (S : List Str) {t : Str} (ht : IsTok t)
    (hno : NoTokIn text) (L : List (Nat × Nat × Str)) (c : Nat)
    (hch : chain text c L) (htoks : ∀ q ∈ L, IsTok q.2.2) :
    pyCount t (mixRender text S L c)
      = ((L.filter (fun q => !(decide (q.2.2 ∈ S)))).map (fun q => q.2.2)).count t := by
  have h1 := toSegs_render text S L [] c
  rw [List.nil_append] at h1
  rw [← h1, pyCount_segRender (toSegs_ok text S hno L [] c hch htoks
      ⟨c, le_refl _, (slice_same text c).symm⟩) ht, toSegs_segToks]

/-- The scanner of the fully tokenized render returns the span tokens
in order. -/
theorem mixRender_tokenScan (text : Str) (hno : NoTokIn text)
    (L : List (Nat × Nat × Str)) (c : Nat)
    (hch : chain text c L) (htoks : ∀ q ∈ L, IsTok q.2.2) :
    tokenScan (mixRender text [] L c) = L.map (fun q => q.2.2) := by
  have h1 := toSegs_render text [] L [] c
  rw [List.nil_append] at h1
  rw [← h1, tokenScan_segRender (toSegs_ok text [] hno L [] c hch htoks
      ⟨c, le_refl _, (slice_same text c).symm⟩), toSegs_segToks]
  simp

/-- The reconcile loop over a partially restored render: every
processed token's spans flip to their original slices, nothing is
reported missing, and the render stays in the span model. -/
theorem go_restore (ctx : EngineCtx) (st : LedgerState) (now : Nat) (session text : Str)
    (hno : NoTokIn text) :
    ∀ (toks S : List Str) (L : List (Nat × Nat × Str)) (c cnt : Nat)
      (miss dec : List Str),
      chain text c L →
      (∀ q ∈ L, IsTok q.2.2) →
      (∀ q ∈ L, q.2.2 ∉ S → q.2.2 ∈ toks) →
      (∀ t ∈ toks, IsTok t ∧ pyUpper (categoryOfToken t) ∉ ctx.never ∧
        ∃ row, lookupByToken st session t = some row ∧ ¬(row.expires_at < now) ∧
          ∃ v, decryptValue ctx.key row.value_enc = some v ∧
            ∀ q ∈ L, q.2.2 = t → slice text q.1 q.2.1 = v) →
      toks.Nodup →
      (∀ t ∈ toks, t ∉ S) →
      ∃ S' cnt' dec',
        (∀ x, x ∈ S' ↔ x ∈ toks ∨ x ∈ S) ∧
        reconcileGo ctx st now session toks (mixRender text S L c) cnt miss dec
          = some (mixRender text S' L c, cnt', miss, dec') := by
  intro toks
  induction toks with
  | nil =>
    intro S L c cnt miss dec _ _ _ _ _ _
    refine ⟨S, cnt, dec, by simp, ?_⟩
    rw [reconcileGo]
  | cons t rest ih =>
    intro S L c cnt miss dec hch htoks hpend hprops hnd hdisj
    obtain ⟨ht, hnev, row, hlk, hexp, v, hdec, hval⟩ := hprops t (List.mem_cons_self _ _)
    have hcnt := mixRender_pyCount text S ht hno L c hch htoks
    rw [reconcileGo, if_neg hnev, hlk]
    simp only
    rw [if_neg hexp, hdec]
    simp only
    by_cases hc0 : pyCount t (mixRender text S L c) = 0
    · rw [if_pos hc0]
      have hnot : ∀ q ∈ L, q.2.2 ≠ t := by
        intro q hq hqt
        have hqp : q.2.2 ∉ S := by
          rw [hqt]
          exact hdisj t (List.mem_cons_self _ _)
        have hmem : t ∈ (L.filter (fun p => !(decide (p.2.2 ∈ S)))).map
            (fun p => p.2.2) := by
          refine List.mem_map.mpr ⟨q, List.mem_filter.mpr ⟨hq, by simpa using hqp⟩, hqt⟩
        rw [hcnt] at hc0
        rw [← List.count_pos_iff] at hmem
        omega
      obtain ⟨S'', cnt', dec', hmem'', hrun⟩ := ih S L c cnt miss dec hch htoks
        (fun q hq hqs => by
          rcases List.mem_cons.mp (hpend q hq hqs) with h | h
          · exact absurd h (hnot q hq)
          · exact h)
        (fun u hu => hprops u (List.mem_cons_of_mem _ hu))
        (List.nodup_cons.mp hnd).2
        (fun u hu => hdisj u (List.mem_cons_of_mem _ hu))
      refine ⟨t :: S'', cnt', dec', ?_, ?_⟩
      · intro x
        simp only [List.mem_cons]
        rw [hmem'' x]
        tauto
      · rw [hrun, mixRender_skip text S'' t L c (fun q hq => hnot q hq)]
    · rw [if_neg hc0]
      have hrepl := mixRender_replace text S ht v hno L c hch htoks hval
      rw [hrepl]
      have hnd' := List.nodup_cons.mp hnd
      obtain ⟨S'', cnt', dec', hmem'', hrun⟩ := ih (t :: S) L c
        (cnt + pyCount t (mixRender text S L c)) miss
        (if (dec.map pyCasefold).contains (pyCasefold v) then dec else dec ++ [v])
        hch htoks
        (fun q hq hqs => by
          have hq1 : q.2.2 ∉ S := fun h => hqs (List.mem_cons_of_mem _ h)
          have hq2 : q.2.2 ≠ t := fun h => hqs (by rw [h]; exact List.mem_cons_self _ _)
          rcases List.mem_cons.mp (hpend q hq hq1) with h | h
          · exact absurd h hq2
          · exact h)
        (fun u hu => hprops u (List.mem_cons_of_mem _ hu))
        hnd'.2
        (fun u hu hc => by
          rcases List.mem_cons.mp hc with h | h
          · exact hnd'.1 (h ▸ hu)
          · exact hdisj u (List.mem_cons_of_mem _ hu) h)
      refine ⟨S'', cnt', dec', ?_, hrun⟩
      intro x
      rw [hmem'' x]
      simp only [List.mem_cons]
      tauto

/-! ### The ledger produced by a tokenize-only sanitize run -/

theorem digCh_digit {k : Nat} : digitChar (digCh k) = true := by
  by_cases hk : k < 10
  · interval_cases k <;> decide
  · have : digCh k = '0' := by
      unfold digCh
      apply List.getD_eq_default
      simp
      omega
    rw [this]
    decide

theorem categoryOfToken_mkTokenStr {cat : Str} (hall : cat.all tokenChar = true)
    (hne : cat ≠ []) {n : Nat} (hn : n < 1000) :
    categoryOfToken (mkTokenStr cat n) = cat := by
  rw [mkTokenStr_eq_tokStr hn]
  exact categoryOfToken_tokStr hne hall digCh_digit digCh_digit digCh_digit

/-- The ledger row of one `(category, token, value)` entry created by
`_get_or_create_token` at time `now`. -/
def rowOf (ctx : EngineCtx) (now : Nat) (session : Str) (e : Str × Str × Str) : LedgerRow :=
  ⟨session, e.2.1, ctx.hashText (e.1 ++ '|' :: pyStrip (pyCasefold e.2.2)),
    encryptValue ctx.key e.2.2, e.1, now, now + ctx.ttl⟩

/-- Invariant of the entry list backing the ledger during a
tokenize-only sanitize run: categories are normalized non-empty
token-character strings outside the never set, values decrypt back,
tokens are pairwise distinct, and each category's tokens are exactly
`<TKN_cat_001>`, `<TKN_cat_002>`, … in insertion order. -/
def WFMade (ctx : EngineCtx) (made : List (Str × Str × Str)) : Prop :=
  (∀ e ∈ made, e.1.all tokenChar = true ∧ e.1 ≠ [] ∧
    pyUpper e.1 ∉ ctx.never ∧
    decryptValue ctx.key (encryptValue ctx.key e.2.2) = some e.2.2 ∧
    ∃ n, n < 1000 ∧ e.2.1 = mkTokenStr e.1 n) ∧
  (made.map (fun e => e.2.1)).Nodup ∧
  (∀ cat : Str, (made.filter (fun e => e.1 == cat)).map (fun e => e.2.1)
    = (List.range ((made.filter (fun e => e.1 == cat)).length)).map
        (fun i => mkTokenStr cat (i + 1)))

theorem countByCat_made (ctx : EngineCtx) (now : Nat) (session : Str)
    (made : List (Str × Str × Str)) (cat : Str) :
    countByCat ⟨made.map (rowOf ctx now session)⟩ session cat
      = (made.filter (fun e => e.1 == cat)).length := by
  unfold countByCat
  show ((made.map (rowOf ctx now session)).filter _).length = _
  rw [List.filter_map]
  simp only [List.length_map]
  congr 1
  apply List.filter_congr
  intro e _
  simp [rowOf, Function.comp]

/-- A member of the entry list is at a canonical index for its
category. -/
theorem made_canon_index {ctx : EngineCtx} {made : List (Str × Str × Str)}
    (hwf : WFMade ctx made) {e : Str × Str × Str} (he : e ∈ made) :
    ∃ i, i < (made.filter (fun p => p.1 == e.1)).length
      ∧ e.2.1 = mkTokenStr e.1 (i + 1) := by
  have hef : e ∈ made.filter (fun p => p.1 == e.1) :=
    List.mem_filter.mpr ⟨he, by simp⟩
  have htk : e.2.1 ∈ (made.filter (fun p => p.1 == e.1)).map (fun p => p.2.1) :=
    List.mem_map.mpr ⟨e, hef, rfl⟩
  rw [hwf.2.2 e.1] at htk
  obtain ⟨i, hi, hieq⟩ := List.mem_map.mp htk
  exact ⟨i, List.mem_range.mp hi, hieq.symm⟩

/-- The token freshly minted for a category is not yet in the ledger. -/
theorem fresh_token_new {ctx : EngineCtx} {made : List (Str × Str × Str)}
    (hwf : WFMade ctx made) (hlen : made.length ≤ 998)
    {cat : Str} (hall : cat.all tokenChar = true) (hne : cat ≠ []) :
    ∀ e ∈ made, e.2.1 ≠ mkTokenStr cat ((made.filter (fun p => p.1 == cat)).length + 1) := by
  intro e he heq
  obtain ⟨-, -, -, -, n, hn, hetok⟩ := hwf.1 e he
  obtain ⟨-, hene, -, -, -⟩ := hwf.1 e he
  obtain ⟨heall, -, -, -, -⟩ := hwf.1 e he
  have hfl : (made.filter (fun p => p.1 == cat)).length ≤ made.length :=
    List.length_filter_le _ _
  have hbound : (made.filter (fun p => p.1 == cat)).length + 1 < 1000 := by omega
  rw [hetok] at heq
  obtain ⟨hcat, hidx⟩ := mkTokenStr_inj heall hene hn hall hne hbound heq
  subst hcat
  obtain ⟨i, hilt, hiq⟩ := made_canon_index hwf he
  rw [hetok] at hiq
  have := mkTokenStr_inj heall hene hn heall hene
    (by have := List.length_filter_le (fun p => p.1 == e.1) made; omega) hiq
  omega

/-- Inserting the fresh row succeeds and extends the entry list. -/
theorem insert_fresh (ctx : EngineCtx) (now : Nat) (session : Str)
    {made : List (Str × Str × Str)} (hwf : WFMade ctx made) (hlen : made.length ≤ 998)
    (hinj : Function.Injective ctx.hashText)
    {cat val : Str} (hall : cat.all tokenChar = true) (hne : cat ≠ [])
    (hmiss : ∀ e ∈ made, ¬(e.1 = cat ∧
      pyStrip (pyCasefold e.2.2) = pyStrip (pyCasefold val))) :
    insertRow ⟨made.map (rowOf ctx now session)⟩
        (rowOf ctx now session
          (cat, mkTokenStr cat ((made.filter (fun p => p.1 == cat)).length + 1), val))
      = some ⟨(made ++ [(cat,
          mkTokenStr cat ((made.filter (fun p => p.1 == cat)).length + 1), val)]).map
            (rowOf ctx now session)⟩ := by
  unfold insertRow
  split
  · rename_i hcond
    exfalso
    rw [Bool.or_eq_true] at hcond
    rcases hcond with h | h
    · rw [List.any_eq_true] at h
      obtain ⟨r, hr, hp⟩ := h
      obtain ⟨e, he, rfl⟩ := List.mem_map.mp hr
      simp only [rowOf, Bool.and_eq_true, beq_iff_eq] at hp
      exact fresh_token_new hwf hlen hall hne e he hp.2
    · rw [List.any_eq_true] at h
      obtain ⟨r, hr, hp⟩ := h
      obtain ⟨e, he, rfl⟩ := List.mem_map.mp hr
      simp only [rowOf, Bool.and_eq_true, beq_iff_eq] at hp
      obtain ⟨⟨-, hhash⟩, hcat⟩ := hp
      have hkey := hinj hhash
      have hkey2 : pyStrip (pyCasefold e.2.2) = pyStrip (pyCasefold val) := by
        rw [hcat] at hkey
        have := List.append_cancel_left hkey
        injection this
      exact hmiss e he ⟨hcat, hkey2⟩
  · simp [List.map_append]

/-- `WFMade` is preserved by a fresh insertion. -/
theorem wfmade_extend (ctx : EngineCtx) {made : List (Str × Str × Str)}
    (hwf : WFMade ctx made) (hlen : made.length ≤ 998)
    {cat val : Str} (hall : cat.all tokenChar = true) (hne : cat ≠ [])
    (hnev : pyUpper cat ∉ ctx.never)
    (hdec : decryptValue ctx.key (encryptValue ctx.key val) = some val) :
    WFMade ctx (made ++ [(cat,
      mkTokenStr cat ((made.filter (fun p => p.1 == cat)).length + 1), val)]) := by
  have hfl : (made.filter (fun p => p.1 == cat)).length ≤ made.length :=
    List.length_filter_le _ _
  refine ⟨?_, ?_, ?_⟩
  · intro e he
    rcases List.mem_append.mp he with h | h
    · exact hwf.1 e h
    · have : e = (cat, mkTokenStr cat ((made.filter (fun p => p.1 == cat)).length + 1),
          val) := by simpa using h
      subst this
      exact ⟨hall, hne, hnev, hdec, _, by omega, rfl⟩
  · rw [List.map_append, List.nodup_append]
    refine ⟨hwf.2.1, by simp, ?_⟩
    intro x hx hy
    obtain ⟨e, he, rfl⟩ := List.mem_map.mp hx
    have hx2 : e.2.1 = mkTokenStr cat ((made.filter (fun p => p.1 == cat)).length + 1) := by
      simpa using hy
    exact fresh_token_new hwf hlen hall hne e he hx2
  · intro cat'
    rw [List.filter_append]
    by_cases hcc : cat = cat'
    · subst hcc
      have hnew : (([(cat, mkTokenStr cat
            ((made.filter (fun p => p.1 == cat)).length + 1), val)] :
              List (Str × Str × Str)).filter (fun p => p.1 == cat))
          = [(cat, mkTokenStr cat ((made.filter (fun p => p.1 == cat)).length + 1), val)] := by
        simp [List.filter_cons]
      rw [hnew, List.map_append, hwf.2.2 cat, List.length_append]
      simp only [List.length_cons, List.length_nil]
      rw [List.range_succ, List.map_append]
      rfl
    · have hnew : (([(cat, mkTokenStr cat
            ((made.filter (fun p => p.1 == cat)).length + 1), val)] :
              List (Str × Str × Str)).filter (fun p => p.1 == cat')) = [] := by
        simp [List.filter_cons, hcc]
      rw [hnew, List.append_nil]
      exact hwf.2.2 cat'

theorem lookup_made_some (ctx : EngineCtx) (now : Nat) (session : Str)
    {made : List (Str × Str × Str)} (hinj : Function.Injective ctx.hashText)
    {category value : Str} {r : LedgerRow}
    (h : lookupByValue ⟨made.map (rowOf ctx now session)⟩ session
      (ctx.hashText (valueKey category value)) (normCategory category) = some r) :
    ∃ e ∈ made, r = rowOf ctx now session e ∧ e.1 = normCategory category ∧
      pyStrip (pyCasefold e.2.2) = pyStrip (pyCasefold value) := by
  unfold lookupByValue at h
  show ∃ e ∈ made, _
  rw [show (⟨made.map (rowOf ctx now session)⟩ : LedgerState).rows
      = made.map (rowOf ctx now session) from rfl, List.find?_map] at h
  rcases hf : made.find? _ with _ | e
  · rw [hf] at h
    simp at h
  · rw [hf] at h
    have hre : r = rowOf ctx now session e := by
      have := h.symm
      simpa using this
    have he := List.mem_of_find?_eq_some hf
    have hp := List.find?_some hf
    simp only [Function.comp, rowOf, Bool.and_eq_true, beq_iff_eq] at hp
    obtain ⟨⟨-, hhash⟩, hcat⟩ := hp
    have hkey := hinj hhash
    unfold valueKey at hkey
    rw [hcat] at hkey
    have hc := List.append_cancel_left hkey
    injection hc with _ htail
    exact ⟨e, he, hre, hcat, htail⟩

theorem lookup_made_none (ctx : EngineCtx) (now : Nat) (session : Str)
    {made : List (Str × Str × Str)} {category value : Str}
    (h : lookupByValue ⟨made.map (rowOf ctx now session)⟩ session
      (ctx.hashText (valueKey category value)) (normCategory category) = none) :
    ∀ e ∈ made, ¬(e.1 = normCategory category ∧
      pyStrip (pyCasefold e.2.2) = pyStrip (pyCasefold value)) := by
  unfold lookupByValue at h
  rintro e he ⟨hcat, hkey⟩
  have hmem : rowOf ctx now session e ∈ made.map (rowOf ctx now session) :=
    List.mem_map.mpr ⟨e, he, rfl⟩
  have hno := List.find?_eq_none.mp h (rowOf ctx now session e) hmem
  apply hno
  show ((rowOf ctx now session e).session_id == session
      && (rowOf ctx now session e).value_hash
          == ctx.hashText (valueKey category value)
      && (rowOf ctx now session e).category == normCategory category) = true
  simp [rowOf, hcat, hkey, valueKey]

theorem lookup_tok_made (ctx : EngineCtx) (now : Nat) (session : Str)
    {made : List (Str × Str × Str)} (hnd : (made.map (fun e => e.2.1)).Nodup)
    {e : Str × Str × Str} (he : e ∈ made) :
    lookupByToken ⟨made.map (rowOf ctx now session)⟩ session e.2.1
      = some (rowOf ctx now session e) := by
  unfold lookupByToken
  rw [show (⟨made.map (rowOf ctx now session)⟩ : LedgerState).rows
      = made.map (rowOf ctx now session) from rfl, List.find?_map]
  have hs : made.find? ((fun r => r.session_id == session && r.token == e.2.1)
      ∘ rowOf ctx now session) = some e := by
    induction made with
    | nil => cases he
    | cons hd tl iht =>
      by_cases hht : hd.2.1 = e.2.1
      · rw [List.find?_cons_of_pos _ (by simp [Function.comp, rowOf, hht])]
        rcases List.mem_cons.mp he with heq | het
        · rw [heq]
        · exfalso
          have hmem : e.2.1 ∈ tl.map (fun p => p.2.1) := List.mem_map.mpr ⟨e, het, rfl⟩
          rw [← hht] at hmem
          exact (List.nodup_cons.mp hnd).1 hmem
      · rw [List.find?_cons_of_neg _ (by simp [Function.comp, rowOf, hht])]
        have het : e ∈ tl := by
          rcases List.mem_cons.mp he with heq | h2
          · exact absurd (by rw [heq]) hht
          · exact h2
        exact iht (List.nodup_cons.mp hnd).2 het
  rw [hs]
  rfl

/-- Span chain over candidates (what the overlap resolver and in-bound
matches guarantee). -/
def chainCand (text : Str) : Nat → List Candidate → Prop
  | c, [] => c ≤ text.length
  | c, m :: ms => c ≤ m.startPos ∧ m.startPos ≤ m.endPos ∧ chainCand text m.endPos ms

theorem chain_of_spans (text : Str) :
    ∀ (ms : List Candidate) (asn : List (Nat × Nat × Str)) (c : Nat),
      asn.map (fun q => (q.1, q.2.1)) = ms.map (fun m => (m.startPos, m.endPos)) →
      chainCand text c ms → chain text c asn := by
  intro ms
  induction ms with
  | nil =>
    intro asn c hsp hch
    cases asn with
    | nil => exact hch
    | cons q asn' => simp at hsp
  | cons m ms' ih =>
    intro asn c hsp hch
    cases asn with
    | nil => simp at hsp
    | cons q asn' =>
      simp only [List.map_cons, List.cons.injEq] at hsp
      have h1 : q.1 = m.startPos := congrArg Prod.fst hsp.1
      have h2 : q.2.1 = m.endPos := congrArg Prod.snd hsp.1
      refine ⟨by rw [h1]; exact hch.1, by rw [h1, h2]; exact hch.2.1, ?_⟩
      rw [h2]
      exact ih asn' m.endPos hsp.2 hch.2.2

/-- A tokenize action whose value key is already in the ledger reuses
the stored token and leaves the ledger unchanged. -/
theorem applyAction_tokenize_found (ctx : EngineCtx) (now : Nat) (session : Str)
    {made : List (Str × Str × Str)} (hinj : Function.Injective ctx.hashText)
    {rule : RuleDef} {value : Str}
    (hact : pyStrip (pyLower rule.action) = ("tokenize").toList)
    {r : LedgerRow}
    (hlv : lookupByValue ⟨made.map (rowOf ctx now session)⟩ session
      (ctx.hashText (valueKey rule.category value)) (normCategory rule.category) = some r) :
    ∃ e ∈ made, e.1 = normCategory rule.category ∧
      pyStrip (pyCasefold e.2.2) = pyStrip (pyCasefold value) ∧
      applyAction ctx ⟨made.map (rowOf ctx now session)⟩ now session rule value
        = .ok (e.2.1, false, ⟨made.map (rowOf ctx now session)⟩) := by
  obtain ⟨e, he, hre, hecat, hekey⟩ := lookup_made_some ctx now session hinj hlv
  refine ⟨e, he, hecat, hekey, ?_⟩
  unfold applyAction
  rw [if_neg (by rw [hact]; decide), if_neg (by rw [hact]; decide),
    if_neg (by rw [hact]; decide), if_pos hact, goc_found hlv, hre]
  rfl

/-- A tokenize action on a fresh value key mints the next token of its
category and appends the row. -/
theorem applyAction_tokenize_fresh (ctx : EngineCtx) (now : Nat) (session : Str)
    {made : List (Str × Str × Str)} (hinj : Function.Injective ctx.hashText)
    {rule : RuleDef} {value : Str}
    (hact : pyStrip (pyLower rule.action) = ("tokenize").toList)
    (hwf : WFMade ctx made) (hle : made.length ≤ 998)
    (hlv : lookupByValue ⟨made.map (rowOf ctx now session)⟩ session
      (ctx.hashText (valueKey rule.category value)) (normCategory rule.category) = none) :
    applyAction ctx ⟨made.map (rowOf ctx now session)⟩ now session rule value
      = .ok (mkTokenStr (normCategory rule.category)
          ((made.filter (fun p => p.1 == normCategory rule.category)).length + 1), true,
          ⟨(made ++ [(normCategory rule.category,
            mkTokenStr (normCategory rule.category)
              ((made.filter (fun p => p.1 == normCategory rule.category)).length + 1),
            value)]).map (rowOf ctx now session)⟩) := by
  obtain ⟨hcall, hcne⟩ := normCategory_tokenChar rule.category
  have hmiss := lookup_made_none ctx now session hlv
  have hfr : freshRow ctx ⟨made.map (rowOf ctx now session)⟩ now session value rule.category
      = rowOf ctx now session (normCategory rule.category,
          mkTokenStr (normCategory rule.category)
            ((made.filter (fun p => p.1 == normCategory rule.category)).length + 1),
          value) := by
    unfold freshRow
    rw [countByCat_made]
    unfold rowOf valueKey
    rfl
  have hins : insertRow ⟨made.map (rowOf ctx now session)⟩
      (freshRow ctx ⟨made.map (rowOf ctx now session)⟩ now session value rule.category)
      = some ⟨(made ++ [(normCategory rule.category,
          mkTokenStr (normCategory rule.category)
            ((made.filter (fun p => p.1 == normCategory rule.category)).length + 1),
          value)]).map (rowOf ctx now session)⟩ := by
    rw [hfr]
    exact insert_fresh ctx now session hwf hle hinj hcall hcne hmiss
  have hgoc := goc_fresh_ok hlv hins
  unfold applyAction
  rw [if_neg (by rw [hact]; decide), if_neg (by rw [hact]; decide),
    if_neg (by rw [hact]; decide), if_pos hact, hgoc, hfr]
  rfl

/-- The emission loop of a tokenize-only sanitize run over an empty or
previously built ledger: it succeeds, renders the gap/token
interleaving, and the final ledger rows decrypt back to the matched
slices. -/
theorem sanLoop_build (ctx : EngineCtx) (now : Nat) (session text : Str)
    (hinj : Function.Injective ctx.hashText) :
    ∀ (ms : List Candidate) (made : List (Str × Str × Str)) (cursor : Nat)
      (trig : List Str) (tc : Nat) (enc : List Str),
      (∀ m ∈ ms, pyStrip (pyLower m.rule.action) = ("tokenize").toList) →
      (∀ m ∈ ms, pyUpper (normCategory m.rule.category) ∉ ctx.never) →
      (∀ m ∈ ms, m.value = slice text m.startPos m.endPos) →
      (∀ m ∈ ms, decryptValue ctx.key (encryptValue ctx.key m.value) = some m.value) →
      chainCand text cursor ms →
      WFMade ctx made →
      made.length + ms.length ≤ 999 →
      (∀ e ∈ made, ∀ m ∈ ms, e.1 = normCategory m.rule.category →
        pyStrip (pyCasefold e.2.2) = pyStrip (pyCasefold m.value) → e.2.2 = m.value) →
      (∀ m1 ∈ ms, ∀ m2 ∈ ms, normCategory m1.rule.category = normCategory m2.rule.category →
        pyStrip (pyCasefold m1.value) = pyStrip (pyCasefold m2.value) →
          m1.value = m2.value) →
      ∃ (made' : List (Str × Str × Str)) (asn : List (Nat × Nat × Str))
        (trigF : List Str) (tcF : Nat) (encF : List Str),
        sanLoop ctx now session text ms ⟨made.map (rowOf ctx now session)⟩ cursor trig tc enc
          = .ok (mixRender text [] asn cursor, trigF, tcF, encF,
              ⟨made'.map (rowOf ctx now session)⟩) ∧
        WFMade ctx made' ∧
        made'.length ≤ made.length + ms.length ∧
        (∀ e ∈ made, e ∈ made') ∧
        asn.map (fun q => (q.1, q.2.1)) = ms.map (fun m => (m.startPos, m.endPos)) ∧
        (∀ q ∈ asn, ∃ e ∈ made', e.2.1 = q.2.2 ∧ e.2.2 = slice text q.1 q.2.1) := by
  intro ms
  induction ms with
  | nil =>
    intro made cursor trig tc enc _ _ _ _ _ hwf _ _ _
    exact ⟨made, [], trig, tc, enc, by rw [sanLoop]; rfl, hwf, by simp,
      fun e he => he, by simp, by simp⟩
  | cons m ms' ih =>
    intro made cursor trig tc enc hact hnev hval hcip hch hwf hlen hcohm hcohp
    have hactm := hact m (List.mem_cons_self _ _)
    have hle998 : made.length ≤ 998 := by
      have := hlen
      simp only [List.length_cons] at this
      omega
    rcases hlv : lookupByValue ⟨made.map (rowOf ctx now session)⟩ session
        (ctx.hashText (valueKey m.rule.category m.value))
        (normCategory m.rule.category) with _ | r
    · -- fresh value key: mint a new token
      have happ := applyAction_tokenize_fresh ctx now session hinj hactm hwf hle998 hlv
      have hwf2 := wfmade_extend ctx hwf hle998
        (normCategory_tokenChar m.rule.category).1 (normCategory_tokenChar m.rule.category).2
        (hnev m (List.mem_cons_self _ _)) (hcip m (List.mem_cons_self _ _))
      obtain ⟨made', asn', trigF, tcF, encF, hrun, hwf', hlen', hsub', hsp', hfact'⟩ :=
        ih (made ++ [(normCategory m.rule.category,
            mkTokenStr (normCategory m.rule.category)
              ((made.filter (fun p => p.1 == normCategory m.rule.category)).length + 1),
            m.value)]) m.endPos (trig ++ [m.rule.rid]) (tc + 1)
          (if (enc.map pyCasefold).contains (pyCasefold m.value) then enc
            else enc ++ [m.value])
          (fun p hp => hact p (List.mem_cons_of_mem _ hp))
          (fun p hp => hnev p (List.mem_cons_of_mem _ hp))
          (fun p hp => hval p (List.mem_cons_of_mem _ hp))
          (fun p hp => hcip p (List.mem_cons_of_mem _ hp))
          hch.2.2 hwf2
          (by simp only [List.length_append, List.length_cons, List.length_nil] at *
              omega)
          (by intro e he p hp hcat hkey
              rcases List.mem_append.mp he with h | h
              · exact hcohm e h p (List.mem_cons_of_mem _ hp) hcat hkey
              · have he2 : e = (normCategory m.rule.category,
                    mkTokenStr (normCategory m.rule.category)
                      ((made.filter (fun q => q.1 == normCategory m.rule.category)).length
                        + 1), m.value) := by simpa using h
                rw [he2]
                exact hcohp m (List.mem_cons_self _ _) p (List.mem_cons_of_mem _ hp)
                  (by rw [← hcat, he2]) (by rw [← hkey, he2]))
          (fun p1 hp1 p2 hp2 => hcohp p1 (List.mem_cons_of_mem _ hp1)
            p2 (List.mem_cons_of_mem _ hp2))
      refine ⟨made', (m.startPos, m.endPos,
          mkTokenStr (normCategory m.rule.category)
            ((made.filter (fun p => p.1 == normCategory m.rule.category)).length + 1))
          :: asn', trigF, tcF, encF, ?_, hwf', ?_, ?_, ?_, ?_⟩
      · rw [sanLoop, happ]
        simp only
        simp only [if_true]
        rw [if_pos hactm, hrun]
        simp only
        simp only [mixRender]
        rw [if_neg (List.not_mem_nil _)]
        rfl
      · simp only [List.length_append, List.length_cons, List.length_nil] at *
        omega
      · intro e he
        exact hsub' e (List.mem_append.mpr (Or.inl he))
      · simp only [List.map_cons, hsp']
      · intro q hq
        rcases List.mem_cons.mp hq with rfl | hq'
        · refine ⟨(normCategory m.rule.category,
              mkTokenStr (normCategory m.rule.category)
                ((made.filter (fun p => p.1 == normCategory m.rule.category)).length + 1),
              m.value), hsub' _ (List.mem_append.mpr (Or.inr (List.mem_cons_self _ _))),
              rfl, ?_⟩
          exact hval m (List.mem_cons_self _ _)
        · exact hfact' q hq'
    · -- found: reuse the stored token
      obtain ⟨e, he, hecat, hekey, happ⟩ :=
        applyAction_tokenize_found ctx now session hinj hactm hlv
      have hvaleq : e.2.2 = m.value :=
        hcohm e he m (List.mem_cons_self _ _) hecat hekey
      obtain ⟨made', asn', trigF, tcF, encF, hrun, hwf', hlen', hsub', hsp', hfact'⟩ :=
        ih made m.endPos (trig ++ [m.rule.rid]) tc
          (if (enc.map pyCasefold).contains (pyCasefold m.value) then enc
            else enc ++ [m.value])
          (fun p hp => hact p (List.mem_cons_of_mem _ hp))
          (fun p hp => hnev p (List.mem_cons_of_mem _ hp))
          (fun p hp => hval p (List.mem_cons_of_mem _ hp))
          (fun p hp => hcip p (List.mem_cons_of_mem _ hp))
          hch.2.2 hwf
          (by simp only [List.length_cons] at hlen; omega)
          (fun e2 he2 p hp => hcohm e2 he2 p (List.mem_cons_of_mem _ hp))
          (fun p1 hp1 p2 hp2 => hcohp p1 (List.mem_cons_of_mem _ hp1)
            p2 (List.mem_cons_of_mem _ hp2))
      refine ⟨made', (m.startPos, m.endPos, e.2.1) :: asn', trigF, tcF, encF,
        ?_, hwf', ?_, hsub', ?_, ?_⟩
      · rw [sanLoop, happ]
        simp only
        simp only [Bool.false_eq_true, if_false]
        rw [if_pos hactm, hrun]
        simp only
        simp only [mixRender]
        rw [if_neg (List.not_mem_nil _)]
        rfl
      · simp only [List.length_cons] at *
        omega
      · simp only [List.map_cons, hsp']
      · intro q hq
        rcases List.mem_cons.mp hq with rfl | hq'
        · refine ⟨e, hsub' e he, rfl, ?_⟩
          rw [hvaleq]
          exact hval m (List.mem_cons_self _ _)
        · exact hfact' q hq'

/-- **C1 (amended).** The round trip holds for tokenize-only rule
sets: starting from an empty ledger, if every accepted match uses the
tokenize action, its category is outside `never_reconcile`, its value
is the matched slice of a token-free input, the matched value keys
collide only on equal values, `hash_text` is injective, ciphertexts
decrypt back, the accepted spans are an in-bounds monotone chain with
at most 999 matches, and reconcile runs before the TTL expires, then
reconcile restores the original text exactly with no missing tokens.
For any other action (see the counterexample) the round trip fails. -/
theorem c1_round_trip (ctx : EngineCtx) (now now2 : Nat) (session text : Str)
    (cands sel : List Candidate)
    (hsel : sel = (resolveOverlaps cands).mergeSort startLE)
    (hinj : Function.Injective ctx.hashText)
    (hscan : tokenScan text = [])
    (htne : text ≠ [])
    (hact : ∀ m ∈ sel, pyStrip (pyLower m.rule.action) = ("tokenize").toList)
    (hnevm : ∀ m ∈ sel, pyUpper (normCategory m.rule.category) ∉ ctx.never)
    (hval : ∀ m ∈ sel, m.value = slice text m.startPos m.endPos)
    (hcip : ∀ m ∈ sel, decryptValue ctx.key (encryptValue ctx.key m.value) = some m.value)
    (hch : chainCand text 0 sel)
    (hlen : sel.length ≤ 999)
    (hcohp : ∀ m1 ∈ sel, ∀ m2 ∈ sel,
      normCategory m1.rule.category = normCategory m2.rule.category →
      pyStrip (pyCasefold m1.value) = pyStrip (pyCasefold m2.value) → m1.value = m2.value)
    (hnow : ¬(now + ctx.ttl < now2)) :
    ∃ res st', sanitize ctx ⟨[]⟩ now session text cands = .ok (res, st') ∧
      ∃ cnt dec, reconcileTokens ctx st' now2 session res.sanitized_text
        = some (text, cnt, [], dec) := by
  have hno : NoTokIn text := (tokenScan_nil_iff text).mp hscan
  by_cases hres : resolveOverlaps cands = []
  · refine ⟨⟨text, text, [], 0, 0, [], ctx.hashText text⟩, ⟨[]⟩, ?_, 0, [], ?_⟩
    · unfold sanitize
      rw [if_neg htne, if_pos hres]
    · show reconcileTokens ctx ⟨[]⟩ now2 session text = some (text, 0, [], [])
      unfold reconcileTokens
      rw [if_neg htne]
      have hot : orderedTokens text = [] := by
        simp [orderedTokens, hscan, dedupF]
      rw [hot, reconcileGo]
  · have hselne : sel ≠ [] := by
      rw [hsel]
      intro h
      apply hres
      have hp := List.mergeSort_perm (resolveOverlaps cands) startLE
      rw [h] at hp
      exact (hp.symm.eq_nil)
    have hwf0 : WFMade ctx [] := ⟨by simp, by simp, by intro cat; simp⟩
    obtain ⟨made', asn, trigF, tcF, encF, hrun, hwf', hlen', -, hsp, hfact⟩ :=
      sanLoop_build ctx now session text hinj sel [] 0 [] 0 []
        hact hnevm hval hcip hch hwf0 (by simpa using hlen)
        (by intro e he; cases he) hcohp
    have htoksIsTok : ∀ q ∈ asn, IsTok q.2.2 := by
      intro q hq
      obtain ⟨e, he, hetok, -⟩ := hfact q hq
      obtain ⟨hall, hne, -, -, n, hn, htok⟩ := hwf'.1 e he
      rw [← hetok, htok]
      exact mkTokenStr_isTok hall hne hn
    have hchain : chain text 0 asn := chain_of_spans text sel asn 0 hsp hch
    have hscan2 : tokenScan (mixRender text [] asn 0) = asn.map (fun q => q.2.2) :=
      mixRender_tokenScan text hno asn 0 hchain htoksIsTok
    have hasne : asn ≠ [] := by
      intro h
      apply hselne
      rw [h] at hsp
      have := hsp.symm
      simpa using List.map_eq_nil_iff.mp this
    have hsanne : mixRender text [] asn 0 ≠ [] := by
      rcases asn with _ | ⟨q, rest⟩
      · exact absurd rfl hasne
      · intro h
        obtain ⟨u, hu, -⟩ := (htoksIsTok q (List.mem_cons_self _ _)).shape_lt
        simp only [mixRender] at h
        rw [if_neg (List.not_mem_nil _)] at h
        have hlenh := congrArg List.length h
        rw [hu] at hlenh
        simp at hlenh
    refine ⟨⟨text, mixRender text [] asn 0, sortedDedup trigF,
      (resolveOverlaps cands).length, tcF, encF, ctx.hashText text⟩,
      ⟨made'.map (rowOf ctx now session)⟩, ?_, ?_⟩
    · unfold sanitize
      rw [if_neg htne, if_neg hres, ← hsel,
        show (⟨[]⟩ : LedgerState)
          = ⟨([] : List (Str × Str × Str)).map (rowOf ctx now session)⟩ from rfl,
        hrun]
    · show ∃ cnt dec, reconcileTokens ctx ⟨made'.map (rowOf ctx now session)⟩ now2 session
        (mixRender text [] asn 0) = some (text, cnt, [], dec)
      have hprops : ∀ t ∈ orderedTokens (mixRender text [] asn 0), IsTok t ∧
          pyUpper (categoryOfToken t) ∉ ctx.never ∧
          ∃ row, lookupByToken ⟨made'.map (rowOf ctx now session)⟩ session t = some row ∧
            ¬(row.expires_at < now2) ∧
            ∃ v, decryptValue ctx.key row.value_enc = some v ∧
              ∀ q ∈ asn, q.2.2 = t → slice text q.1 q.2.1 = v := by
        intro t htm
        have htscan : t ∈ asn.map (fun q => q.2.2) := by
          rw [← hscan2]
          exact orderedTokens_mem.mp htm
        obtain ⟨q, hq, hqt⟩ := List.mem_map.mp htscan
        obtain ⟨e, he, hetok, -⟩ := hfact q hq
        obtain ⟨hall, hne, hnev2, hdec2, n, hn, htok⟩ := hwf'.1 e he
        have hte : t = e.2.1 := by rw [← hqt, ← hetok]
        refine ⟨by rw [hte, htok]; exact mkTokenStr_isTok hall hne hn, ?_, ?_⟩
        · rw [hte, htok, categoryOfToken_mkTokenStr hall hne hn]
          exact hnev2
        · refine ⟨rowOf ctx now session e, ?_, ?_, e.2.2, ?_, ?_⟩
          · rw [hte]
            exact lookup_tok_made ctx now session hwf'.2.1 he
          · show ¬((rowOf ctx now session e).expires_at < now2)
            exact hnow
          · exact hdec2
          · intro q' hq' hq't
            obtain ⟨e', he', he'tok, he'val⟩ := hfact q' hq'
            have hee : e' = e := by
              refine List.inj_on_of_nodup_map hwf'.2.1 he' he ?_
              rw [he'tok, hq't, hte]
            rw [← he'val, hee]
      obtain ⟨S', cnt', dec', hS', hgo⟩ := go_restore ctx
        ⟨made'.map (rowOf ctx now session)⟩ now2 session text hno
        (orderedTokens (mixRender text [] asn 0)) [] asn 0 0 [] []
        hchain htoksIsTok
        (fun q hq _ => orderedTokens_mem.mpr
          (by rw [hscan2]; exact List.mem_map.mpr ⟨q, hq, rfl⟩))
        hprops (orderedTokens_nodup _) (fun t _ ht => (List.not_mem_nil t) ht)
      refine ⟨cnt', dec', ?_⟩
      unfold reconcileTokens
      rw [if_neg hsanne, hgo]
      have hfull : mixRender text S' asn 0 = text := by
        rw [mixRender_full text S' asn 0 hchain ?_, List.drop_zero]
        intro q hq
        rw [hS' q.2.2]
        exact Or.inl (orderedTokens_mem.mpr
          (by rw [hscan2]; exact List.mem_map.mpr ⟨q, hq, rfl⟩))
      rw [hfull]

def ruleW1 : RuleDef := ⟨"rt".toList, "X".toList, "tokenize".toList, 0, []⟩

def candW1 : Candidate := ⟨3, 6, "bob".toList, ruleW1⟩

/-- Witness for `c1_round_trip`: one tokenize match on `"hi bob"`. -/
theorem c1_witness :
    Function.Injective ctxW.hashText ∧
    tokenScan ("hi bob".toList) = [] ∧
    (∃ res st', sanitize ctxW ⟨[]⟩ 0 sessW ("hi bob".toList) [candW1] = .ok (res, st') ∧
      ∃ cnt dec, reconcileTokens ctxW st' 5 sessW res.sanitized_text
        = some ("hi bob".toList, cnt, [], dec)) := by
  have hinj : Function.Injective ctxW.hashText := by
    intro a b h
    simpa [ctxW] using h
  have hscan : tokenScan ("hi bob".toList) = [] := by
    simp [tokenScan, tryTok, isPre, runShape, tokenChar, digitChar]
  have hselc : (resolveOverlaps [candW1]).mergeSort startLE = [candW1] := by
    simp [resolveOverlaps, resolveAux, overlapsB, startLE]
  refine ⟨hinj, hscan, c1_round_trip ctxW 0 5 sessW ("hi bob".toList) [candW1]
    ((resolveOverlaps [candW1]).mergeSort startLE) rfl hinj hscan (by decide)
    ?_ ?_ ?_ ?_ ?_ ?_ ?_ (by decide)⟩
  · rw [hselc]
    intro m hm
    have hm1 : m = candW1 := by simpa using hm
    rw [hm1]
    decide
  · rw [hselc]
    intro m hm
    simp [ctxW]
  · rw [hselc]
    intro m hm
    have hm1 : m = candW1 := by simpa using hm
    rw [hm1]
    decide
  · rw [hselc]
    intro m hm
    have hm1 : m = candW1 := by simpa using hm
    rw [hm1]
    decide
  · rw [hselc]
    exact ⟨by decide, by decide,
      show candW1.endPos ≤ ("hi bob".toList).length by decide⟩
  · rw [hselc]
    simp
  · rw [hselc]
    intro m1 h1 m2 h2 _ _
    have e1 : m1 = candW1 := by simpa using h1
    have e2 : m2 = candW1 := by simpa using h2
    rw [e1, e2]

end GptCleaner
